import Mathlib

/-!
Verification development for the float-liner outliner core.

The definitions below are a shallow embedding of the repository's
TypeScript source:

* `src/lib/types.ts` (block and pane record shapes, `parseBlockType`,
  `createBlock`, `createPaneLeaf`, `createPaneSplit`);
* `src/hooks/useBlockStore.ts` (the CRDT-backed block mutation engine:
  `createBlockAfter`, `createBlockInside`, `deleteBlock`, `indentBlock`,
  `outdentBlock`, `moveBlockUp`, `moveBlockDown`);
* `src/hooks/usePaneStore.ts` (the binary-tree pane layout manager and
  the per-pane collapse overlay);
* `src/lib/executor.ts` (`normalizeQuotes`, `extractShellCommand`,
  `executeShellBlock`) and `src/hooks/useSyncedYDoc.ts` (the sync
  bridge's update handler and its remote-origin suppression).

The Y.Doc blocks map is modelled as an association list with unique
keys (a Y.Map cannot hold duplicate keys), the rootIds Y.Array as a
`List String`, and every mutating operation is translated write-by-write
in the order the source performs them inside its transaction.
-/

set_option maxHeartbeats 1600000

namespace FloatLiner

/-! ## List helpers modelling the JavaScript array idioms

The source manipulates arrays with `indexOf`, `splice`, `filter`,
`Y.Array.delete`/`Y.Array.insert` and destructuring swaps.  Each idiom
is modelled by a small recursive function, including JavaScript's
behaviour when `indexOf` returns `-1`. -/

/-- Models `arr.indexOf(x)`: index of the first occurrence, `none` for `-1`. -/

def indexOfD : List String → String → Option Nat
  | [], _ => none
  | y :: t, x => if y = x then some 0 else (indexOfD t x).map (· + 1)

/-- Models `arr.indexOf(x)` followed by `arr.delete(index, 1)` when `index ≥ 0`:
removes the first occurrence of `x`, leaves the list unchanged when `x`
is absent. -/

def removeFirst : List String → String → List String
  | [], _ => []
  | y :: t, x => if y = x then t else y :: removeFirst t x

/-- Models `arr.filter(cid => cid !== x)`: removes every occurrence of `x`. -/

def removeAll : List String → String → List String
  | [], _ => []
  | y :: t, x => if y = x then removeAll t x else y :: removeAll t x

/-- Models `arr.splice(arr.indexOf(anchor) + 1, 0, x)` (and likewise
`Y.Array.insert(arr.indexOf(anchor) + 1, [x])`): inserts `x` right
after the first occurrence of `anchor`; when `anchor` is absent,
`indexOf` gives `-1` and the insertion lands at index `0`. -/

def insertAfterFirst (l : List String) (anchor x : String) : List String :=
  match indexOfD l anchor with
  | some i => l.take (i + 1) ++ x :: l.drop (i + 1)
  | none => x :: l

/-! ## Core types (`src/lib/types.ts`) -/

/-- Models `BlockType`, derived from the `prefix::` pattern of the content. -/

inductive BlockType where
  | text
  | sh
  | ai
  | ctx
  | dispatch
  | web
  | output
  | error
deriving DecidableEq

/-- Models `str.trim()` on the character list of a string (the strings the
program manipulates are plain text, so Unicode-whitespace subtleties do
not arise). -/

def trimChars (l : List Char) : List Char :=
  ((l.dropWhile Char.isWhitespace).reverse.dropWhile Char.isWhitespace).reverse

/-- Models `str.trim()`. -/

def strTrim (s : String) : String := ⟨trimChars s.data⟩

/-- Models `str.toLowerCase()`. -/

def strLower (s : String) : String := ⟨s.data.map Char.toLower⟩

/-- Models `str.startsWith(p)`. -/

def strStarts (s p : String) : Bool := p.data.isPrefixOf s.data

/-- Models `str.slice(n)` (all the sliced markers are ASCII, so code-unit and
character counting agree). -/

def strDrop (s : String) (n : Nat) : String := ⟨s.data.drop n⟩

/-- Models `parseBlockType(content)`: derive the block type from the content's
leading `marker::` pattern (case-insensitive, after trimming). -/

def parseBlockType (content : String) : BlockType :=
  let trimmed := strLower (strTrim content)
  if strStarts trimmed "sh::" ∨ strStarts trimmed "term::" then .sh
  else if strStarts trimmed "ai::" ∨ strStarts trimmed "chat::" then .ai
  else if strStarts trimmed "ctx::" then .ctx
  else if strStarts trimmed "dispatch::" then .dispatch
  else if strStarts trimmed "web::" ∨ strStarts trimmed "link::" then .web
  else .text

/-- A block record as stored in the Y.Doc `blocks` map.  The `id` field
of the TypeScript record always equals the map key it is stored under
and is never read by any mutation, so the key plays its role here. -/

structure Block where
  parentId : Option String
  childIds : List String
  content : String
  btype : BlockType
  collapsed : Bool
  createdAt : Nat
  updatedAt : Nat
deriving DecidableEq

/-- Models `createBlock(id, content, parentId)` with `Date.now()` passed in as
`now` (the model's logical clock). -/

def createBlock (content : String) (parentId : Option String) (now : Nat) : Block :=
  { parentId := parentId
    childIds := []
    content := content
    btype := parseBlockType content
    collapsed := false
    createdAt := now
    updatedAt := now }

/-! ## Shell executor helpers (`src/lib/executor.ts`) -/

/-- Models `normalizeQuotes`: smart double quotes to `"`, smart single quotes
to `'`, en/em dashes to `-`, applied character by character exactly as
the three single-character-class regex replacements do. -/

def normalizeQuotes (s : String) : String :=
  ⟨s.data.map fun c =>
    if c = '“' ∨ c = '”' then '"'
    else if c = '‘' ∨ c = '’' then '\''
    else if c = '–' ∨ c = '—' then '-'
    else c⟩

/-- Models `extractShellCommand(content)`: strip a `sh::`/`term::` marker,
trim, and normalize quotes; `null` when there is no marker, and also
when the remaining command is the empty string (JavaScript truthiness
of `command ? … : null`). -/

def extractShellCommand (content : String) : Option String :=
  let trimmed := strTrim content
  let lower := strLower trimmed
  let command : Option String :=
    if strStarts lower "sh::" then some (strTrim (strDrop trimmed 4))
    else if strStarts lower "term::" then some (strTrim (strDrop trimmed 6))
    else none
  match command with
  | some c => if c = "" then none else some (normalizeQuotes c)
  | none => none

/-! ## The blocks map and the document state (`useBlockStore.ts`)

`blocks: Y.Map<string, Block>` is modelled as an association list with
unique keys; `rootIds: Y.Array<string>` as a list.  `getB` is
`blocksMap.get`, `updateB` is `setValueOnYMap` (replace the record
stored under an existing key; silently does nothing when the key is
absent), `removeB` is `blocksMap.delete`, and appending a fresh pair is
`blocksMap.set(newId, …)`. -/

abbrev BlocksMap := List (String × Block)

/-- Models `blocksMap.get(k)`. -/

def getB : BlocksMap → String → Option Block
  | [], _ => none
  | p :: t, k => if p.1 = k then some p.2 else getB t k

/-- Models `setValueOnYMap(blocksMap, k, field, v)`: replace the record stored
under `k` by `f` of it; does nothing when `k` is absent. -/

def updateB (m : BlocksMap) (k : String) (f : Block → Block) : BlocksMap :=
  m.map fun p => if p.1 = k then (p.1, f p.2) else p

/-- Models `blocksMap.delete(k)`. -/

def removeB : BlocksMap → String → BlocksMap
  | [], _ => []
  | p :: t, k => if p.1 = k then removeB t k else p :: removeB t k

/-- The key set of the map, in storage order. -/

def keysOf (m : BlocksMap) : List String := m.map Prod.fst

/-- Models `(getValue(blocksMap.get(k), 'childIds') as string[]) || []`. -/

def childIdsOf (m : BlocksMap) (k : String) : List String :=
  match getB m k with
  | some b => b.childIds
  | none => []

/-- The replicated document: the `blocks` Y.Map and the `rootIds`
Y.Array. -/

structure Doc where
  blocks : BlocksMap
  rootIds : List String
deriving DecidableEq

/-! ## Block mutation engine (`useBlockStore.ts`)

Each operation is the body of the corresponding store action, with the
Y.Doc writes of its transaction applied in source order.  `uuidv4()`
becomes the explicit `newId` argument and `Date.now()` the explicit
`now` argument.  The store's mirror (`blocks`, `rootIds`) and the Y.Doc
hold the same data between transactions (the observers resync
synchronously at the end of every transaction), so a single `Doc` state
stands for both. -/

/-- Models `createBlockAfter(afterId)`: a fresh empty block becomes the sibling
immediately after `afterId`. -/

def createBlockAfter (s : Doc) (afterId newId : String) (now : Nat) : Doc :=
  match getB s.blocks afterId with
  | none => s
  | some afterBlock =>
    let s1 : Doc :=
      { s with blocks := s.blocks ++ [(newId, createBlock "" afterBlock.parentId now)] }
    match afterBlock.parentId with
    | some pid =>
      let childIds := childIdsOf s1.blocks pid
      { s1 with blocks := (updateB s1.blocks pid
          (fun b => { b with childIds := insertAfterFirst childIds afterId newId })) }
    | none =>
      { s1 with rootIds := insertAfterFirst s1.rootIds afterId newId }

/-- Models `createBlockInside(parentId)`: a fresh empty block is appended to
`parentId`'s children; the parent is force-expanded. -/

def createBlockInside (s : Doc) (parentId newId : String) (now : Nat) : Doc :=
  match getB s.blocks parentId with
  | none => s
  | some _ =>
    let s1 : Doc :=
      { s with blocks := s.blocks ++ [(newId, createBlock "" (some parentId) now)] }
    let childIds := childIdsOf s1.blocks parentId
    { s1 with blocks :=
        (updateB (updateB s1.blocks parentId
            (fun b => { b with childIds := childIds ++ [newId] }))
          parentId (fun b => { b with collapsed := false })) }

/-- Models `deleteBlock(id)`: refused while the block still has children;
otherwise unlink from the parent's childIds (or the root order) and
drop the record. -/

def deleteBlock (s : Doc) (id : String) : Doc :=
  match getB s.blocks id with
  | none => s
  | some block =>
    if 0 < block.childIds.length then s
    else
      let s1 : Doc :=
        match block.parentId with
        | some pid =>
          { s with blocks := (updateB s.blocks pid
              (fun b => { b with childIds := removeAll b.childIds id })) }
        | none => { s with rootIds := removeFirst s.rootIds id }
      { s1 with blocks := removeB s1.blocks id }

/-- Models `indentBlock(id)`: re-parent under the immediately preceding
sibling; refused for a first sibling. -/

def indentBlock (s : Doc) (id : String) (now : Nat) : Doc :=
  match getB s.blocks id with
  | none => s
  | some block =>
    let siblings : List String :=
      match block.parentId with
      | some pid => childIdsOf s.blocks pid
      | none => s.rootIds
    match indexOfD siblings id with
    | none => s
    | some 0 => s
    | some (i + 1) =>
      let newParentId := siblings.getD i ""
      match getB s.blocks newParentId with
      | none => s
      | some _ =>
        let s1 : Doc :=
          match block.parentId with
          | some pid =>
            { s with blocks := (updateB s.blocks pid
                (fun b => { b with childIds := removeAll b.childIds id })) }
          | none => { s with rootIds := removeFirst s.rootIds id }
        let newChildIds := childIdsOf s1.blocks newParentId ++ [id]
        let s2 : Doc :=
          { s1 with blocks :=
              (updateB (updateB s1.blocks newParentId
                  (fun b => { b with childIds := newChildIds }))
                newParentId (fun b => { b with collapsed := false })) }
        { s2 with blocks :=
            (updateB (updateB s2.blocks id
                (fun b => { b with parentId := some newParentId }))
              id (fun b => { b with updatedAt := now })) }

/-- Models `outdentBlock(id)`: re-parent to the grandparent (or to the root
order), immediately after the former parent; refused on roots. -/

def outdentBlock (s : Doc) (id : String) (now : Nat) : Doc :=
  match getB s.blocks id with
  | none => s
  | some block =>
    match block.parentId with
    | none => s
    | some pid =>
      match getB s.blocks pid with
      | none => s
      | some parent =>
        let s1 : Doc :=
          { s with blocks := (updateB s.blocks pid
              (fun b => { b with childIds := removeAll b.childIds id })) }
        let s2 : Doc :=
          match parent.parentId with
          | some gid =>
            match getB s1.blocks gid with
            | none => s1
            | some g =>
              { s1 with blocks := (updateB s1.blocks gid
                  (fun b => { b with childIds := insertAfterFirst g.childIds pid id })) }
          | none =>
            { s1 with rootIds := insertAfterFirst s1.rootIds pid id }
        { s2 with blocks :=
            (updateB (updateB s2.blocks id
                (fun b => { b with parentId := parent.parentId }))
              id (fun b => { b with updatedAt := now })) }

/-- Models `moveBlockUp(id)`: swap with the immediately preceding sibling.  In
the root order this is `delete(index-1, 2)` followed by
`insert(index-1, [id, siblings[index-1]])`; in a parent's childIds it
is the destructuring swap of positions `index-1` and `index`. -/

def moveBlockUp (s : Doc) (id : String) (now : Nat) : Doc :=
  match getB s.blocks id with
  | none => s
  | some block =>
    let siblings : List String :=
      match block.parentId with
      | some pid => childIdsOf s.blocks pid
      | none => s.rootIds
    match indexOfD siblings id with
    | none => s
    | some 0 => s
    | some (i + 1) =>
      let s1 : Doc :=
        match block.parentId with
        | none =>
          { s with rootIds :=
              (s.rootIds.take i ++ id :: siblings.getD i "" :: s.rootIds.drop (i + 2)) }
        | some pid =>
          { s with blocks := (updateB s.blocks pid
              (fun b => { b with childIds :=
                ((siblings.set i (siblings.getD (i + 1) "")).set (i + 1)
                  (siblings.getD i "")) })) }
      { s1 with blocks := (updateB s1.blocks id
          (fun b => { b with updatedAt := now })) }

/-- Models `moveBlockDown(id)`: swap with the immediately following sibling. -/

def moveBlockDown (s : Doc) (id : String) (now : Nat) : Doc :=
  match getB s.blocks id with
  | none => s
  | some block =>
    let siblings : List String :=
      match block.parentId with
      | some pid => childIdsOf s.blocks pid
      | none => s.rootIds
    match indexOfD siblings id with
    | none => s
    | some i =>
      if siblings.length - 1 ≤ i then s
      else
        let s1 : Doc :=
          match block.parentId with
          | none =>
            { s with rootIds :=
                (s.rootIds.take i ++ siblings.getD (i + 1) "" :: id :: s.rootIds.drop (i + 2)) }
          | some pid =>
            { s with blocks := (updateB s.blocks pid
                (fun b => { b with childIds :=
                  ((siblings.set i (siblings.getD (i + 1) "")).set (i + 1)
                    (siblings.getD i "")) })) }
        { s1 with blocks := (updateB s1.blocks id
            (fun b => { b with updatedAt := now })) }

/-! ## The §3 tree invariants -/

/-- When a live block names a parent, that parent is live and lists the
block among its children. -/

def parentLinked (s : Doc) (k : String) (b : Block) : Prop :=
  match b.parentId with
  | none => True
  | some pid =>
    match getB s.blocks pid with
    | none => False
    | some pb => k ∈ pb.childIds

instance (s : Doc) (k : String) (b : Block) : Decidable (parentLinked s k b) :=
  match hb : b.parentId with
  | none => .isTrue (by simp [parentLinked, hb])
  | some pid =>
    match hg : getB s.blocks pid with
    | none => .isFalse (by simp [parentLinked, hb, hg])
    | some pb =>
      if h : k ∈ pb.childIds then .isTrue (by simp [parentLinked, hb, hg, h])
      else .isFalse (by simp [parentLinked, hb, hg, h])

/-- The §3 tree invariants: no duplicate ids (map keys, root order, and
every childIds list), no dangling ids (everything listed in the root
order or in a childIds list is live), and exactly-one-parent-or-root
(a live block is in the root order iff its parentId is absent, any
childIds list containing it belongs to its recorded parent, and a
recorded parent indeed lists it). -/

def Invariant (s : Doc) : Prop :=
  (keysOf s.blocks).Nodup ∧
  s.rootIds.Nodup ∧
  (∀ p ∈ s.blocks, (p.2.childIds).Nodup) ∧
  (∀ x ∈ s.rootIds, (getB s.blocks x).isSome = true) ∧
  (∀ p ∈ s.blocks, ∀ x ∈ p.2.childIds, (getB s.blocks x).isSome = true) ∧
  (∀ p ∈ s.blocks, (p.1 ∈ s.rootIds ↔ p.2.parentId = none)) ∧
  (∀ p ∈ s.blocks, ∀ q ∈ s.blocks, p.1 ∈ q.2.childIds → p.2.parentId = some q.1) ∧
  (∀ p ∈ s.blocks, parentLinked s p.1 p.2)

instance (s : Doc) : Decidable (Invariant s) := by
  unfold Invariant
  infer_instance

/-- The ordered sequence that contains a block: its parent's childIds,
or the root order for a root block. -/

def containerOf (s : Doc) (b : Block) : List String :=
  match b.parentId with
  | some pid => childIdsOf s.blocks pid
  | none => s.rootIds

def c5doc : Doc :=
  { blocks := [("A", createBlock "" none 0), ("B", createBlock "" none 0)]
    rootIds := ["A", "B"] }

def c6doc : Doc :=
  { blocks := [("A", { parentId := none
                       childIds := ["B"]
                       content := ""
                       btype := .text
                       collapsed := false
                       createdAt := 0
                       updatedAt := 0 }),
               ("B", { parentId := some "A"
                       childIds := []
                       content := ""
                       btype := .text
                       collapsed := false
                       createdAt := 0
                       updatedAt := 0 })]
    rootIds := ["A"] }

/-! ### The move-then-outdent scenario (claim C8) -/

def c8doc : Doc :=
  { blocks := [("A", { parentId := none
                       childIds := ["B", "C"]
                       content := ""
                       btype := .text
                       collapsed := false
                       createdAt := 0
                       updatedAt := 0 }),
               ("B", { parentId := some "A"
                       childIds := []
                       content := ""
                       btype := .text
                       collapsed := false
                       createdAt := 0
                       updatedAt := 0 }),
               ("C", { parentId := some "A"
                       childIds := []
                       content := ""
                       btype := .text
                       collapsed := false
                       createdAt := 0
                       updatedAt := 0 })]
    rootIds := ["A"] }

/-! ### Origin tagging of backend updates (claim C2)

An `ApplyEvent` models one `Y.applyUpdate` call on the local document:
the `origin` the update carries and the value of
`isApplyingRemoteRef.current` while it is applied.  `updateHandler`
fires synchronously for the update and schedules the debounced push
unless the origin is `'remote'` or the flag is set. -/

structure ApplyEvent where
  origin : Option String
  applyingRemoteFlag : Bool
deriving DecidableEq

/-- The guard of `updateHandler`: return early (no push) when
`origin === 'remote'` or a remote application is in progress. -/

def updateHandlerSchedules (e : ApplyEvent) : Bool :=
  !(e.origin == some "remote" || e.applyingRemoteFlag)

/-- Models `loadInitialState`: `Y.applyUpdate(doc, stateBytes)` with no origin
argument, wrapped in `isApplyingRemoteRef.current = true … = false`. -/

def loadInitialStateEvent : ApplyEvent :=
  { origin := none, applyingRemoteFlag := true }

/-- Models `reloadFromState`: same untagged apply, also wrapped in the flag. -/

def reloadFromStateEvent : ApplyEvent :=
  { origin := none, applyingRemoteFlag := true }

/-- Models `executeShellBlock`: `Y.applyUpdate(doc, updateBytes)` with no
origin argument and no flag manipulation. -/

def executeShellBlockEvent : ApplyEvent :=
  { origin := none, applyingRemoteFlag := false }

/-! ### Operation sequences (§8 property P1)

`Op` packages the seven block mutations of the store.  The two create
operations take the freshly generated uuid as an argument; `Fresh`
records the (crypto.randomUUID) assumption that such a uuid is not a
live key, and `FreshAlong` threads it through a sequence. -/

inductive Op where
  | createAfter (afterId newId : String) (now : Nat) : Op
  | createInside (parentId newId : String) (now : Nat) : Op
  | delete (id : String) : Op
  | indent (id : String) (now : Nat) : Op
  | outdent (id : String) (now : Nat) : Op
  | moveUp (id : String) (now : Nat) : Op
  | moveDown (id : String) (now : Nat) : Op
deriving Repr, DecidableEq

def applyOp (s : Doc) : Op → Doc
  | .createAfter afterId newId now => createBlockAfter s afterId newId now
  | .createInside parentId newId now => createBlockInside s parentId newId now
  | .delete id => deleteBlock s id
  | .indent id now => indentBlock s id now
  | .outdent id now => outdentBlock s id now
  | .moveUp id now => moveBlockUp s id now
  | .moveDown id now => moveBlockDown s id now

def applyOps (s : Doc) : List Op → Doc
  | [] => s
  | op :: ops => applyOps (applyOp s op) ops

def Fresh (s : Doc) : Op → Prop
  | .createAfter _ newId _ => getB s.blocks newId = none
  | .createInside _ newId _ => getB s.blocks newId = none
  | _ => True

def FreshAlong (s : Doc) : List Op → Prop
  | [] => True
  | op :: ops => Fresh s op ∧ FreshAlong (applyOp s op) ops

instance instDecFresh (s : Doc) (op : Op) : Decidable (Fresh s op) := by
  cases op <;> simp only [Fresh] <;> infer_instance

def decFreshAlong : (s : Doc) → (ops : List Op) → Decidable (FreshAlong s ops)
  | _, [] => .isTrue trivial
  | s, op :: ops =>
    have : Decidable (FreshAlong (applyOp s op) ops) := decFreshAlong _ ops
    inferInstanceAs (Decidable (Fresh s op ∧ FreshAlong (applyOp s op) ops))

instance (s : Doc) (ops : List Op) : Decidable (FreshAlong s ops) :=
  decFreshAlong s ops

def c1doc : Doc :=
  { blocks := [("A", createBlock "" none 0)], rootIds := ["A"] }

def c1ops : List Op :=
  [.createInside "A" "B" 1, .createAfter "B" "C" 2, .moveDown "B" 3,
   .outdent "C" 4, .indent "C" 5, .moveUp "C" 6, .delete "C"]

/-! ## Pane layout (`usePaneStore.ts` and `src/lib/types.ts`)

The pane tree is a binary tree of leaves and splits.  The float `ratio`
is modelled as a rational; no claim depends on its value. -/

inductive SplitDirection where
  | horizontal
  | vertical
deriving DecidableEq

inductive PaneNode where
  | leaf (id : String) (rootBlockId : String) (focusedBlockId : Option String) :
      PaneNode
  | split (id : String) (direction : SplitDirection) (ratio : ℚ)
      (first second : PaneNode) : PaneNode
deriving DecidableEq

def PaneNode.nodeId : PaneNode → String
  | .leaf i _ _ => i
  | .split i _ _ _ _ => i

def PaneNode.isLeafB : PaneNode → Bool
  | .leaf _ _ _ => true
  | .split _ _ _ _ _ => false

/-- Models `createPaneLeaf(id, rootBlockId)`. -/

def createPaneLeaf (i rootBlockId : String) : PaneNode :=
  .leaf i rootBlockId none

/-- Models `createPaneSplit(id, direction, first, second)` with the default
ratio `0.5`. -/

def createPaneSplit (i : String) (d : SplitDirection) (f s : PaneNode) :
    PaneNode :=
  .split i d (1 / 2) f s

/-- Models `findNode(node, id)`. -/

def findNode : PaneNode → String → Option PaneNode
  | .leaf nid rb fo, i =>
    if nid = i then some (.leaf nid rb fo) else none
  | .split nid d r f s, i =>
    if nid = i then some (.split nid d r f s)
    else (findNode f i).orElse fun _ => findNode s i

/-- Models `findParent(root, targetId)`: the split whose immediate child has
the target id. -/

def findParent : PaneNode → String → Option PaneNode
  | .leaf _ _ _, _ => none
  | .split nid d r f s, target =>
    if f.nodeId = target ∨ s.nodeId = target then some (.split nid d r f s)
    else (findParent f target).orElse fun _ => findParent s target

/-- Models `replaceNode(root, targetId, newNode)`. -/

def replaceNode : PaneNode → String → PaneNode → PaneNode
  | .leaf nid rb fo, targetId, newNode =>
    if nid = targetId then newNode else .leaf nid rb fo
  | .split nid d r f s, targetId, newNode =>
    if nid = targetId then newNode
    else .split nid d r (replaceNode f targetId newNode)
      (replaceNode s targetId newNode)

/-- Models `collectLeaves(node)`. -/

def collectLeaves : PaneNode → List PaneNode
  | .leaf i rb fo => [.leaf i rb fo]
  | .split _ _ _ f s => collectLeaves f ++ collectLeaves s

structure PaneLayout where
  root : PaneNode
  activePaneId : String
deriving DecidableEq

/-- The pane store state: the layout plus the per-pane collapse
overlay (`collapsedBlocks: Map<string, Set<string>>`), modelled as an
association list of pane id to overridden block-id list. -/

structure PaneStore where
  layout : PaneLayout
  collapsedBlocks : List (String × List String)
deriving DecidableEq

def initialPaneId : String := "pane-1"

/-- Models `setActivePane(paneId)`: no validation at all. -/

def setActivePane (st : PaneStore) (paneId : String) : PaneStore :=
  { st with layout := { st.layout with activePaneId := paneId } }

/-- Models `splitPane(paneId, direction)`; the two fresh uuid-based ids are
passed in. -/

def splitPane (st : PaneStore) (paneId : String) (d : SplitDirection)
    (newPaneId splitId : String) : PaneStore :=
  match findNode st.layout.root paneId with
  | some (.leaf lid rb fo) =>
    { st with layout :=
        { root := replaceNode st.layout.root paneId
            (createPaneSplit splitId d (.leaf lid rb fo)
              (createPaneLeaf newPaneId rb))
          activePaneId := newPaneId } }
  | _ => st

/-- Models `closePane(paneId)`.  The impossible leaf arm mirrors the
TypeScript cast of `findParent`'s result to `PaneSplit`. -/

def closePane (st : PaneStore) (paneId : String) : PaneStore :=
  if (collectLeaves st.layout.root).length ≤ 1 then st
  else
    match findParent st.layout.root paneId with
    | none => st
    | some (.leaf _ _ _) => st
    | some (.split sid _ _ f s) =>
      let sibling := if f.nodeId = paneId then s else f
      let newRoot := replaceNode st.layout.root sid sibling
      let newActiveId :=
        if st.layout.activePaneId = paneId then
          match collectLeaves newRoot with
          | [] => initialPaneId
          | l :: _ => if l.nodeId = "" then initialPaneId else l.nodeId
        else st.layout.activePaneId
      { st with layout := { root := newRoot, activePaneId := newActiveId } }

/-- The recursive updater inside `setRatio`, with the clamp to
`[0.1, 0.9]`. -/

def updateRatio (splitId : String) (ratio : ℚ) : PaneNode → PaneNode
  | .split nid d r f s =>
    if nid = splitId then .split nid d (max (1/10) (min (9/10) ratio)) f s
    else .split nid d r (updateRatio splitId ratio f) (updateRatio splitId ratio s)
  | n => n

def setRatio (st : PaneStore) (splitId : String) (ratio : ℚ) : PaneStore :=
  { st with layout :=
      { st.layout with root := updateRatio splitId ratio st.layout.root } }

/-- The recursive updater inside `setPaneRoot`. -/

def updatePaneRoot (paneId rootBlockId : String) : PaneNode → PaneNode
  | .leaf lid rb fo =>
    if lid = paneId then .leaf lid rootBlockId fo else .leaf lid rb fo
  | .split nid d r f s =>
    .split nid d r (updatePaneRoot paneId rootBlockId f)
      (updatePaneRoot paneId rootBlockId s)

def setPaneRoot (st : PaneStore) (paneId rootBlockId : String) : PaneStore :=
  { st with layout :=
      { st.layout with root := updatePaneRoot paneId rootBlockId st.layout.root } }

/-- Models `Map.get`. -/

def mapGet : List (String × List String) → String → Option (List String)
  | [], _ => none
  | (k, v) :: rest, i => if k = i then some v else mapGet rest i

/-- Models `Map.set`: replace in place, or append a new entry. -/

def mapSet : List (String × List String) → String → List String →
    List (String × List String)
  | [], k, v => [(k, v)]
  | (k0, v0) :: rest, k, v =>
    if k0 = k then (k0, v) :: rest else (k0, v0) :: mapSet rest k v

/-- Models `toggleCollapsed(paneId, blockId)` on the pane overlay. -/

def toggleCollapsed (st : PaneStore) (paneId blockId : String) : PaneStore :=
  let paneSet := (mapGet st.collapsedBlocks paneId).getD []
  let paneSet' :=
    if blockId ∈ paneSet then paneSet.erase blockId else paneSet ++ [blockId]
  { st with collapsedBlocks := mapSet st.collapsedBlocks paneId paneSet' }

/-- Models `isCollapsed(paneId, blockId, blockDefault)`. -/

def isCollapsed (st : PaneStore) (paneId blockId : String)
    (blockDefault : Bool) : Bool :=
  match mapGet st.collapsedBlocks paneId with
  | none => blockDefault
  | some paneSet => if blockId ∈ paneSet then !blockDefault else blockDefault

/-! ### Pane tree infrastructure -/

def nodeIds : PaneNode → List String
  | .leaf i _ _ => [i]
  | .split i _ _ f s => i :: (nodeIds f ++ nodeIds s)

def leafIds (n : PaneNode) : List String :=
  (collectLeaves n).map PaneNode.nodeId

/-- Whether `x` names a live Leaf: `findNode` resolves it to a leaf. -/

def resolvesLeaf (n : PaneNode) (x : String) : Bool :=
  match findNode n x with
  | some m => m.isLeafB
  | none => false

/-- The PaneLayout invariant of §4: the tree always holds at least one
Leaf (true of every tree), and the active pane id resolves to a live
Leaf. -/

def activeResolves (l : PaneLayout) : Bool :=
  resolvesLeaf l.root l.activePaneId

inductive Subtree : PaneNode → PaneNode → Prop where
  | refl (n : PaneNode) : Subtree n n
  | left {m f s : PaneNode} {i : String} {d : SplitDirection} {r : ℚ} :
      Subtree m f → Subtree m (.split i d r f s)
  | right {m f s : PaneNode} {i : String} {d : SplitDirection} {r : ℚ} :
      Subtree m s → Subtree m (.split i d r f s)

def c3store : PaneStore :=
  { layout :=
      { root := PaneNode.split "s1" .horizontal (1/2)
          (PaneNode.split "s2" .vertical (1/2)
            (PaneNode.leaf "a" "r" none) (PaneNode.leaf "b" "r" none))
          (PaneNode.leaf "c" "r" none)
        activePaneId := "a" }
    collapsedBlocks := [] }

def c3wstore : PaneStore :=
  { layout :=
      { root := PaneNode.split "s1" .horizontal (1/2)
          (PaneNode.leaf "a" "r" none) (PaneNode.leaf "b" "r" none)
        activePaneId := "a" }
    collapsedBlocks := [] }

def c4store : PaneStore :=
  { layout := { root := PaneNode.leaf "pane-1" "root" none
                activePaneId := "pane-1" }
    collapsedBlocks := [] }

def c4wstore : PaneStore :=
  { layout :=
      { root := PaneNode.split "s1" .horizontal (1/2)
          (PaneNode.leaf "p1" "r" none) (PaneNode.leaf "p2" "r" none)
        activePaneId := "p1" }
    collapsedBlocks := [] }

def c7store : PaneStore :=
  { layout :=
      { root := PaneNode.split "s1" .horizontal (1/2)
          (PaneNode.leaf "pane-a" "r" none) (PaneNode.leaf "pane-b" "r" none)
        activePaneId := "pane-b" }
    collapsedBlocks := [("pane-a", ["b1"])] }

def c7wstore : PaneStore :=
  { layout := { root := PaneNode.leaf "pane-1" "root" none
                activePaneId := "pane-1" }
    collapsedBlocks := [("pane-1", ["blk"])] }

def c10store : PaneStore :=
  { layout := { root := PaneNode.leaf "pane-1" "root" none
                activePaneId := "pane-1" }
    collapsedBlocks := [("pane-1", ["b1"])] }

/-! ## Theorems -/

theorem indexOfD_eq_none {l : List String} {x : String} :
    indexOfD l x = none ↔ x ∉ l := by
  induction l with
  | nil => simp [indexOfD]
  | cons y t ih =>
    by_cases h : y = x
    · simp [indexOfD, h]
    · simp [indexOfD, h, ih, Ne.symm h]

theorem indexOfD_spec {l : List String} {x : String} {i : Nat}
    (h : indexOfD l x = some i) :
    ∃ l₁ l₂, l = l₁ ++ x :: l₂ ∧ l₁.length = i ∧ x ∉ l₁ := by
  induction l generalizing i with
  | nil => simp [indexOfD] at h
  | cons y t ih =>
    by_cases hy : y = x
    · simp [indexOfD, hy] at h
      exact ⟨[], t, by simp [hy], by simp [← h], by simp⟩
    · simp [indexOfD, hy] at h
      obtain ⟨j, hj, hji⟩ := h
      obtain ⟨l₁, l₂, hl, hlen, hnx⟩ := ih hj
      exact ⟨y :: l₁, l₂, by simp [hl], by simp [hlen, hji],
        by simp [hnx, Ne.symm hy]⟩

theorem indexOfD_append_cons {l₁ l₂ : List String} {x : String}
    (hx : x ∉ l₁) : indexOfD (l₁ ++ x :: l₂) x = some l₁.length := by
  induction l₁ with
  | nil => simp [indexOfD]
  | cons y t ih =>
    have hy : y ≠ x := by intro h; exact hx (by simp [h])
    have ht : x ∉ t := fun h => hx (by simp [h])
    simp [indexOfD, hy, ih ht]

theorem removeFirst_of_not_mem {l : List String} {x : String}
    (h : x ∉ l) : removeFirst l x = l := by
  induction l with
  | nil => rfl
  | cons y t ih =>
    have hy : y ≠ x := by intro hxy; exact h (by simp [hxy])
    have ht : x ∉ t := fun hm => h (by simp [hm])
    simp [removeFirst, hy, ih ht]

theorem removeFirst_sublist (l : List String) (x : String) :
    (removeFirst l x).Sublist l := by
  induction l with
  | nil => simp [removeFirst]
  | cons y t ih =>
    by_cases h : y = x
    · rw [removeFirst, if_pos h]
      exact List.sublist_cons_self y t
    · rw [removeFirst, if_neg h]
      exact ih.cons₂ y

theorem removeFirst_nodup {l : List String} {x : String} (h : l.Nodup) :
    (removeFirst l x).Nodup :=
  (removeFirst_sublist l x).nodup h

theorem mem_removeFirst_of_mem {l : List String} {x y : String}
    (h : y ∈ removeFirst l x) : y ∈ l :=
  (removeFirst_sublist l x).mem h

theorem mem_removeFirst_iff {l : List String} {x y : String}
    (hnd : l.Nodup) : y ∈ removeFirst l x ↔ y ∈ l ∧ y ≠ x := by
  induction l with
  | nil => simp [removeFirst]
  | cons z t ih =>
    by_cases hz : z = x
    · rw [removeFirst, if_pos hz]
      subst hz
      have hzt : z ∉ t := (List.nodup_cons.mp hnd).1
      constructor
      · intro hy
        refine ⟨by simp [hy], ?_⟩
        intro hyx; subst hyx; exact hzt hy
      · rintro ⟨hy, hne⟩
        rcases List.mem_cons.mp hy with h | h
        · exact absurd h hne
        · exact h
    · rw [removeFirst, if_neg hz]
      have hnd' : t.Nodup := (List.nodup_cons.mp hnd).2
      constructor
      · intro hy
        rcases List.mem_cons.mp hy with h | h
        · subst h; exact ⟨by simp, fun hzx => hz hzx⟩
        · have := (ih hnd').mp h
          exact ⟨by simp [this.1], this.2⟩
      · rintro ⟨hy, hne⟩
        rcases List.mem_cons.mp hy with h | h
        · simp [h]
        · simp [(ih hnd').mpr ⟨h, hne⟩]

theorem mem_removeAll {l : List String} {x y : String} :
    y ∈ removeAll l x ↔ y ∈ l ∧ y ≠ x := by
  induction l with
  | nil => simp [removeAll]
  | cons z t ih =>
    by_cases hz : z = x
    · rw [removeAll, if_pos hz]
      subst hz
      rw [ih]
      simp only [List.mem_cons]
      constructor
      · rintro ⟨h, hne⟩; exact ⟨Or.inr h, hne⟩
      · rintro ⟨h | h, hne⟩
        · exact absurd h hne
        · exact ⟨h, hne⟩
    · rw [removeAll, if_neg hz]
      simp only [List.mem_cons, ih]
      constructor
      · rintro (h | ⟨h, hne⟩)
        · subst h; exact ⟨Or.inl rfl, hz⟩
        · exact ⟨Or.inr h, hne⟩
      · rintro ⟨h | h, hne⟩
        · exact Or.inl h
        · exact Or.inr ⟨h, hne⟩

theorem removeAll_sublist (l : List String) (x : String) :
    (removeAll l x).Sublist l := by
  induction l with
  | nil => simp [removeAll]
  | cons y t ih =>
    by_cases h : y = x
    · simp only [removeAll, if_pos h]
      exact ih.trans (List.sublist_cons_self y t)
    · simp only [removeAll, if_neg h]
      exact ih.cons₂ y

theorem removeAll_nodup {l : List String} {x : String} (h : l.Nodup) :
    (removeAll l x).Nodup :=
  (removeAll_sublist l x).nodup h

theorem removeAll_of_not_mem {l : List String} {x : String}
    (h : x ∉ l) : removeAll l x = l := by
  induction l with
  | nil => rfl
  | cons y t ih =>
    have hy : y ≠ x := by intro hxy; exact h (by simp [hxy])
    have ht : x ∉ t := fun hm => h (by simp [hm])
    simp [removeAll, hy, ih ht]

theorem removeAll_append (l₁ l₂ : List String) (x : String) :
    removeAll (l₁ ++ l₂) x = removeAll l₁ x ++ removeAll l₂ x := by
  induction l₁ with
  | nil => simp [removeAll]
  | cons y t ih =>
    by_cases h : y = x <;> simp [removeAll, h, ih]

theorem insertAfterFirst_perm (l : List String) (anchor x : String) :
    (insertAfterFirst l anchor x).Perm (x :: l) := by
  unfold insertAfterFirst
  cases h : indexOfD l anchor with
  | none => exact List.Perm.refl _
  | some i =>
    have h1 : (l.take (i + 1) ++ x :: l.drop (i + 1)).Perm
        (x :: (l.take (i + 1) ++ l.drop (i + 1))) := List.perm_middle
    rw [List.take_append_drop] at h1
    exact h1

theorem mem_insertAfterFirst {l : List String} {anchor x y : String} :
    y ∈ insertAfterFirst l anchor x ↔ y = x ∨ y ∈ l := by
  have h := (insertAfterFirst_perm l anchor x).mem_iff (a := y)
  simpa using h

theorem insertAfterFirst_nodup {l : List String} {anchor x : String}
    (hnd : l.Nodup) (hx : x ∉ l) : (insertAfterFirst l anchor x).Nodup :=
  (insertAfterFirst_perm l anchor x).nodup_iff.mpr (by simp [hnd, hx])

theorem insertAfterFirst_append_cons {l₁ l₂ : List String}
    {anchor x : String} (ha : anchor ∉ l₁) :
    insertAfterFirst (l₁ ++ anchor :: l₂) anchor x =
      l₁ ++ anchor :: x :: l₂ := by
  have htake : (l₁ ++ anchor :: l₂).take (l₁.length + 1) = l₁ ++ [anchor] := by
    rw [List.take_append_eq_append_take]
    simp
  have hdrop : (l₁ ++ anchor :: l₂).drop (l₁.length + 1) = l₂ := by
    rw [List.drop_append_eq_append_drop]
    simp
  unfold insertAfterFirst
  rw [indexOfD_append_cons ha]
  show (l₁ ++ anchor :: l₂).take (l₁.length + 1) ++
      x :: (l₁ ++ anchor :: l₂).drop (l₁.length + 1) = l₁ ++ anchor :: x :: l₂
  rw [htake, hdrop]
  simp

theorem getB_updateB (m : BlocksMap) (k : String) (f : Block → Block)
    (k' : String) :
    getB (updateB m k f) k' =
      if k' = k then (getB m k).map f else getB m k' := by
  induction m with
  | nil => simp [updateB, getB]
  | cons p t ih =>
    by_cases hk' : k' = k
    · subst hk'
      by_cases hpk : p.1 = k'
      · simp [updateB, getB, hpk]
      · simpa [updateB, getB, hpk] using ih
    · by_cases hpk : p.1 = k
      · have hne : p.1 ≠ k' := fun h => hk' (h.symm.trans hpk)
        have hkk' : k ≠ k' := fun h => hk' h.symm
        simpa [updateB, getB, hpk, hne, hk', hkk'] using ih
      · by_cases hpk' : p.1 = k'
        · simp [updateB, getB, hpk, hpk', hk']
        · simpa [updateB, getB, hpk, hpk', hk'] using ih

theorem getB_append (m l : BlocksMap) (k : String) :
    getB (m ++ l) k =
      match getB m k with
      | some b => some b
      | none => getB l k := by
  induction m with
  | nil => simp [getB]
  | cons p t ih =>
    by_cases h : p.1 = k <;> simp [getB, h, ih]

theorem getB_removeB (m : BlocksMap) (k k' : String) :
    getB (removeB m k) k' = if k' = k then none else getB m k' := by
  induction m with
  | nil => simp [removeB, getB]
  | cons p t ih =>
    by_cases hk' : k' = k
    · subst hk'
      by_cases hpk : p.1 = k'
      · simpa [removeB, getB, hpk] using ih
      · simpa [removeB, getB, hpk] using ih
    · by_cases hpk : p.1 = k
      · have hne : p.1 ≠ k' := fun h => hk' (h.symm.trans hpk)
        have hkk' : k ≠ k' := fun h => hk' h.symm
        simpa [removeB, getB, hpk, hne, hk', hkk'] using ih
      · by_cases hpk' : p.1 = k'
        · simp [removeB, getB, hpk, hpk', hk']
        · simpa [removeB, getB, hpk, hpk', hk'] using ih

theorem getB_singleton (k : String) (b : Block) (k' : String) :
    getB [(k, b)] k' = if k' = k then some b else none := by
  by_cases h : k' = k
  · simp [getB, h]
  · have hne : k ≠ k' := fun hh => h hh.symm
    simp [getB, h, hne]

theorem keysOf_updateB (m : BlocksMap) (k : String) (f : Block → Block) :
    keysOf (updateB m k f) = keysOf m := by
  induction m with
  | nil => rfl
  | cons p t ih =>
    by_cases h : p.1 = k <;> simp [updateB, keysOf, h] <;>
      simpa [updateB, keysOf] using ih

theorem keysOf_append (m l : BlocksMap) :
    keysOf (m ++ l) = keysOf m ++ keysOf l := by
  simp [keysOf]

theorem keysOf_removeB (m : BlocksMap) (k : String) :
    keysOf (removeB m k) = removeAll (keysOf m) k := by
  induction m with
  | nil => rfl
  | cons p t ih =>
    by_cases h : p.1 = k <;> simp [removeB, keysOf, removeAll, h] <;>
      simpa [keysOf] using ih

theorem getB_isSome_iff_mem_keys (m : BlocksMap) (k : String) :
    (getB m k).isSome = true ↔ k ∈ keysOf m := by
  induction m with
  | nil => simp [getB, keysOf]
  | cons p t ih =>
    by_cases h : p.1 = k
    · simp [getB, keysOf, h]
    · have hne : k ≠ p.1 := fun hh => h hh.symm
      simp only [getB, keysOf, List.map_cons, List.mem_cons, if_neg h]
      rw [← keysOf]
      simp [hne, ih]

theorem getB_eq_none_iff_not_mem_keys (m : BlocksMap) (k : String) :
    getB m k = none ↔ k ∉ keysOf m := by
  rw [← getB_isSome_iff_mem_keys]
  cases getB m k <;> simp

theorem getB_some_of_mem {m : BlocksMap} {p : String × Block}
    (hnd : (keysOf m).Nodup) (hp : p ∈ m) : getB m p.1 = some p.2 := by
  induction m with
  | nil => simp at hp
  | cons q t ih =>
    rcases List.mem_cons.mp hp with h | h
    · subst h; simp [getB]
    · have hq : q.1 ≠ p.1 := by
        intro he
        have : p.1 ∈ keysOf t := List.mem_map_of_mem Prod.fst h
        exact (List.nodup_cons.mp (by simpa [keysOf] using hnd)).1 (he ▸ this)
      have hnd' : (keysOf t).Nodup :=
        (List.nodup_cons.mp (by simpa [keysOf] using hnd)).2
      simp [getB, hq, ih hnd' h]

theorem mem_of_getB_some {m : BlocksMap} {k : String} {b : Block}
    (h : getB m k = some b) : (k, b) ∈ m := by
  induction m with
  | nil => simp [getB] at h
  | cons p t ih =>
    by_cases hp : p.1 = k
    · simp [getB, hp] at h
      subst h
      have : p = (k, p.2) := by rw [← hp]
      simp [← this]
    · simp [getB, hp] at h
      simp [ih h]

theorem parentLinked_iff {s : Doc} {k : String} {b : Block} :
    parentLinked s k b ↔
      ∀ pid, b.parentId = some pid →
        ∃ pb, getB s.blocks pid = some pb ∧ k ∈ pb.childIds := by
  unfold parentLinked
  cases hb : b.parentId with
  | none => simp
  | some pid =>
    cases hg : getB s.blocks pid with
    | none => simp [hg]
    | some pb => simp [hg]

namespace Invariant

variable {s : Doc}

theorem keysNodup (h : Invariant s) : (keysOf s.blocks).Nodup := h.1

theorem rootsNodup (h : Invariant s) : s.rootIds.Nodup := h.2.1

theorem childNodup (h : Invariant s) {k : String} {b : Block}
    (hg : getB s.blocks k = some b) : b.childIds.Nodup :=
  h.2.2.1 (k, b) (mem_of_getB_some hg)

theorem rootLive (h : Invariant s) {x : String} (hx : x ∈ s.rootIds) :
    (getB s.blocks x).isSome = true :=
  h.2.2.2.1 x hx

theorem childLive (h : Invariant s) {k : String} {b : Block}
    (hg : getB s.blocks k = some b) {x : String} (hx : x ∈ b.childIds) :
    (getB s.blocks x).isSome = true :=
  h.2.2.2.2.1 (k, b) (mem_of_getB_some hg) x hx

theorem rootConsist (h : Invariant s) {k : String} {b : Block}
    (hg : getB s.blocks k = some b) : k ∈ s.rootIds ↔ b.parentId = none :=
  h.2.2.2.2.2.1 (k, b) (mem_of_getB_some hg)

theorem childConsist (h : Invariant s) {k : String} {b : Block}
    {q : String} {qb : Block} (hg : getB s.blocks k = some b)
    (hq : getB s.blocks q = some qb) (hm : k ∈ qb.childIds) :
    b.parentId = some q :=
  h.2.2.2.2.2.2.1 (k, b) (mem_of_getB_some hg) (q, qb) (mem_of_getB_some hq) hm

theorem parentLink (h : Invariant s) {k : String} {b : Block}
    (hg : getB s.blocks k = some b) {pid : String}
    (hp : b.parentId = some pid) :
    ∃ pb, getB s.blocks pid = some pb ∧ k ∈ pb.childIds :=
  parentLinked_iff.mp (h.2.2.2.2.2.2.2 (k, b) (mem_of_getB_some hg)) pid hp

/-- A dead id is not listed in the root order. -/
theorem dead_not_root (h : Invariant s) {x : String}
    (hx : getB s.blocks x = none) : x ∉ s.rootIds := by
  intro hm
  have := h.rootLive hm
  rw [hx] at this
  simp at this

/-- A dead id is not listed in any live block's childIds. -/
theorem dead_not_child (h : Invariant s) {x : String}
    (hx : getB s.blocks x = none) {k : String} {b : Block}
    (hg : getB s.blocks k = some b) : x ∉ b.childIds := by
  intro hm
  have := h.childLive hg hm
  rw [hx] at this
  simp at this

/-- A root id is not listed in any live block's childIds. -/
theorem root_not_child (h : Invariant s) {x : String}
    (hx : x ∈ s.rootIds) {q : String} {qb : Block}
    (hq : getB s.blocks q = some qb) : x ∉ qb.childIds := by
  intro hm
  have hlive := h.rootLive hx
  obtain ⟨b, hb⟩ := Option.isSome_iff_exists.mp hlive
  have hnone : b.parentId = none := (h.rootConsist hb).mp hx
  have := h.childConsist hb hq hm
  rw [hnone] at this
  simp at this

/-- A block's id is listed only in its recorded parent's childIds. -/
theorem child_only_parent (h : Invariant s) {k : String} {b : Block}
    (hg : getB s.blocks k = some b) {q : String} {qb : Block}
    (hq : getB s.blocks q = some qb) (hqne : b.parentId ≠ some q) :
    k ∉ qb.childIds := by
  intro hm
  exact hqne (h.childConsist hg hq hm)

end Invariant

/-- Rebuild the invariant from facts phrased through `getB`. -/

theorem invariant_of_getB {s : Doc}
    (hk : (keysOf s.blocks).Nodup)
    (hr : s.rootIds.Nodup)
    (h3 : ∀ k b, getB s.blocks k = some b → b.childIds.Nodup)
    (h4 : ∀ x ∈ s.rootIds, (getB s.blocks x).isSome = true)
    (h5 : ∀ k b, getB s.blocks k = some b →
      ∀ x ∈ b.childIds, (getB s.blocks x).isSome = true)
    (h6 : ∀ k b, getB s.blocks k = some b → (k ∈ s.rootIds ↔ b.parentId = none))
    (h7 : ∀ k b q qb, getB s.blocks k = some b → getB s.blocks q = some qb →
      k ∈ qb.childIds → b.parentId = some q)
    (h8 : ∀ k b pid, getB s.blocks k = some b → b.parentId = some pid →
      ∃ pb, getB s.blocks pid = some pb ∧ k ∈ pb.childIds) :
    Invariant s := by
  refine ⟨hk, hr, ?_, h4, ?_, ?_, ?_, ?_⟩
  · intro p hp
    exact h3 p.1 p.2 (getB_some_of_mem hk hp)
  · intro p hp
    exact h5 p.1 p.2 (getB_some_of_mem hk hp)
  · intro p hp
    exact h6 p.1 p.2 (getB_some_of_mem hk hp)
  · intro p hp q hq
    exact h7 p.1 p.2 q.1 q.2 (getB_some_of_mem hk hp) (getB_some_of_mem hk hq)
  · intro p hp
    exact parentLinked_iff.mpr
      (fun pid hpid => h8 p.1 p.2 pid (getB_some_of_mem hk hp) hpid)

/-! ## Positional list lemmas for the sibling swaps -/

theorem getD_length_append (l₁ l₂ : List String) (x d : String) :
    (l₁ ++ x :: l₂).getD l₁.length d = x := by
  induction l₁ with
  | nil => simp
  | cons y t ih =>
    show (y :: (t ++ x :: l₂)).getD (t.length + 1) d = x
    rw [List.getD_cons_succ]
    exact ih

theorem set_length_append (l₁ l₂ : List String) (x y : String) :
    (l₁ ++ x :: l₂).set l₁.length y = l₁ ++ y :: l₂ := by
  induction l₁ with
  | nil => simp
  | cons z t ih => simp [ih]

theorem take_length_append (l₁ l₂ : List String) :
    (l₁ ++ l₂).take l₁.length = l₁ :=
  List.take_left l₁ l₂

theorem drop_length_append_two (l₁ l₂ : List String) (x y : String) :
    (l₁ ++ x :: y :: l₂).drop (l₁.length + 2) = l₂ := by
  have h : l₁ ++ x :: y :: l₂ = (l₁ ++ [x, y]) ++ l₂ := by simp
  have hlen : (l₁ ++ [x, y]).length = l₁.length + 2 := by simp
  rw [h, ← hlen, List.drop_left]

/-- Splitting off the last element of a nonempty front segment. -/

theorem exists_concat_of_length_eq_succ {l : List String} {i : Nat}
    (h : l.length = i + 1) : ∃ l' x, l = l' ++ [x] ∧ l'.length = i := by
  have hne : l ≠ [] := by intro he; subst he; simp at h
  refine ⟨l.dropLast, l.getLast hne, (List.dropLast_append_getLast hne).symm, ?_⟩
  have := List.length_dropLast l
  omega

/-! ## A generic preservation lemma

If a step permutes the root order, keeps the key set, and pointwise
keeps every block's `parentId` while permuting its `childIds`, the §3
invariants survive.  The two sibling-swap operations are instances. -/

theorem invariant_of_pointwise {s s' : Doc} (hinv : Invariant s)
    (hroot : s'.rootIds.Perm s.rootIds)
    (hkeys : keysOf s'.blocks = keysOf s.blocks)
    (hgets : ∀ k, (getB s'.blocks k = none ∧ getB s.blocks k = none) ∨
      ∃ b' b, getB s'.blocks k = some b' ∧ getB s.blocks k = some b ∧
        b'.parentId = b.parentId ∧ b'.childIds.Perm b.childIds) :
    Invariant s' := by
  have hsome : ∀ {k b'}, getB s'.blocks k = some b' →
      ∃ b, getB s.blocks k = some b ∧ b'.parentId = b.parentId ∧
        b'.childIds.Perm b.childIds := by
    intro k b' hb'
    rcases hgets k with ⟨h1, _⟩ | ⟨c', c, hc', hc, hpar, hperm⟩
    · rw [hb'] at h1; exact absurd h1 (by simp)
    · rw [hb'] at hc'
      exact ⟨c, hc, by injection hc' with h; rw [h]; exact hpar,
        by injection hc' with h; rw [h]; exact hperm⟩
  have hsome' : ∀ {k b}, getB s.blocks k = some b →
      ∃ b', getB s'.blocks k = some b' ∧ b'.parentId = b.parentId ∧
        b'.childIds.Perm b.childIds := by
    intro k b hb
    rcases hgets k with ⟨_, h2⟩ | ⟨c', c, hc', hc, hpar, hperm⟩
    · rw [hb] at h2; exact absurd h2 (by simp)
    · rw [hb] at hc
      exact ⟨c', hc', by injection hc with h; rw [← h] at hpar; exact hpar,
        by injection hc with h; rw [← h] at hperm; exact hperm⟩
  have hlive : ∀ {k}, (getB s.blocks k).isSome = true →
      (getB s'.blocks k).isSome = true := by
    intro k hk
    obtain ⟨b, hb⟩ := Option.isSome_iff_exists.mp hk
    obtain ⟨b', hb', -⟩ := hsome' hb
    simp [hb']
  refine invariant_of_getB (hkeys ▸ hinv.keysNodup)
    (hroot.nodup_iff.mpr hinv.rootsNodup) ?_ ?_ ?_ ?_ ?_ ?_
  · intro k b' hb'
    obtain ⟨b, hb, -, hperm⟩ := hsome hb'
    exact hperm.nodup_iff.mpr (hinv.childNodup hb)
  · intro x hx
    exact hlive (hinv.rootLive (hroot.mem_iff.mp hx))
  · intro k b' hb' x hx
    obtain ⟨b, hb, -, hperm⟩ := hsome hb'
    exact hlive (hinv.childLive hb (hperm.mem_iff.mp hx))
  · intro k b' hb'
    obtain ⟨b, hb, hpar, -⟩ := hsome hb'
    rw [hroot.mem_iff, hpar]
    exact hinv.rootConsist hb
  · intro k b' q qb' hb' hq' hm
    obtain ⟨b, hb, hpar, -⟩ := hsome hb'
    obtain ⟨qb, hq, -, hqperm⟩ := hsome hq'
    rw [hpar]
    exact hinv.childConsist hb hq (hqperm.mem_iff.mp hm)
  · intro k b' pid hb' hpid
    obtain ⟨b, hb, hpar, -⟩ := hsome hb'
    rw [hpar] at hpid
    obtain ⟨pb, hpb, hmem⟩ := hinv.parentLink hb hpid
    obtain ⟨pb', hpb', -, hpperm⟩ := hsome' hpb
    exact ⟨pb', hpb', hpperm.mem_iff.mpr hmem⟩

/-- The adjacent-swap list produced by the destructuring swap of
positions `i` and `i+1`. -/

theorem double_set_swap {l₁' l₂ : List String} {prev x : String} {i : Nat}
    (hlen : l₁'.length = i) :
    let l := l₁' ++ prev :: x :: l₂
    (l.set i (l.getD (i + 1) "")).set (i + 1) (l.getD i "") =
      l₁' ++ x :: prev :: l₂ := by
  intro l
  have hgd1 : l.getD i "" = prev := by
    rw [show l = l₁' ++ prev :: (x :: l₂) from rfl, ← hlen]
    exact getD_length_append _ _ _ _
  have hgd2 : l.getD (i + 1) "" = x := by
    have hl : l = (l₁' ++ [prev]) ++ x :: l₂ := by simp [l]
    have hlen2 : (l₁' ++ [prev]).length = i + 1 := by simp [hlen]
    rw [hl, ← hlen2]
    exact getD_length_append _ _ _ _
  have hset1 : l.set i x = l₁' ++ x :: x :: l₂ := by
    rw [show l = l₁' ++ prev :: (x :: l₂) from rfl, ← hlen]
    exact set_length_append _ _ _ _
  have hset2 : (l₁' ++ x :: x :: l₂).set (i + 1) prev = l₁' ++ x :: prev :: l₂ := by
    have hl : l₁' ++ x :: x :: l₂ = (l₁' ++ [x]) ++ x :: l₂ := by simp
    have hlen2 : (l₁' ++ [x]).length = i + 1 := by simp [hlen]
    rw [hl, ← hlen2, set_length_append]
    simp
  rw [hgd1, hgd2, hset1, hset2]

theorem swap_middle_perm (l₁' l₂ : List String) (prev x : String) :
    (l₁' ++ x :: prev :: l₂).Perm (l₁' ++ prev :: x :: l₂) :=
  List.Perm.append_left l₁' (List.Perm.swap prev x l₂)

/-- Models `moveBlockUp` preserves the §3 invariants. -/

theorem moveBlockUp_invariant {s : Doc} (hinv : Invariant s)
    (bid : String) (now : Nat) : Invariant (moveBlockUp s bid now) := by
  rcases hg : getB s.blocks bid with _ | block
  · simp only [moveBlockUp, hg]; exact hinv
  rcases hp : block.parentId with _ | pid
  · -- the block is a root: the swap happens in the root order
    rcases hidx : indexOfD s.rootIds bid with _ | j
    · simp only [moveBlockUp, hg, hp, hidx]; exact hinv
    rcases j with _ | i
    · simp only [moveBlockUp, hg, hp, hidx]; exact hinv
    obtain ⟨l₁, l₂, hl, hlen, hnx⟩ := indexOfD_spec hidx
    obtain ⟨l₁', prev, hl₁, hlen'⟩ := exists_concat_of_length_eq_succ hlen
    have hlroot : s.rootIds = l₁' ++ prev :: bid :: l₂ := by
      rw [hl, hl₁]; simp
    have htake : s.rootIds.take i = l₁' := by
      rw [hlroot, ← hlen']
      exact take_length_append l₁' (prev :: bid :: l₂)
    have hgetD : s.rootIds.getD i "" = prev := by
      rw [hlroot, ← hlen']
      exact getD_length_append _ _ _ _
    have hdrop : s.rootIds.drop (i + 2) = l₂ := by
      rw [hlroot, ← hlen']
      exact drop_length_append_two _ _ _ _
    simp only [moveBlockUp, hg, hp, hidx]
    refine invariant_of_pointwise hinv ?_ ?_ ?_
    · show (s.rootIds.take i ++
          bid :: s.rootIds.getD i "" :: s.rootIds.drop (i + 2)).Perm s.rootIds
      rw [htake, hgetD, hdrop, hlroot]
      exact swap_middle_perm l₁' l₂ prev bid
    · simp [keysOf_updateB]
    · intro k
      by_cases hk : k = bid
    
      · right
        have hgk : getB s.blocks k = some block := by rw [hk]; exact hg
        refine ⟨{ block with updatedAt := now }, block, ?_, hgk, rfl, .refl _⟩
        simp [getB_updateB, hk, hg]
      · rcases hsk : getB s.blocks k with _ | b
        · left
          refine ⟨?_, rfl⟩
          simp [getB_updateB, hk, hsk]
        · right
          refine ⟨b, b, ?_, rfl, rfl, .refl _⟩
          simp [getB_updateB, hk, hsk]
  · -- the swap happens in the parent's childIds
    rcases hgp : getB s.blocks pid with _ | p
    · simp only [moveBlockUp, hg, hp, childIdsOf, hgp, indexOfD]
      exact hinv
    rcases hidx : indexOfD p.childIds bid with _ | j
    · simp only [moveBlockUp, hg, hp, childIdsOf, hgp, hidx]; exact hinv
    rcases j with _ | i
    · simp only [moveBlockUp, hg, hp, childIdsOf, hgp, hidx]; exact hinv
    obtain ⟨l₁, l₂, hl, hlen, hnx⟩ := indexOfD_spec hidx
    obtain ⟨l₁', prev, hl₁, hlen'⟩ := exists_concat_of_length_eq_succ hlen
    have hlc : p.childIds = l₁' ++ prev :: bid :: l₂ := by
      rw [hl, hl₁]; simp
    have hset : (p.childIds.set i (p.childIds.getD (i + 1) "")).set (i + 1)
        (p.childIds.getD i "") = l₁' ++ bid :: prev :: l₂ := by
      rw [hlc]
      exact double_set_swap hlen'
    have hswap : ((p.childIds.set i (p.childIds.getD (i + 1) "")).set (i + 1)
        (p.childIds.getD i "")).Perm p.childIds := by
      rw [hset, hlc]
      exact swap_middle_perm l₁' l₂ prev bid
    simp only [moveBlockUp, hg, hp, childIdsOf, hgp, hidx]
    refine invariant_of_pointwise hinv ?_ ?_ ?_
    · exact .refl _
    · simp [keysOf_updateB]
    · intro k
      by_cases hk : k = bid
      · by_cases hkp : bid = pid
        · -- the moved block is its own parent: both updates hit one key
          obtain rfl : p = block := by
            rw [← hkp, hg] at hgp
            exact (Option.some.inj hgp).symm
          right
          have hgk : getB s.blocks k = some p := by rw [hk]; exact hg
          refine ⟨{ p with
              childIds := (p.childIds.set i (p.childIds.getD (i + 1) "")).set
                (i + 1) (p.childIds.getD i "")
              updatedAt := now }, p, ?_, hgk, rfl, hswap⟩
          simp [getB_updateB, hk, hkp, hgp]
        · right
          have hgk : getB s.blocks k = some block := by rw [hk]; exact hg
          refine ⟨{ block with updatedAt := now }, block, ?_, hgk, rfl, .refl _⟩
          have hne : bid ≠ pid := hkp
          simp [getB_updateB, hk, hne, hg]
      · by_cases hkp : k = pid
        · right
          have hgk : getB s.blocks k = some p := by rw [hkp]; exact hgp
          have hne : pid ≠ bid := fun h => hk (hkp.trans h)
          have hne2 : bid ≠ pid := fun h => hk (hkp.trans h.symm)
          refine ⟨{ p with
              childIds := (p.childIds.set i (p.childIds.getD (i + 1) "")).set
                (i + 1) (p.childIds.getD i "") }, p, ?_, hgk, rfl, hswap⟩
          simp [getB_updateB, hk, hkp, hgp, hne, hne2]
        · rcases hsk : getB s.blocks k with _ | b
          · left
            refine ⟨?_, rfl⟩
            simp [getB_updateB, hk, hkp, hsk]
          · right
            refine ⟨b, b, ?_, rfl, rfl, .refl _⟩
            simp [getB_updateB, hk, hkp, hsk]

/-- Models `moveBlockDown` preserves the §3 invariants. -/

theorem moveBlockDown_invariant {s : Doc} (hinv : Invariant s)
    (bid : String) (now : Nat) : Invariant (moveBlockDown s bid now) := by
  rcases hg : getB s.blocks bid with _ | block
  · simp only [moveBlockDown, hg]; exact hinv
  rcases hp : block.parentId with _ | pid
  · -- the block is a root: the swap happens in the root order
    rcases hidx : indexOfD s.rootIds bid with _ | i
    · simp only [moveBlockDown, hg, hp, hidx]; exact hinv
    by_cases hguard : s.rootIds.length - 1 ≤ i
    · simp only [moveBlockDown, hg, hp, hidx]
      rw [if_pos hguard]
      exact hinv
    obtain ⟨l₁, l₂, hl, hlen, hnx⟩ := indexOfD_spec hidx
    rcases l₂ with _ | ⟨nxt, l₂'⟩
    · exfalso
      apply hguard
      rw [hl]
      simp [hlen]
    have hlroot : s.rootIds = l₁ ++ bid :: nxt :: l₂' := hl
    have htake : s.rootIds.take i = l₁ := by
      rw [hlroot, ← hlen]
      exact take_length_append l₁ (bid :: nxt :: l₂')
    have hgetD : s.rootIds.getD (i + 1) "" = nxt := by
      have h2 : s.rootIds = (l₁ ++ [bid]) ++ nxt :: l₂' := by simp [hlroot]
      have hlen2 : (l₁ ++ [bid]).length = i + 1 := by simp [hlen]
      rw [h2, ← hlen2]
      exact getD_length_append _ _ _ _
    have hdrop : s.rootIds.drop (i + 2) = l₂' := by
      rw [hlroot, ← hlen]
      exact drop_length_append_two _ _ _ _
    simp only [moveBlockDown, hg, hp, hidx]
    rw [if_neg hguard]
    refine invariant_of_pointwise hinv ?_ ?_ ?_
    · show (s.rootIds.take i ++
          s.rootIds.getD (i + 1) "" :: bid :: s.rootIds.drop (i + 2)).Perm s.rootIds
      rw [htake, hgetD, hdrop, hlroot]
      exact swap_middle_perm l₁ l₂' bid nxt
    · simp [keysOf_updateB]
    · intro k
      by_cases hk : k = bid
      · right
        have hgk : getB s.blocks k = some block := by rw [hk]; exact hg
        refine ⟨{ block with updatedAt := now }, block, ?_, hgk, rfl, .refl _⟩
        simp [getB_updateB, hk, hg]
      · rcases hsk : getB s.blocks k with _ | b
        · left
          refine ⟨?_, rfl⟩
          simp [getB_updateB, hk, hsk]
        · right
          refine ⟨b, b, ?_, rfl, rfl, .refl _⟩
          simp [getB_updateB, hk, hsk]
  · -- the swap happens in the parent's childIds
    rcases hgp : getB s.blocks pid with _ | p
    · simp only [moveBlockDown, hg, hp, childIdsOf, hgp, indexOfD]
      exact hinv
    rcases hidx : indexOfD p.childIds bid with _ | i
    · simp only [moveBlockDown, hg, hp, childIdsOf, hgp, hidx]; exact hinv
    by_cases hguard : p.childIds.length - 1 ≤ i
    · simp only [moveBlockDown, hg, hp, childIdsOf, hgp, hidx]
      rw [if_pos hguard]
      exact hinv
    obtain ⟨l₁, l₂, hl, hlen, hnx⟩ := indexOfD_spec hidx
    rcases l₂ with _ | ⟨nxt, l₂'⟩
    · exfalso
      apply hguard
      rw [hl]
      simp [hlen]
    have hlc : p.childIds = l₁ ++ bid :: nxt :: l₂' := hl
    have hset : (p.childIds.set i (p.childIds.getD (i + 1) "")).set (i + 1)
        (p.childIds.getD i "") = l₁ ++ nxt :: bid :: l₂' := by
      rw [hlc]
      exact double_set_swap hlen
    have hswap : ((p.childIds.set i (p.childIds.getD (i + 1) "")).set (i + 1)
        (p.childIds.getD i "")).Perm p.childIds := by
      rw [hset, hlc]
      exact swap_middle_perm l₁ l₂' bid nxt
    simp only [moveBlockDown, hg, hp, childIdsOf, hgp, hidx]
    rw [if_neg hguard]
    refine invariant_of_pointwise hinv ?_ ?_ ?_
    · exact .refl _
    · simp [keysOf_updateB]
    · intro k
      by_cases hk : k = bid
      · by_cases hkp : bid = pid
        · obtain rfl : p = block := by
            rw [← hkp, hg] at hgp
            exact (Option.some.inj hgp).symm
          right
          have hgk : getB s.blocks k = some p := by rw [hk]; exact hg
          refine ⟨{ p with
              childIds := (p.childIds.set i (p.childIds.getD (i + 1) "")).set
                (i + 1) (p.childIds.getD i "")
              updatedAt := now }, p, ?_, hgk, rfl, hswap⟩
          simp [getB_updateB, hk, hkp, hgp]
        · right
          have hgk : getB s.blocks k = some block := by rw [hk]; exact hg
          refine ⟨{ block with updatedAt := now }, block, ?_, hgk, rfl, .refl _⟩
          have hne : bid ≠ pid := hkp
          simp [getB_updateB, hk, hne, hg]
      · by_cases hkp : k = pid
        · right
          have hgk : getB s.blocks k = some p := by rw [hkp]; exact hgp
          have hne : pid ≠ bid := fun h => hk (hkp.trans h)
          have hne2 : bid ≠ pid := fun h => hk (hkp.trans h.symm)
          refine ⟨{ p with
              childIds := (p.childIds.set i (p.childIds.getD (i + 1) "")).set
                (i + 1) (p.childIds.getD i "") }, p, ?_, hgk, rfl, hswap⟩
          simp [getB_updateB, hk, hkp, hgp, hne, hne2]
        · rcases hsk : getB s.blocks k with _ | b
          · left
            refine ⟨?_, rfl⟩
            simp [getB_updateB, hk, hkp, hsk]
          · right
            refine ⟨b, b, ?_, rfl, rfl, .refl _⟩
            simp [getB_updateB, hk, hkp, hsk]

/-! ## Generic insertion lemmas

`createBlockAfter` and `createBlockInside` both add one fresh empty
block: either into some live parent's childIds or into the root order.
The two lemmas below establish the §3 invariants for any step of that
shape. -/

theorem invariant_child_insert {s s' : Doc} (hinv : Invariant s)
    {pid newId : String} {pb : Block} (hg : getB s.blocks pid = some pb)
    (hfresh : getB s.blocks newId = none)
    (hroot : s'.rootIds = s.rootIds)
    {C' : List String} (hC : C'.Perm (newId :: pb.childIds))
    {pb' nb : Block}
    (hB : ∀ k, getB s'.blocks k =
      if k = pid then some pb' else if k = newId then some nb else getB s.blocks k)
    (hpbp : pb'.parentId = pb.parentId) (hpbc : pb'.childIds = C')
    (hnbp : nb.parentId = some pid) (hnbc : nb.childIds = [])
    (hkeys : (keysOf s'.blocks).Perm (newId :: keysOf s.blocks)) :
    Invariant s' := by
  have hne : pid ≠ newId := by
    intro h
    rw [h, hfresh] at hg
    exact Option.noConfusion hg
  have hnotchild : newId ∉ pb.childIds := hinv.dead_not_child hfresh hg
  have hCnodup : C'.Nodup :=
    hC.nodup_iff.mpr (by simp [hnotchild, hinv.childNodup hg])
  have hmemC : ∀ {x}, x ∈ C' ↔ (x = newId ∨ x ∈ pb.childIds) := by
    intro x
    rw [hC.mem_iff]
    simp
  have hlive : ∀ {k}, (getB s.blocks k).isSome = true →
      (getB s'.blocks k).isSome = true := by
    intro k hk
    rw [hB k]
    by_cases h1 : k = pid
    · simp [h1]
    by_cases h2 : k = newId
    · simp [h1, h2, Ne.symm hne]
    · simpa [h1, h2] using hk
  have hnewlive : (getB s'.blocks newId).isSome = true := by
    rw [hB newId, if_neg (Ne.symm hne)]
    simp
  refine invariant_of_getB ?_ (hroot ▸ hinv.rootsNodup) ?_ ?_ ?_ ?_ ?_ ?_
  · exact hkeys.nodup_iff.mpr
      (by simp [(getB_eq_none_iff_not_mem_keys s.blocks newId).mp hfresh,
        hinv.keysNodup])
  · intro k b hb
    rw [hB k] at hb
    by_cases h1 : k = pid
    · rw [if_pos h1] at hb
      injection hb with hb
      rw [← hb, hpbc]
      exact hCnodup
    by_cases h2 : k = newId
    · rw [if_neg h1, if_pos h2] at hb
      injection hb with hb
      rw [← hb, hnbc]
      exact List.nodup_nil
    · rw [if_neg h1, if_neg h2] at hb
      exact hinv.childNodup hb
  · intro x hx
    rw [hroot] at hx
    exact hlive (hinv.rootLive hx)
  · intro k b hb x hx
    rw [hB k] at hb
    by_cases h1 : k = pid
    · rw [if_pos h1] at hb
      injection hb with hb
      rw [← hb, hpbc] at hx
      rcases hmemC.mp hx with h | h
      · rw [h]; exact hnewlive
      · exact hlive (hinv.childLive hg h)
    by_cases h2 : k = newId
    · rw [if_neg h1, if_pos h2] at hb
      injection hb with hb
      rw [← hb, hnbc] at hx
      exact absurd hx (List.not_mem_nil x)
    · rw [if_neg h1, if_neg h2] at hb
      exact hlive (hinv.childLive hb hx)
  · intro k b hb
    rw [hB k] at hb
    rw [hroot]
    by_cases h1 : k = pid
    · rw [if_pos h1] at hb
      injection hb with hb
      rw [← hb, hpbp, h1]
      exact hinv.rootConsist hg
    by_cases h2 : k = newId
    · rw [if_neg h1, if_pos h2] at hb
      injection hb with hb
      rw [← hb, hnbp, h2]
      constructor
      · intro hmem
        exact absurd hmem (hinv.dead_not_root hfresh)
      · intro hcontra
        exact Option.noConfusion hcontra
    · rw [if_neg h1, if_neg h2] at hb
      exact hinv.rootConsist hb
  · intro k b q qb hb hq hm
    rw [hB k] at hb
    rw [hB q] at hq
    by_cases hq1 : q = pid
    · rw [if_pos hq1] at hq
      injection hq with hq
      rw [← hq, hpbc] at hm
      rcases hmemC.mp hm with hknew | hkold
      · -- the member is the fresh block, whose parent is pid
        subst hknew
        rw [if_neg (fun h => hne h.symm), if_pos rfl] at hb
        injection hb with hb
        rw [← hb, hnbp, hq1]
      · have hkne : k ≠ newId := by
          intro h
          rw [h] at hkold
          exact hnotchild hkold
        by_cases hk1 : k = pid
        · rw [if_pos hk1] at hb
          injection hb with hb
          rw [← hb, hpbp, hq1]
          rw [hk1] at hkold
          exact hinv.childConsist hg hg hkold
        · rw [if_neg hk1, if_neg hkne] at hb
          rw [hq1]
          exact hinv.childConsist hb hg hkold
    by_cases hq2 : q = newId
    · rw [if_neg hq1, if_pos hq2] at hq
      injection hq with hq
      rw [← hq, hnbc] at hm
      exact absurd hm (List.not_mem_nil k)
    · rw [if_neg hq1, if_neg hq2] at hq
      have hkne : k ≠ newId := by
        intro h
        rw [h] at hm
        exact hinv.dead_not_child hfresh hq hm
      by_cases hk1 : k = pid
      · rw [if_pos hk1] at hb
        injection hb with hb
        rw [← hb, hpbp]
        rw [hk1] at hm
        exact hinv.childConsist hg hq hm
      · rw [if_neg hk1, if_neg hkne] at hb
        exact hinv.childConsist hb hq hm
  · intro k b pid2 hb hp2
    rw [hB k] at hb
    by_cases h1 : k = pid
    · rw [if_pos h1] at hb
      injection hb with hb
      rw [← hb, hpbp] at hp2
      obtain ⟨gb, hgb, hmem⟩ := hinv.parentLink hg hp2
      by_cases hg1 : pid2 = pid
      · refine ⟨pb', ?_, ?_⟩
        · rw [hB pid2, if_pos hg1]
        · rw [hpbc]
          rw [hg1, hg] at hgb
          injection hgb with hgb
          rw [← hgb] at hmem
          exact hmemC.mpr (Or.inr (h1 ▸ hmem))
      · have hg2 : pid2 ≠ newId := by
          intro h
          rw [h, hfresh] at hgb
          exact Option.noConfusion hgb
        refine ⟨gb, ?_, h1 ▸ hmem⟩
        rw [hB pid2, if_neg hg1, if_neg hg2]
        exact hgb
    by_cases h2 : k = newId
    · rw [if_neg h1, if_pos h2] at hb
      injection hb with hb
      rw [← hb, hnbp] at hp2
      injection hp2 with hp2
      refine ⟨pb', ?_, ?_⟩
      · rw [hB pid2, if_pos hp2.symm]
      · rw [hpbc, h2]
        exact hmemC.mpr (Or.inl rfl)
    · rw [if_neg h1, if_neg h2] at hb
      obtain ⟨gb, hgb, hmem⟩ := hinv.parentLink hb hp2
      by_cases hg1 : pid2 = pid
      · refine ⟨pb', ?_, ?_⟩
        · rw [hB pid2, if_pos hg1]
        · rw [hpbc]
          rw [hg1, hg] at hgb
          injection hgb with hgb
          rw [← hgb] at hmem
          exact hmemC.mpr (Or.inr hmem)
      · have hg2 : pid2 ≠ newId := by
          intro h
          rw [h, hfresh] at hgb
          exact Option.noConfusion hgb
        refine ⟨gb, ?_, hmem⟩
        rw [hB pid2, if_neg hg1, if_neg hg2]
        exact hgb

theorem invariant_root_insert {s s' : Doc} (hinv : Invariant s)
    {newId : String} (hfresh : getB s.blocks newId = none)
    (hroot : s'.rootIds.Perm (newId :: s.rootIds))
    {nb : Block} (hnbp : nb.parentId = none) (hnbc : nb.childIds = [])
    (hB : ∀ k, getB s'.blocks k =
      if k = newId then some nb else getB s.blocks k)
    (hkeys : (keysOf s'.blocks).Perm (newId :: keysOf s.blocks)) :
    Invariant s' := by
  have hnotroot : newId ∉ s.rootIds := hinv.dead_not_root hfresh
  have hmemR : ∀ {x}, x ∈ s'.rootIds ↔ (x = newId ∨ x ∈ s.rootIds) := by
    intro x
    rw [hroot.mem_iff]
    simp
  have hlive : ∀ {k}, (getB s.blocks k).isSome = true →
      (getB s'.blocks k).isSome = true := by
    intro k hk
    rw [hB k]
    by_cases h2 : k = newId
    · simp [h2]
    · simpa [h2] using hk
  refine invariant_of_getB ?_ ?_ ?_ ?_ ?_ ?_ ?_ ?_
  · exact hkeys.nodup_iff.mpr
      (by simp [(getB_eq_none_iff_not_mem_keys s.blocks newId).mp hfresh,
        hinv.keysNodup])
  · exact hroot.nodup_iff.mpr (by simp [hnotroot, hinv.rootsNodup])
  · intro k b hb
    rw [hB k] at hb
    by_cases h2 : k = newId
    · rw [if_pos h2] at hb
      injection hb with hb
      rw [← hb, hnbc]
      exact List.nodup_nil
    · rw [if_neg h2] at hb
      exact hinv.childNodup hb
  · intro x hx
    rcases hmemR.mp hx with h | h
    · rw [h, hB newId, if_pos rfl]
      simp
    · exact hlive (hinv.rootLive h)
  · intro k b hb x hx
    rw [hB k] at hb
    by_cases h2 : k = newId
    · rw [if_pos h2] at hb
      injection hb with hb
      rw [← hb, hnbc] at hx
      exact absurd hx (List.not_mem_nil x)
    · rw [if_neg h2] at hb
      exact hlive (hinv.childLive hb hx)
  · intro k b hb
    rw [hB k] at hb
    by_cases h2 : k = newId
    · rw [if_pos h2] at hb
      injection hb with hb
      rw [← hb, hnbp, h2]
      simp [hmemR]
    · rw [if_neg h2] at hb
      rw [hmemR]
      have := hinv.rootConsist hb
      constructor
      · rintro (h | h)
        · exact absurd h h2
        · exact this.mp h
      · intro h
        exact Or.inr (this.mpr h)
  · intro k b q qb hb hq hm
    rw [hB k] at hb
    rw [hB q] at hq
    by_cases hq2 : q = newId
    · rw [if_pos hq2] at hq
      injection hq with hq
      rw [← hq, hnbc] at hm
      exact absurd hm (List.not_mem_nil k)
    · rw [if_neg hq2] at hq
      have hkne : k ≠ newId := by
        intro h
        rw [h] at hm
        exact hinv.dead_not_child hfresh hq hm
      rw [if_neg hkne] at hb
      exact hinv.childConsist hb hq hm
  · intro k b pid2 hb hp2
    rw [hB k] at hb
    by_cases h2 : k = newId
    · rw [if_pos h2] at hb
      injection hb with hb
      rw [← hb, hnbp] at hp2
      exact Option.noConfusion hp2
    · rw [if_neg h2] at hb
      obtain ⟨gb, hgb, hmem⟩ := hinv.parentLink hb hp2
      have hg2 : pid2 ≠ newId := by
        intro h
        rw [h, hfresh] at hgb
        exact Option.noConfusion hgb
      refine ⟨gb, ?_, hmem⟩
      rw [hB pid2, if_neg hg2]
      exact hgb

/-- Models `createBlockInside` preserves the §3 invariants (the fresh uuid is
not a live id). -/

theorem createBlockInside_invariant {s : Doc} (hinv : Invariant s)
    (pid newId : String) (now : Nat)
    (hfresh : getB s.blocks newId = none) :
    Invariant (createBlockInside s pid newId now) := by
  rcases hg : getB s.blocks pid with _ | pb
  · simp only [createBlockInside, hg]; exact hinv
  have hne : pid ≠ newId := by
    intro h
    rw [h, hfresh] at hg
    exact Option.noConfusion hg
  have hc : childIdsOf (s.blocks ++ [(newId, createBlock "" (some pid) now)]) pid
      = pb.childIds := by
    unfold childIdsOf
    rw [getB_append, hg]
  have hroot : (createBlockInside s pid newId now).rootIds = s.rootIds := by
    simp only [createBlockInside, hg]
  have hB : ∀ k, getB (createBlockInside s pid newId now).blocks k =
      if k = pid then
        some { pb with childIds := pb.childIds ++ [newId], collapsed := false }
      else if k = newId then some (createBlock "" (some pid) now)
      else getB s.blocks k := by
    intro k
    simp only [createBlockInside, hg]
    by_cases hk1 : k = pid
    · simp [getB_updateB, getB_append, hk1, hg, hc]
    · by_cases hk2 : k = newId
      · simp [getB_updateB, getB_append, getB_singleton, hk1, hk2, hfresh, Ne.symm hne]
      · cases hsk : getB s.blocks k with
        | none => simp [getB_updateB, getB_append, getB_singleton, hk1, hk2, hsk]
        | some b => simp [getB_updateB, getB_append, hk1, hk2, hsk]
  have hkeys : (keysOf (createBlockInside s pid newId now).blocks).Perm
      (newId :: keysOf s.blocks) := by
    simp only [createBlockInside, hg]
    rw [keysOf_updateB, keysOf_updateB, keysOf_append]
    simp only [keysOf, List.map_cons, List.map_nil]
    exact List.perm_append_singleton _ _
  exact invariant_child_insert hinv hg hfresh hroot
    (List.perm_append_singleton _ _) hB rfl rfl rfl rfl hkeys

/-- Models `createBlockAfter` preserves the §3 invariants (the fresh uuid is
not a live id). -/

theorem createBlockAfter_invariant {s : Doc} (hinv : Invariant s)
    (afterId newId : String) (now : Nat)
    (hfresh : getB s.blocks newId = none) :
    Invariant (createBlockAfter s afterId newId now) := by
  rcases hg : getB s.blocks afterId with _ | ab
  · simp only [createBlockAfter, hg]; exact hinv
  rcases hp : ab.parentId with _ | pid
  · -- the sibling is a root: insert into the root order
    have hroot : (createBlockAfter s afterId newId now).rootIds =
        insertAfterFirst s.rootIds afterId newId := by
      simp only [createBlockAfter, hg, hp]
    have hB : ∀ k, getB (createBlockAfter s afterId newId now).blocks k =
        if k = newId then some (createBlock "" none now)
        else getB s.blocks k := by
      intro k
      simp only [createBlockAfter, hg, hp]
      by_cases hk2 : k = newId
      · simp [getB_append, getB_singleton, hk2, hfresh]
      · cases hsk : getB s.blocks k with
        | none => simp [getB_append, getB_singleton, hk2, hsk]
        | some b => simp [getB_append, hk2, hsk]
    have hkeys : (keysOf (createBlockAfter s afterId newId now).blocks).Perm
        (newId :: keysOf s.blocks) := by
      simp only [createBlockAfter, hg, hp]
      rw [keysOf_append]
      simp only [keysOf, List.map_cons, List.map_nil]
      exact List.perm_append_singleton _ _
    exact invariant_root_insert hinv hfresh
      (hroot ▸ insertAfterFirst_perm s.rootIds afterId newId) rfl rfl hB hkeys
  · -- the sibling has a parent: splice into that parent's childIds
    obtain ⟨pb, hgp, -⟩ := hinv.parentLink hg hp
    have hne : pid ≠ newId := by
      intro h
      rw [h, hfresh] at hgp
      exact Option.noConfusion hgp
    have hc : childIdsOf (s.blocks ++ [(newId, createBlock "" (some pid) now)]) pid
        = pb.childIds := by
      unfold childIdsOf
      rw [getB_append, hgp]
    have hroot : (createBlockAfter s afterId newId now).rootIds = s.rootIds := by
      simp only [createBlockAfter, hg, hp]
    have hB : ∀ k, getB (createBlockAfter s afterId newId now).blocks k =
        if k = pid then
          some { pb with childIds := insertAfterFirst pb.childIds afterId newId }
        else if k = newId then some (createBlock "" (some pid) now)
        else getB s.blocks k := by
      intro k
      simp only [createBlockAfter, hg, hp]
      by_cases hk1 : k = pid
      · simp [getB_updateB, getB_append, hk1, hgp, hc]
      · by_cases hk2 : k = newId
        · simp [getB_updateB, getB_append, getB_singleton, hk1, hk2, hfresh, Ne.symm hne]
        · cases hsk : getB s.blocks k with
          | none => simp [getB_updateB, getB_append, getB_singleton, hk1, hk2, hsk]
          | some b => simp [getB_updateB, getB_append, hk1, hk2, hsk]
    have hkeys : (keysOf (createBlockAfter s afterId newId now).blocks).Perm
        (newId :: keysOf s.blocks) := by
      simp only [createBlockAfter, hg, hp]
      rw [keysOf_updateB, keysOf_append]
      simp only [keysOf, List.map_cons, List.map_nil]
      exact List.perm_append_singleton _ _
    exact invariant_child_insert hinv hgp hfresh hroot
      (insertAfterFirst_perm pb.childIds afterId newId) hB rfl rfl rfl rfl hkeys

/-! ## Deletion -/

/-- Generic removal step: dropping a live childless block from the map
and from its container keeps the §3 invariants.  The pointwise map in
`hB` is the identity on every block that did not list `bid` (record
eta), and filters `bid` out of the one container that did. -/

theorem invariant_remove {s s' : Doc} (hinv : Invariant s)
    {bid : String} {block : Block}
    (hg : getB s.blocks bid = some block) (hempty : block.childIds = [])
    (hroots : ∀ x, x ∈ s'.rootIds ↔ x ∈ s.rootIds ∧ x ≠ bid)
    (hrnodup : s'.rootIds.Nodup)
    (hkeys : (keysOf s'.blocks).Nodup)
    (hB : ∀ k, getB s'.blocks k = if k = bid then none else
      (getB s.blocks k).map
        (fun b => { b with childIds := removeAll b.childIds bid })) :
    Invariant s' := by
  have hsome : ∀ {k b'}, getB s'.blocks k = some b' →
      k ≠ bid ∧ ∃ b, getB s.blocks k = some b ∧
        b' = { b with childIds := removeAll b.childIds bid } := by
    intro k b' hb'
    rw [hB k] at hb'
    by_cases hk : k = bid
    · rw [if_pos hk] at hb'
      exact absurd hb' (by simp)
    · rw [if_neg hk] at hb'
      rcases hsk : getB s.blocks k with _ | b
      · rw [hsk] at hb'
        exact absurd hb' (by simp)
      · rw [hsk] at hb'
        exact ⟨hk, b, rfl, (Option.some.inj hb').symm⟩
  have hlive : ∀ {k}, k ≠ bid → (getB s.blocks k).isSome = true →
      (getB s'.blocks k).isSome = true := by
    intro k hk hsk
    rw [hB k, if_neg hk]
    rcases h : getB s.blocks k with _ | b
    · rw [h] at hsk; simp at hsk
    · simp
  refine invariant_of_getB hkeys hrnodup ?_ ?_ ?_ ?_ ?_ ?_
  · intro k b' hb'
    obtain ⟨-, b, hb, rfl⟩ := hsome hb'
    exact removeAll_nodup (hinv.childNodup hb)
  · intro x hx
    obtain ⟨hxs, hxne⟩ := (hroots x).mp hx
    exact hlive hxne (hinv.rootLive hxs)
  · intro k b' hb' x hx
    obtain ⟨-, b, hb, rfl⟩ := hsome hb'
    obtain ⟨hxb, hxne⟩ := mem_removeAll.mp hx
    exact hlive hxne (hinv.childLive hb hxb)
  · intro k b' hb'
    obtain ⟨hk, b, hb, rfl⟩ := hsome hb'
    rw [hroots k]
    have := hinv.rootConsist hb
    constructor
    · rintro ⟨h, -⟩
      exact this.mp h
    · intro h
      exact ⟨this.mpr h, hk⟩
  · intro k b' q qb' hb' hq' hm
    obtain ⟨-, b, hb, rfl⟩ := hsome hb'
    obtain ⟨-, qb, hq, rfl⟩ := hsome hq'
    show b.parentId = some q
    exact hinv.childConsist hb hq (mem_removeAll.mp hm).1
  · intro k b' pid2 hb' hp2
    obtain ⟨hk, b, hb, rfl⟩ := hsome hb'
    have hbp : b.parentId = some pid2 := hp2
    obtain ⟨pb2, hpb2, hmem⟩ := hinv.parentLink hb hbp
    have hp2ne : pid2 ≠ bid := by
      intro h
      rw [h, hg] at hpb2
      injection hpb2 with hpb2
      rw [← hpb2, hempty] at hmem
      exact absurd hmem (List.not_mem_nil k)
    refine ⟨{ pb2 with childIds := removeAll pb2.childIds bid }, ?_, ?_⟩
    · rw [hB pid2, if_neg hp2ne, hpb2]
      rfl
    · exact mem_removeAll.mpr ⟨hmem, hk⟩

/-- Models `deleteBlock` preserves the §3 invariants. -/

theorem deleteBlock_invariant {s : Doc} (hinv : Invariant s)
    (bid : String) : Invariant (deleteBlock s bid) := by
  rcases hg : getB s.blocks bid with _ | block
  · simp only [deleteBlock, hg]; exact hinv
  by_cases hlen : 0 < block.childIds.length
  · simp only [deleteBlock, hg]
    rw [if_pos hlen]
    exact hinv
  have hempty : block.childIds = [] := by
    cases h : block.childIds with
    | nil => rfl
    | cons a t => rw [h] at hlen; simp at hlen
  rcases hp : block.parentId with _ | pid
  · -- root case: unlink from the root order, then drop the record
    have hbid_root : bid ∈ s.rootIds := (hinv.rootConsist hg).mpr hp
    have hroots : ∀ x, x ∈ (deleteBlock s bid).rootIds ↔
        x ∈ s.rootIds ∧ x ≠ bid := by
      intro x
      simp only [deleteBlock, hg, hp]
      rw [if_neg hlen]
      exact mem_removeFirst_iff hinv.rootsNodup
    have hrnodup : (deleteBlock s bid).rootIds.Nodup := by
      simp only [deleteBlock, hg, hp]
      rw [if_neg hlen]
      exact removeFirst_nodup hinv.rootsNodup
    have hkeys : (keysOf (deleteBlock s bid).blocks).Nodup := by
      simp only [deleteBlock, hg, hp]
      rw [if_neg hlen]
      rw [keysOf_removeB]
      exact removeAll_nodup hinv.keysNodup
    have hB : ∀ k, getB (deleteBlock s bid).blocks k =
        if k = bid then none else
        (getB s.blocks k).map
          (fun b => { b with childIds := removeAll b.childIds bid }) := by
      intro k
      simp only [deleteBlock, hg, hp]
      rw [if_neg hlen, getB_removeB]
      by_cases hk : k = bid
      · simp [hk]
      · rw [if_neg hk, if_neg hk]
        rcases hsk : getB s.blocks k with _ | b
        · simp
        · have hnotin : bid ∉ b.childIds := by
            intro hmem
            have := hinv.childConsist hg hsk hmem
            rw [hp] at this
            exact Option.noConfusion this
          simp [removeAll_of_not_mem hnotin]
    exact invariant_remove hinv hg hempty hroots hrnodup hkeys hB
  · -- parent case: filter out of the parent's childIds, drop the record
    obtain ⟨pb, hgp, hmem⟩ := hinv.parentLink hg hp
    have hnepid : pid ≠ bid := by
      intro h
      rw [h, hg] at hgp
      injection hgp with hgp
      rw [← hgp, hempty] at hmem
      exact absurd hmem (List.not_mem_nil bid)
    have hbid_nroot : bid ∉ s.rootIds := by
      intro h
      have := (hinv.rootConsist hg).mp h
      rw [hp] at this
      exact Option.noConfusion this
    have hroots : ∀ x, x ∈ (deleteBlock s bid).rootIds ↔
        x ∈ s.rootIds ∧ x ≠ bid := by
      intro x
      simp only [deleteBlock, hg, hp]
      rw [if_neg hlen]
      constructor
      · intro h
        refine ⟨h, ?_⟩
        intro he
        rw [he] at h
        exact hbid_nroot h
      · exact fun h => h.1
    have hrnodup : (deleteBlock s bid).rootIds.Nodup := by
      simp only [deleteBlock, hg, hp]
      rw [if_neg hlen]
      exact hinv.rootsNodup
    have hkeys : (keysOf (deleteBlock s bid).blocks).Nodup := by
      simp only [deleteBlock, hg, hp]
      rw [if_neg hlen]
      rw [keysOf_removeB, keysOf_updateB]
      exact removeAll_nodup hinv.keysNodup
    have hB : ∀ k, getB (deleteBlock s bid).blocks k =
        if k = bid then none else
        (getB s.blocks k).map
          (fun b => { b with childIds := removeAll b.childIds bid }) := by
      intro k
      simp only [deleteBlock, hg, hp]
      rw [if_neg hlen, getB_removeB]
      by_cases hk : k = bid
      · simp [hk]
      · rw [if_neg hk, if_neg hk, getB_updateB]
        by_cases hkp : k = pid
        · rw [if_pos hkp, hkp, hgp]
        · rw [if_neg hkp]
          rcases hsk : getB s.blocks k with _ | b
          · simp
          · have hnotin : bid ∉ b.childIds := by
              intro hmem2
              have := hinv.childConsist hg hsk hmem2
              rw [hp] at this
              injection this with this
              exact hkp this.symm
            simp [removeAll_of_not_mem hnotin]
    exact invariant_remove hinv hg hempty hroots hrnodup hkeys hB

/-! ## Re-parenting

`indentBlock` and `outdentBlock` both move one live block `bid` out of
its current container into a destination container: the childIds of a
live block `N` (`dst = some N`) or the root order (`dst = none`).  The
lemma below proves the §3 invariants for any step of that shape,
characterised pointwise: every live block keeps its identity, `bid`'s
`parentId` becomes `dst`, every other `parentId` is unchanged, and
every childIds list afterwards holds exactly its old members minus
`bid`, plus `bid` exactly when it is the destination. -/

theorem invariant_move {s s' : Doc} (hinv : Invariant s)
    {bid : String} {block : Block} (hg : getB s.blocks bid = some block)
    (dst : Option String)
    (hdstlive : ∀ N, dst = some N → (getB s.blocks N).isSome = true)
    (hkeys : keysOf s'.blocks = keysOf s.blocks)
    (hrmem : ∀ x, x ∈ s'.rootIds ↔
      ((x = bid ∧ dst = none) ∨ (x ∈ s.rootIds ∧ x ≠ bid)))
    (hrnodup : s'.rootIds.Nodup)
    (hB : ∀ k b, getB s.blocks k = some b → ∃ b',
      getB s'.blocks k = some b' ∧
      b'.parentId = (if k = bid then dst else b.parentId) ∧
      b'.childIds.Nodup ∧
      (∀ x, x ∈ b'.childIds ↔
        ((x ∈ b.childIds ∧ x ≠ bid) ∨ (x = bid ∧ dst = some k)))) :
    Invariant s' := by
  have hlive : ∀ {k}, (getB s.blocks k).isSome = true →
      (getB s'.blocks k).isSome = true := by
    intro k hk
    rw [getB_isSome_iff_mem_keys, hkeys, ← getB_isSome_iff_mem_keys]
    exact hk
  have hsome : ∀ {k b'}, getB s'.blocks k = some b' → ∃ b,
      getB s.blocks k = some b ∧
      b'.parentId = (if k = bid then dst else b.parentId) ∧
      b'.childIds.Nodup ∧
      (∀ x, x ∈ b'.childIds ↔
        ((x ∈ b.childIds ∧ x ≠ bid) ∨ (x = bid ∧ dst = some k))) := by
    intro k b' hb'
    have hk : (getB s.blocks k).isSome = true := by
      rw [getB_isSome_iff_mem_keys, ← hkeys, ← getB_isSome_iff_mem_keys, hb']
      rfl
    obtain ⟨b, hb⟩ := Option.isSome_iff_exists.mp hk
    obtain ⟨b'', hb'', hspec⟩ := hB k b hb
    rw [hb'] at hb''
    exact ⟨b, hb, (Option.some.inj hb'') ▸ hspec⟩
  refine invariant_of_getB (hkeys ▸ hinv.keysNodup) hrnodup ?_ ?_ ?_ ?_ ?_ ?_
  · intro k b' hb'
    obtain ⟨b, hb, -, hnd, -⟩ := hsome hb'
    exact hnd
  · intro x hx
    rcases (hrmem x).mp hx with ⟨rfl, -⟩ | ⟨hxs, -⟩
    · exact hlive (by rw [hg]; rfl)
    · exact hlive (hinv.rootLive hxs)
  · intro k b' hb' x hx
    obtain ⟨b, hb, -, -, hmem⟩ := hsome hb'
    rcases (hmem x).mp hx with ⟨hxb, -⟩ | ⟨rfl, -⟩
    · exact hlive (hinv.childLive hb hxb)
    · exact hlive (by rw [hg]; rfl)
  · intro k b' hb'
    obtain ⟨b, hb, hpar, -, -⟩ := hsome hb'
    rw [hrmem k, hpar]
    by_cases hk : k = bid
    · rw [if_pos hk]
      constructor
      · rintro (⟨-, h⟩ | ⟨hks, hne⟩)
        · exact h
        · exact absurd hk hne
      · intro h
        exact Or.inl ⟨hk, h⟩
    · rw [if_neg hk]
      have := hinv.rootConsist hb
      constructor
      · rintro (⟨h, -⟩ | ⟨hks, -⟩)
        · exact absurd h hk
        · exact this.mp hks
      · intro h
        exact Or.inr ⟨this.mpr h, hk⟩
  · intro k b' q qb' hb' hq' hm
    obtain ⟨b, hb, hpar, -, -⟩ := hsome hb'
    obtain ⟨qb, hq, -, -, hqmem⟩ := hsome hq'
    rw [hpar]
    rcases (hqmem k).mp hm with ⟨hkq, hkne⟩ | ⟨rfl, hdq⟩
    · rw [if_neg hkne]
      exact hinv.childConsist hb hq hkq
    · rw [if_pos rfl]
      exact hdq
  · intro k b' pid2 hb' hp2
    obtain ⟨b, hb, hpar, -, -⟩ := hsome hb'
    rw [hpar] at hp2
    by_cases hk : k = bid
    · rw [if_pos hk] at hp2
      obtain ⟨nb, hnb⟩ := Option.isSome_iff_exists.mp (hdstlive pid2 hp2)
      obtain ⟨nb', hnb', hnspec⟩ := hB pid2 nb hnb
      refine ⟨nb', hnb', ?_⟩
      rw [(hnspec.2.2 k)]
      exact Or.inr ⟨hk, hp2⟩
    · rw [if_neg hk] at hp2
      obtain ⟨pb2, hpb2, hmem2⟩ := hinv.parentLink hb hp2
      obtain ⟨pb2', hpb2', hpspec⟩ := hB pid2 pb2 hpb2
      refine ⟨pb2', hpb2', ?_⟩
      rw [(hpspec.2.2 k)]
      exact Or.inl ⟨hmem2, hk⟩

/-! ### Container specifications for re-parenting steps -/

theorem moveSpec_unchanged {l : List String} {bid k : String}
    {dst : Option String} (hnb : bid ∉ l) (hne : dst ≠ some k) :
    ∀ x, x ∈ l ↔ ((x ∈ l ∧ x ≠ bid) ∨ (x = bid ∧ dst = some k)) := by
  intro x
  constructor
  · intro hx
    exact Or.inl ⟨hx, fun he => hnb (he ▸ hx)⟩
  · rintro (⟨hx, -⟩ | ⟨-, hc⟩)
    · exact hx
    · exact absurd hc hne

theorem moveSpec_removed {l : List String} {bid k : String}
    {dst : Option String} (hne : dst ≠ some k) :
    ∀ x, x ∈ removeAll l bid ↔
      ((x ∈ l ∧ x ≠ bid) ∨ (x = bid ∧ dst = some k)) := by
  intro x
  rw [mem_removeAll]
  constructor
  · exact fun h => Or.inl h
  · rintro (h | ⟨-, hc⟩)
    · exact h
    · exact absurd hc hne

theorem moveSpec_appended {l : List String} {bid k : String}
    {dst : Option String} (hd : dst = some k) :
    ∀ x, x ∈ l ++ [bid] ↔
      ((x ∈ l ∧ x ≠ bid) ∨ (x = bid ∧ dst = some k)) := by
  intro x
  rw [List.mem_append]
  constructor
  · rintro (hx | hx)
    · by_cases he : x = bid
      · exact Or.inr ⟨he, hd⟩
      · exact Or.inl ⟨hx, he⟩
    · simp only [List.mem_singleton] at hx
      exact Or.inr ⟨hx, hd⟩
  · rintro (⟨hx, -⟩ | ⟨rfl, -⟩)
    · exact Or.inl hx
    · exact Or.inr (by simp)

theorem moveSpec_removed_appended {l : List String} {bid k : String}
    {dst : Option String} (hd : dst = some k) :
    ∀ x, x ∈ removeAll l bid ++ [bid] ↔
      ((x ∈ l ∧ x ≠ bid) ∨ (x = bid ∧ dst = some k)) := by
  intro x
  rw [List.mem_append, mem_removeAll]
  constructor
  · rintro (h | h)
    · exact Or.inl h
    · simp only [List.mem_singleton] at h
      exact Or.inr ⟨h, hd⟩
  · rintro (h | ⟨rfl, -⟩)
    · exact Or.inl h
    · exact Or.inr (by simp)

theorem moveSpec_inserted {l : List String} {anchor bid k : String}
    {dst : Option String} (hd : dst = some k) :
    ∀ x, x ∈ insertAfterFirst l anchor bid ↔
      ((x ∈ l ∧ x ≠ bid) ∨ (x = bid ∧ dst = some k)) := by
  intro x
  rw [mem_insertAfterFirst]
  constructor
  · rintro (rfl | hx)
    · exact Or.inr ⟨rfl, hd⟩
    · by_cases he : x = bid
      · exact Or.inr ⟨he, hd⟩
      · exact Or.inl ⟨hx, he⟩
  · rintro (⟨hx, -⟩ | ⟨rfl, -⟩)
    · exact Or.inr hx
    · exact Or.inl rfl

theorem moveSpec_removed_inserted {l : List String} {anchor bid k : String}
    {dst : Option String} (hd : dst = some k) :
    ∀ x, x ∈ insertAfterFirst (removeAll l bid) anchor bid ↔
      ((x ∈ l ∧ x ≠ bid) ∨ (x = bid ∧ dst = some k)) := by
  intro x
  rw [mem_insertAfterFirst, mem_removeAll]
  constructor
  · rintro (rfl | hx)
    · exact Or.inr ⟨rfl, hd⟩
    · exact Or.inl hx
  · rintro (hx | ⟨rfl, -⟩)
    · exact Or.inr hx
    · exact Or.inl rfl

theorem nodup_append_bid {l : List String} {bid : String}
    (h : l.Nodup) (hnb : bid ∉ l) : (l ++ [bid]).Nodup :=
  (List.perm_append_singleton _ _).nodup_iff.mpr (by simp [hnb, h])

theorem nodup_removed_append {l : List String} {bid : String}
    (h : l.Nodup) : (removeAll l bid ++ [bid]).Nodup :=
  nodup_append_bid (removeAll_nodup h) (fun hm => (mem_removeAll.mp hm).2 rfl)

theorem nodup_removed_inserted {l : List String} {anchor bid : String}
    (h : l.Nodup) : (insertAfterFirst (removeAll l bid) anchor bid).Nodup :=
  insertAfterFirst_nodup (removeAll_nodup h)
    (fun hm => (mem_removeAll.mp hm).2 rfl)

theorem root_spec_unchanged {roots : List String} {bid : String}
    {dst : Option String} (hbnr : bid ∉ roots) (hne : dst ≠ none) :
    ∀ x, x ∈ roots ↔ ((x = bid ∧ dst = none) ∨ (x ∈ roots ∧ x ≠ bid)) := by
  intro x
  constructor
  · intro h
    exact Or.inr ⟨h, fun he => hbnr (he ▸ h)⟩
  · rintro (⟨-, hc⟩ | ⟨h, -⟩)
    · exact absurd hc hne
    · exact h

theorem root_spec_removeFirst {roots : List String} {bid : String}
    {dst : Option String} (hnd : roots.Nodup) (hne : dst ≠ none) :
    ∀ x, x ∈ removeFirst roots bid ↔
      ((x = bid ∧ dst = none) ∨ (x ∈ roots ∧ x ≠ bid)) := by
  intro x
  rw [mem_removeFirst_iff hnd]
  constructor
  · exact fun h => Or.inr h
  · rintro (⟨-, hc⟩ | h)
    · exact absurd hc hne
    · exact h

theorem root_spec_inserted {roots : List String} {anchor bid : String} :
    ∀ x, x ∈ insertAfterFirst roots anchor bid ↔
      ((x = bid ∧ (none : Option String) = none) ∨ (x ∈ roots ∧ x ≠ bid)) := by
  intro x
  rw [mem_insertAfterFirst]
  constructor
  · rintro (rfl | hx)
    · exact Or.inl ⟨rfl, rfl⟩
    · by_cases he : x = bid
      · exact Or.inl ⟨he, rfl⟩
      · exact Or.inr ⟨hx, he⟩
  · rintro (⟨rfl, -⟩ | ⟨hx, -⟩)
    · exact Or.inl rfl
    · exact Or.inr hx

/-- Models `indentBlock` preserves the §3 invariants. -/

theorem indentBlock_invariant {s : Doc} (hinv : Invariant s)
    (bid : String) (now : Nat) : Invariant (indentBlock s bid now) := by
  rcases hg : getB s.blocks bid with _ | block
  · simp only [indentBlock, hg]; exact hinv
  rcases hp : block.parentId with _ | pid
  · -- the block is a root; its new parent is the preceding root
    rcases hidx : indexOfD s.rootIds bid with _ | j
    · simp only [indentBlock, hg, hp, hidx]; exact hinv
    rcases j with _ | i
    · simp only [indentBlock, hg, hp, hidx]; exact hinv
    obtain ⟨l₁, l₂, hl, hlen, hnx⟩ := indexOfD_spec hidx
    obtain ⟨l₁', N, hl₁, hlen'⟩ := exists_concat_of_length_eq_succ hlen
    have hNbid : bid ≠ N := by
      intro h
      exact hnx (by rw [hl₁, h]; simp)
    have hlroot : s.rootIds = l₁' ++ N :: bid :: l₂ := by
      rw [hl, hl₁]; simp
    have hgetD : s.rootIds.getD i "" = N := by
      rw [hlroot, ← hlen']
      exact getD_length_append _ _ _ _
    simp only [indentBlock, hg, hp, hidx, hgetD]
    rcases hgN : getB s.blocks N with _ | nB
    · exact hinv
    have hCN : childIdsOf s.blocks N = nB.childIds := by
      unfold childIdsOf
      rw [hgN]
    simp only [hCN]
    have hbidroot : bid ∈ s.rootIds := (hinv.rootConsist hg).mpr hp
    refine invariant_move hinv hg (some N) ?_ ?_ ?_ ?_ ?_
    · intro M hM
      injection hM with h
      rw [← h, hgN]
      rfl
    · simp [keysOf_updateB]
    · exact root_spec_removeFirst hinv.rootsNodup (by simp)
    · exact removeFirst_nodup hinv.rootsNodup
    · intro k b hkb
      by_cases hk : k = bid
      · have hbb : b = block := by
          rw [hk, hg] at hkb
          exact (Option.some.inj hkb).symm
        refine ⟨{ block with parentId := some N, updatedAt := now },
          ?_, ?_, ?_, ?_⟩
        · simp [getB_updateB, hk, hNbid, Ne.symm hNbid, hg]
        · rw [if_pos hk]
        · show block.childIds.Nodup
          exact hinv.childNodup hg
        · show ∀ x, x ∈ block.childIds ↔ _
          rw [hbb]
          exact moveSpec_unchanged (hinv.root_not_child hbidroot hg)
            (fun h => hNbid ((Option.some.inj h).trans hk).symm)
      · by_cases hkN : k = N
        · have hbb : b = nB := by
            rw [hkN, hgN] at hkb
            exact (Option.some.inj hkb).symm
          refine ⟨{ nB with childIds := nB.childIds ++ [bid], collapsed := false },
            ?_, ?_, ?_, ?_⟩
          · simp [getB_updateB, hk, hkN, hNbid, Ne.symm hNbid, hgN]
          · show nB.parentId = _
            rw [if_neg hk, hbb]
          · show (nB.childIds ++ [bid]).Nodup
            exact nodup_append_bid (hinv.childNodup hgN)
              (hinv.root_not_child hbidroot hgN)
          · show ∀ x, x ∈ nB.childIds ++ [bid] ↔ _
            rw [hbb]
            exact moveSpec_appended (by rw [hkN])
        · refine ⟨b, ?_, ?_, hinv.childNodup hkb, ?_⟩
          · simp [getB_updateB, hk, hkN, hNbid, Ne.symm hNbid, hkb]
          · rw [if_neg hk]
          · exact moveSpec_unchanged (hinv.root_not_child hbidroot hkb)
              (fun h => hkN (Option.some.inj h).symm)
  · -- the block sits in pid's childIds; its new parent is the
    -- preceding sibling
    rcases hgp : getB s.blocks pid with _ | p
    · have hsib : childIdsOf s.blocks pid = [] := by
        unfold childIdsOf
        rw [hgp]
      simp only [indentBlock, hg, hp, hsib, indexOfD]
      exact hinv
    have hsib : childIdsOf s.blocks pid = p.childIds := by
      unfold childIdsOf
      rw [hgp]
    rcases hidx : indexOfD p.childIds bid with _ | j
    · simp only [indentBlock, hg, hp, hsib, hidx]; exact hinv
    rcases j with _ | i
    · simp only [indentBlock, hg, hp, hsib, hidx]; exact hinv
    obtain ⟨l₁, l₂, hl, hlen, hnx⟩ := indexOfD_spec hidx
    obtain ⟨l₁', N, hl₁, hlen'⟩ := exists_concat_of_length_eq_succ hlen
    have hNbid : bid ≠ N := by
      intro h
      exact hnx (by rw [hl₁, h]; simp)
    have hlc : p.childIds = l₁' ++ N :: bid :: l₂ := by
      rw [hl, hl₁]; simp
    have hgetD : p.childIds.getD i "" = N := by
      rw [hlc, ← hlen']
      exact getD_length_append _ _ _ _
    have hchild_only : ∀ {k b}, getB s.blocks k = some b → k ≠ pid →
        bid ∉ b.childIds := by
      intro k b hb hkp hmem
      have := hinv.childConsist hg hb hmem
      rw [hp] at this
      injection this with this
      exact hkp this.symm
    have hbnr : bid ∉ s.rootIds := by
      intro h
      have := (hinv.rootConsist hg).mp h
      rw [hp] at this
      exact Option.noConfusion this
    simp only [indentBlock, hg, hp, hsib, hidx, hgetD]
    rcases hgN : getB s.blocks N with _ | nB
    · exact hinv
    by_cases hNp : N = pid
    · -- the preceding sibling is the parent itself (a cyclic state the
      -- invariants do not exclude)
      rw [hNp]
      have hpbid : pid ≠ bid := fun h => hNbid (hNp.trans h).symm
      have hCN : childIdsOf (updateB s.blocks pid
          (fun b => { b with childIds := removeAll b.childIds bid })) pid =
          removeAll p.childIds bid := by
        unfold childIdsOf
        rw [getB_updateB, if_pos rfl, hgp]
        rfl
      simp only [hCN]
      refine invariant_move hinv hg (some pid) ?_ ?_ ?_ ?_ ?_
      · intro M hM
        injection hM with h
        rw [← h, hgp]
        rfl
      · simp [keysOf_updateB]
      · exact root_spec_unchanged hbnr (by simp)
      · exact hinv.rootsNodup
      · intro k b hkb
        by_cases hk : k = bid
        · have hbb : b = block := by
            rw [hk, hg] at hkb
            exact (Option.some.inj hkb).symm
          have hbidpid : ¬bid = pid := fun h => hpbid h.symm
          refine ⟨{ block with parentId := some pid, updatedAt := now },
            ?_, ?_, ?_, ?_⟩
          · simp [getB_updateB, hk, hpbid, hbidpid, hg]
          · rw [if_pos hk]
          · show block.childIds.Nodup
            exact hinv.childNodup hg
          · show ∀ x, x ∈ block.childIds ↔ _
            rw [hbb]
            exact moveSpec_unchanged
              (hchild_only hg hbidpid)
              (fun h => hpbid ((Option.some.inj h).trans hk))
        · by_cases hkp : k = pid
          · have hbb : b = p := by
              rw [hkp, hgp] at hkb
              exact (Option.some.inj hkb).symm
            have hpidbid : ¬pid = bid := hpbid
            refine ⟨{ p with
                childIds := removeAll p.childIds bid ++ [bid]
                collapsed := false },
              ?_, ?_, ?_, ?_⟩
            · simp [getB_updateB, hk, hkp, hpidbid, hgp]
            · show p.parentId = _
              rw [if_neg hk, hbb]
            · show (removeAll p.childIds bid ++ [bid]).Nodup
              exact nodup_removed_append (hinv.childNodup hgp)
            · show ∀ x, x ∈ removeAll p.childIds bid ++ [bid] ↔ _
              rw [hbb]
              exact moveSpec_removed_appended (by rw [hkp])
          · refine ⟨b, ?_, ?_, hinv.childNodup hkb, ?_⟩
            · simp [getB_updateB, hk, hkp, hkb]
            · rw [if_neg hk]
            · exact moveSpec_unchanged (hchild_only hkb hkp)
                (fun h => hkp (Option.some.inj h).symm)
    · -- the preceding sibling is a different block
      have hCN : childIdsOf (updateB s.blocks pid
          (fun b => { b with childIds := removeAll b.childIds bid })) N =
          nB.childIds := by
        unfold childIdsOf
        rw [getB_updateB, if_neg hNp, hgN]
      simp only [hCN]
      have hnbN : bid ∉ nB.childIds := hchild_only hgN hNp
      refine invariant_move hinv hg (some N) ?_ ?_ ?_ ?_ ?_
      · intro M hM
        injection hM with h
        rw [← h, hgN]
        rfl
      · simp [keysOf_updateB]
      · exact root_spec_unchanged hbnr (by simp)
      · exact hinv.rootsNodup
      · intro k b hkb
        by_cases hk : k = bid
        · have hbb : b = block := by
            rw [hk, hg] at hkb
            exact (Option.some.inj hkb).symm
          by_cases hpb : pid = bid
          · -- the moved block is its own parent (cyclic state)
            have hbp : p = block := by
              rw [hpb, hg] at hgp
              exact (Option.some.inj hgp).symm
            refine ⟨{ block with
                childIds := removeAll block.childIds bid
                parentId := some N
                updatedAt := now },
              ?_, ?_, ?_, ?_⟩
            · simp [getB_updateB, hk, hNbid, Ne.symm hNbid, hpb, hg, hbp]
            · rw [if_pos hk]
            · show (removeAll block.childIds bid).Nodup
              exact removeAll_nodup (hinv.childNodup hg)
            · show ∀ x, x ∈ removeAll block.childIds bid ↔ _
              rw [hbb]
              exact moveSpec_removed
                (fun h => hNbid ((Option.some.inj h).trans hk).symm)
          · have hbidpid : ¬bid = pid := fun h => hpb h.symm
            refine ⟨{ block with parentId := some N, updatedAt := now },
              ?_, ?_, ?_, ?_⟩
            · simp [getB_updateB, hk, hNbid, Ne.symm hNbid, hbidpid, hg]
            · rw [if_pos hk]
            · show block.childIds.Nodup
              exact hinv.childNodup hg
            · show ∀ x, x ∈ block.childIds ↔ _
              rw [hbb]
              exact moveSpec_unchanged
                (hchild_only hg hbidpid)
                (fun h => hNbid ((Option.some.inj h).trans hk).symm)
        · by_cases hkN : k = N
          · have hbb : b = nB := by
              rw [hkN, hgN] at hkb
              exact (Option.some.inj hkb).symm
            have hNpid : ¬N = pid := hNp
            refine ⟨{ nB with
                childIds := nB.childIds ++ [bid]
                collapsed := false },
              ?_, ?_, ?_, ?_⟩
            · simp [getB_updateB, hk, hkN, hNbid, Ne.symm hNbid, hNpid, hgN]
            · show nB.parentId = _
              rw [if_neg hk, hbb]
            · show (nB.childIds ++ [bid]).Nodup
              exact nodup_append_bid (hinv.childNodup hgN) hnbN
            · show ∀ x, x ∈ nB.childIds ++ [bid] ↔ _
              rw [hbb]
              exact moveSpec_appended (by rw [hkN])
          · by_cases hkp : k = pid
            · have hbb : b = p := by
                rw [hkp, hgp] at hkb
                exact (Option.some.inj hkb).symm
              have hpidbid : ¬pid = bid := fun h => hk (hkp.trans h)
              have hpidN : ¬pid = N := fun h => hNp h.symm
              refine ⟨{ p with childIds := removeAll p.childIds bid },
                ?_, ?_, ?_, ?_⟩
              · simp [getB_updateB, hk, hkN, hkp, hpidbid, hpidN, hNbid, Ne.symm hNbid, hgp]
              · show p.parentId = _
                rw [if_neg hk, hbb]
              · show (removeAll p.childIds bid).Nodup
                exact removeAll_nodup (hinv.childNodup hgp)
              · show ∀ x, x ∈ removeAll p.childIds bid ↔ _
                rw [hbb]
                exact moveSpec_removed
                  (fun h => hNp ((Option.some.inj h).trans hkp))
            · refine ⟨b, ?_, ?_, hinv.childNodup hkb, ?_⟩
              · simp [getB_updateB, hk, hkN, hkp, hkb]
              · rw [if_neg hk]
              · exact moveSpec_unchanged (hchild_only hkb hkp)
                  (fun h => hkN (Option.some.inj h).symm)

/-- Models `outdentBlock` preserves the §3 invariants. -/

theorem outdentBlock_invariant {s : Doc} (hinv : Invariant s)
    (bid : String) (now : Nat) : Invariant (outdentBlock s bid now) := by
  rcases hg : getB s.blocks bid with _ | block
  · simp only [outdentBlock, hg]; exact hinv
  rcases hp : block.parentId with _ | pid
  · simp only [outdentBlock, hg, hp]; exact hinv
  rcases hgp : getB s.blocks pid with _ | parent
  · simp only [outdentBlock, hg, hp, hgp]; exact hinv
  have hchild_only : ∀ {k b}, getB s.blocks k = some b → k ≠ pid →
      bid ∉ b.childIds := by
    intro k b hb hkp hmem
    have := hinv.childConsist hg hb hmem
    rw [hp] at this
    injection this with this
    exact hkp this.symm
  have hbnr : bid ∉ s.rootIds := by
    intro h
    have := (hinv.rootConsist hg).mp h
    rw [hp] at this
    exact Option.noConfusion this
  rcases hpp : parent.parentId with _ | gid
  · -- the parent is a root: the block joins the root order
    have hpbid : pid ≠ bid := by
      intro h
      rw [h, hg] at hgp
      have hpb : parent = block := (Option.some.inj hgp).symm
      rw [hpb, hp] at hpp
      exact Option.noConfusion hpp
    have hbidpid : ¬bid = pid := fun h => hpbid h.symm
    simp only [outdentBlock, hg, hp, hgp, hpp]
    refine invariant_move hinv hg none ?_ ?_ ?_ ?_ ?_
    · intro M hM
      exact Option.noConfusion hM
    · simp [keysOf_updateB]
    · exact root_spec_inserted
    · exact insertAfterFirst_nodup hinv.rootsNodup hbnr
    · intro k b hkb
      by_cases hk : k = bid
      · have hbb : b = block := by
          rw [hk, hg] at hkb
          exact (Option.some.inj hkb).symm
        refine ⟨{ block with parentId := none, updatedAt := now },
          ?_, ?_, ?_, ?_⟩
        · rw [getB_updateB, if_pos hk, getB_updateB, if_pos rfl,
            getB_updateB, if_neg hbidpid, hg]
          rfl
        · rw [if_pos hk]
        · show block.childIds.Nodup
          exact hinv.childNodup hg
        · show ∀ x, x ∈ block.childIds ↔ _
          rw [hbb]
          exact moveSpec_unchanged (hchild_only hg hbidpid) (by simp)
      · by_cases hkp : k = pid
        · have hbb : b = parent := by
            rw [hkp, hgp] at hkb
            exact (Option.some.inj hkb).symm
          refine ⟨{ parent with childIds := removeAll parent.childIds bid },
            ?_, ?_, ?_, ?_⟩
          · rw [getB_updateB, if_neg hk, getB_updateB, if_neg hk,
              getB_updateB, if_pos hkp, hgp]
            rfl
          · show parent.parentId = _
            rw [if_neg hk, hbb]
          · show (removeAll parent.childIds bid).Nodup
            exact removeAll_nodup (hinv.childNodup hgp)
          · show ∀ x, x ∈ removeAll parent.childIds bid ↔ _
            rw [hbb]
            exact moveSpec_removed (by simp)
        · refine ⟨b, ?_, ?_, hinv.childNodup hkb, ?_⟩
          · rw [getB_updateB, if_neg hk, getB_updateB, if_neg hk,
              getB_updateB, if_neg hkp]
            exact hkb
          · rw [if_neg hk]
          · exact moveSpec_unchanged (hchild_only hkb hkp) (by simp)
  · -- the parent has a parent: the block joins gid's childIds
    obtain ⟨g0, hg0, hpmem⟩ := hinv.parentLink hgp hpp
    by_cases hgidpid : gid = pid
    · -- the grandparent is the parent itself (cyclic state)
      have hgg : getB (updateB s.blocks pid
          (fun b => { b with childIds := removeAll b.childIds bid })) gid =
          some { parent with childIds := removeAll parent.childIds bid } := by
        rw [getB_updateB, if_pos hgidpid, hgp]
        rfl
      simp only [outdentBlock, hg, hp, hgp, hpp, hgg]
      by_cases hpb : pid = bid
      · -- fully self-referential: pid = gid = bid
        have hparblock : parent = block := by
          rw [hpb, hg] at hgp
          exact (Option.some.inj hgp).symm
        have hbidpid2 : bid = pid := hpb.symm
        have hbidgid : bid = gid := hpb.symm.trans hgidpid.symm
        refine invariant_move hinv hg (some gid) ?_ ?_ ?_ ?_ ?_
        · intro M hM
          injection hM with h
          rw [← h, hgidpid, hgp]
          rfl
        · simp [keysOf_updateB]
        · exact root_spec_unchanged hbnr (by simp)
        · exact hinv.rootsNodup
        · intro k b hkb
          by_cases hk : k = bid
          · have hbb : b = block := by
              rw [hk, hg] at hkb
              exact (Option.some.inj hkb).symm
            have hd : (some gid : Option String) = some k := by
              rw [hk, ← hbidgid]
            refine ⟨{ block with
                childIds := insertAfterFirst
                  (removeAll parent.childIds bid) pid bid
                parentId := some gid
                updatedAt := now },
              ?_, ?_, ?_, ?_⟩
            · rw [getB_updateB, if_pos hk, getB_updateB, if_pos rfl,
                getB_updateB, if_pos hbidgid, getB_updateB, if_pos hgidpid,
                hgp, hparblock]
              rfl
            · rw [if_pos hk]
            · show (insertAfterFirst (removeAll parent.childIds bid) pid bid).Nodup
              exact nodup_removed_inserted (hinv.childNodup hgp)
            · show ∀ x, x ∈ insertAfterFirst
                  (removeAll parent.childIds bid) pid bid ↔ _
              rw [hbb, hparblock]
              exact moveSpec_removed_inserted hd
          · have hkp : k ≠ pid := fun h => hk (h.trans hpb)
            have hkg : k ≠ gid := fun h => hkp (h.trans hgidpid)
            refine ⟨b, ?_, ?_, hinv.childNodup hkb, ?_⟩
            · rw [getB_updateB, if_neg hk, getB_updateB, if_neg hk,
                getB_updateB, if_neg hkg, getB_updateB, if_neg hkp]
              exact hkb
            · rw [if_neg hk]
            · exact moveSpec_unchanged (hchild_only hkb hkp)
                (fun h => hkg (Option.some.inj h).symm)
      · -- pid = gid but the moved block is distinct
        have hbidpid : ¬bid = pid := fun h => hpb h.symm
        have hbg : ¬bid = gid := fun h => hbidpid (h.trans hgidpid)
        refine invariant_move hinv hg (some gid) ?_ ?_ ?_ ?_ ?_
        · intro M hM
          injection hM with h
          rw [← h, hgidpid, hgp]
          rfl
        · simp [keysOf_updateB]
        · exact root_spec_unchanged hbnr (by simp)
        · exact hinv.rootsNodup
        · intro k b hkb
          by_cases hk : k = bid
          · have hbb : b = block := by
              rw [hk, hg] at hkb
              exact (Option.some.inj hkb).symm
            refine ⟨{ block with parentId := some gid, updatedAt := now },
              ?_, ?_, ?_, ?_⟩
            · rw [getB_updateB, if_pos hk, getB_updateB, if_pos rfl,
                getB_updateB, if_neg hbg, getB_updateB, if_neg hbidpid, hg]
              rfl
            · rw [if_pos hk]
            · show block.childIds.Nodup
              exact hinv.childNodup hg
            · show ∀ x, x ∈ block.childIds ↔ _
              rw [hbb]
              exact moveSpec_unchanged (hchild_only hg hbidpid)
                (fun h => hbg ((Option.some.inj h).trans hk).symm)
          · by_cases hkp : k = pid
            · have hbb : b = parent := by
                rw [hkp, hgp] at hkb
                exact (Option.some.inj hkb).symm
              have hkgid : k = gid := hkp.trans hgidpid.symm
              have hd : (some gid : Option String) = some k := by
                rw [hkgid]
              refine ⟨{ parent with
                  childIds := insertAfterFirst
                    (removeAll parent.childIds bid) pid bid },
                ?_, ?_, ?_, ?_⟩
              · rw [getB_updateB, if_neg hk, getB_updateB, if_neg hk,
                  getB_updateB, if_pos hkgid, hgg]
                rfl
              · show parent.parentId = _
                rw [if_neg hk, hbb]
              · show (insertAfterFirst
                    (removeAll parent.childIds bid) pid bid).Nodup
                exact nodup_removed_inserted (hinv.childNodup hgp)
              · show ∀ x, x ∈ insertAfterFirst
                    (removeAll parent.childIds bid) pid bid ↔ _
                rw [hbb]
                exact moveSpec_removed_inserted hd
            · have hkg : k ≠ gid := fun h => hkp (h.trans hgidpid)
              refine ⟨b, ?_, ?_, hinv.childNodup hkb, ?_⟩
              · rw [getB_updateB, if_neg hk, getB_updateB, if_neg hk,
                  getB_updateB, if_neg hkg, getB_updateB, if_neg hkp]
                exact hkb
              · rw [if_neg hk]
              · exact moveSpec_unchanged (hchild_only hkb hkp)
                  (fun h => hkg (Option.some.inj h).symm)
    · -- the grandparent is a distinct block
      have hpidbid : pid ≠ bid := by
        intro h
        rw [h, hg] at hgp
        have hpb : parent = block := (Option.some.inj hgp).symm
        rw [hpb, hp] at hpp
        injection hpp with hpp2
        exact hgidpid hpp2.symm
      have hbidpid : ¬bid = pid := fun h => hpidbid h.symm
      have hgg : getB (updateB s.blocks pid
          (fun b => { b with childIds := removeAll b.childIds bid })) gid =
          some g0 := by
        rw [getB_updateB, if_neg hgidpid, hg0]
      simp only [outdentBlock, hg, hp, hgp, hpp, hgg]
      by_cases hgidbid : gid = bid
      · -- two-cycle: the grandparent is the moved block itself
        have hg0block : g0 = block := by
          rw [hgidbid, hg] at hg0
          exact (Option.some.inj hg0).symm
        have hbidgid : bid = gid := hgidbid.symm
        refine invariant_move hinv hg (some gid) ?_ ?_ ?_ ?_ ?_
        · intro M hM
          injection hM with h
          rw [← h, hg0]
          rfl
        · simp [keysOf_updateB]
        · exact root_spec_unchanged hbnr (by simp)
        · exact hinv.rootsNodup
        · intro k b hkb
          by_cases hk : k = bid
          · have hbb : b = block := by
              rw [hk, hg] at hkb
              exact (Option.some.inj hkb).symm
            have hd : (some gid : Option String) = some k := by
              rw [hk, ← hbidgid]
            refine ⟨{ block with
                childIds := insertAfterFirst block.childIds pid bid
                parentId := some gid
                updatedAt := now },
              ?_, ?_, ?_, ?_⟩
            · rw [getB_updateB, if_pos hk, getB_updateB, if_pos rfl,
                getB_updateB, if_pos hbidgid, hgg, hg0block]
              rfl
            · rw [if_pos hk]
            · show (insertAfterFirst block.childIds pid bid).Nodup
              exact insertAfterFirst_nodup (hinv.childNodup hg)
                (hchild_only hg hbidpid)
            · show ∀ x, x ∈ insertAfterFirst block.childIds pid bid ↔ _
              rw [hbb]
              exact moveSpec_inserted hd
          · by_cases hkp : k = pid
            · have hbb : b = parent := by
                rw [hkp, hgp] at hkb
                exact (Option.some.inj hkb).symm
              have hkg : k ≠ gid := fun h => hk (h.trans hgidbid)
              refine ⟨{ parent with childIds := removeAll parent.childIds bid },
                ?_, ?_, ?_, ?_⟩
              · rw [getB_updateB, if_neg hk, getB_updateB, if_neg hk,
                  getB_updateB, if_neg hkg, getB_updateB, if_pos hkp, hgp]
                rfl
              · show parent.parentId = _
                rw [if_neg hk, hbb]
              · show (removeAll parent.childIds bid).Nodup
                exact removeAll_nodup (hinv.childNodup hgp)
              · show ∀ x, x ∈ removeAll parent.childIds bid ↔ _
                rw [hbb]
                exact moveSpec_removed
                  (fun h => hkg (Option.some.inj h).symm)
            · have hkg : k ≠ gid := fun h => hk (h.trans hgidbid)
              refine ⟨b, ?_, ?_, hinv.childNodup hkb, ?_⟩
              · rw [getB_updateB, if_neg hk, getB_updateB, if_neg hk,
                  getB_updateB, if_neg hkg, getB_updateB, if_neg hkp]
                exact hkb
              · rw [if_neg hk]
              · exact moveSpec_unchanged (hchild_only hkb hkp)
                  (fun h => hkg (Option.some.inj h).symm)
      · -- fully generic: bid, pid, gid pairwise distinct
        have hbg : ¬bid = gid := fun h => hgidbid h.symm
        refine invariant_move hinv hg (some gid) ?_ ?_ ?_ ?_ ?_
        · intro M hM
          injection hM with h
          rw [← h, hg0]
          rfl
        · simp [keysOf_updateB]
        · exact root_spec_unchanged hbnr (by simp)
        · exact hinv.rootsNodup
        · intro k b hkb
          by_cases hk : k = bid
          · have hbb : b = block := by
              rw [hk, hg] at hkb
              exact (Option.some.inj hkb).symm
            refine ⟨{ block with parentId := some gid, updatedAt := now },
              ?_, ?_, ?_, ?_⟩
            · rw [getB_updateB, if_pos hk, getB_updateB, if_pos rfl,
                getB_updateB, if_neg hbg, getB_updateB, if_neg hbidpid, hg]
              rfl
            · rw [if_pos hk]
            · show block.childIds.Nodup
              exact hinv.childNodup hg
            · show ∀ x, x ∈ block.childIds ↔ _
              rw [hbb]
              exact moveSpec_unchanged (hchild_only hg hbidpid)
                (fun h => hgidbid ((Option.some.inj h).trans hk))
          · by_cases hkgid : k = gid
            · have hbb : b = g0 := by
                rw [hkgid, hg0] at hkb
                exact (Option.some.inj hkb).symm
              have hkp : k ≠ pid := fun h => hgidpid (hkgid.symm.trans h)
              have hd : (some gid : Option String) = some k := by
                rw [hkgid]
              refine ⟨{ g0 with
                  childIds := insertAfterFirst g0.childIds pid bid },
                ?_, ?_, ?_, ?_⟩
              · rw [getB_updateB, if_neg hk, getB_updateB, if_neg hk,
                  getB_updateB, if_pos hkgid, hgg]
                rfl
              · show g0.parentId = _
                rw [if_neg hk, hbb]
              · show (insertAfterFirst g0.childIds pid bid).Nodup
                exact insertAfterFirst_nodup (hinv.childNodup hg0)
                  (hchild_only hg0 hgidpid)
              · show ∀ x, x ∈ insertAfterFirst g0.childIds pid bid ↔ _
                rw [hbb]
                exact moveSpec_inserted hd
            · by_cases hkp : k = pid
              · have hbb : b = parent := by
                  rw [hkp, hgp] at hkb
                  exact (Option.some.inj hkb).symm
                refine ⟨{ parent with
                    childIds := removeAll parent.childIds bid },
                  ?_, ?_, ?_, ?_⟩
                · rw [getB_updateB, if_neg hk, getB_updateB, if_neg hk,
                    getB_updateB, if_neg hkgid, getB_updateB, if_pos hkp, hgp]
                  rfl
                · show parent.parentId = _
                  rw [if_neg hk, hbb]
                · show (removeAll parent.childIds bid).Nodup
                  exact removeAll_nodup (hinv.childNodup hgp)
                · show ∀ x, x ∈ removeAll parent.childIds bid ↔ _
                  rw [hbb]
                  exact moveSpec_removed
                    (fun h => hkgid (Option.some.inj h).symm)
              · refine ⟨b, ?_, ?_, hinv.childNodup hkb, ?_⟩
                · rw [getB_updateB, if_neg hk, getB_updateB, if_neg hk,
                    getB_updateB, if_neg hkgid, getB_updateB, if_neg hkp]
                  exact hkb
                · rw [if_neg hk]
                · exact moveSpec_unchanged (hchild_only hkb hkp)
                    (fun h => hkgid (Option.some.inj h).symm)

/-! ### Indent / outdent round trip (claim C5) -/

theorem removeFirst_append_cons {l₁ l₂ : List String} {x : String}
    (hx : x ∉ l₁) : removeFirst (l₁ ++ x :: l₂) x = l₁ ++ l₂ := by
  induction l₁ with
  | nil => simp [removeFirst]
  | cons y t ih =>
    have hy : y ≠ x := fun h => hx (by simp [h])
    have ht : x ∉ t := fun h => hx (by simp [h])
    simp [removeFirst, hy, ih ht]

theorem removeAll_append_cons {l₁ l₂ : List String} {x : String}
    (h1 : x ∉ l₁) (h2 : x ∉ l₂) :
    removeAll (l₁ ++ x :: l₂) x = l₁ ++ l₂ := by
  rw [removeAll_append, removeAll_of_not_mem h1]
  show l₁ ++ removeAll (x :: l₂) x = l₁ ++ l₂
  rw [show removeAll (x :: l₂) x = removeAll l₂ x from by simp [removeAll],
    removeAll_of_not_mem h2]

/-- C5: indenting a block that has a preceding sibling and then
immediately outdenting it restores the block's `parentId` and the exact
containing ordered sequence (the parent's childIds, or the root order).
The hypothesis `block.parentId ≠ some bid` rules out the degenerate
self-parented cycle, which the intended (acyclic) reading of the §3
invariants excludes. -/

theorem C5_indent_then_outdent_restores {s : Doc} (hinv : Invariant s)
    {bid : String} {block : Block} (hg : getB s.blocks bid = some block)
    {i : Nat} (hidx : indexOfD (containerOf s block) bid = some (i + 1))
    (hself : block.parentId ≠ some bid) (t1 t2 : Nat) :
    ∃ b', getB (outdentBlock (indentBlock s bid t1) bid t2).blocks bid = some b' ∧
      b'.parentId = block.parentId ∧
      containerOf (outdentBlock (indentBlock s bid t1) bid t2) block =
        containerOf s block := by
  rcases hp : block.parentId with _ | pid
  · -- the block is a root: the round trip runs through the root order
    simp only [containerOf, hp] at hidx ⊢
    obtain ⟨l₁, l₂, hc, hlen, hbnl1⟩ := indexOfD_spec hidx
    obtain ⟨l₁', prev, hl1, hlen'⟩ := exists_concat_of_length_eq_succ hlen
    have hcc : s.rootIds = l₁' ++ prev :: bid :: l₂ := by
      rw [hc, hl1]; simp
    have hprevbid : prev ≠ bid := by
      intro h
      apply hbnl1
      rw [hl1, h]
      simp
    have hbidprev : bid ≠ prev := fun h => hprevbid h.symm
    have hgd : s.rootIds.getD i "" = prev := by
      rw [hcc, ← hlen']
      exact getD_length_append l₁' (bid :: l₂) prev ""
    have hprevmem : prev ∈ s.rootIds := by rw [hcc]; simp
    obtain ⟨prevB, hgprev⟩ :=
      Option.isSome_iff_exists.mp (hinv.rootLive hprevmem)
    have hprevroot : prevB.parentId = none :=
      (hinv.rootConsist hgprev).mp hprevmem
    have hciprev : childIdsOf s.blocks prev = prevB.childIds := by
      simp [childIdsOf, hgprev]
    have hE : indentBlock s bid t1 =
        { blocks := updateB (updateB (updateB (updateB s.blocks prev
              (fun b => { b with childIds := prevB.childIds ++ [bid] })) prev
              (fun b => { b with collapsed := false })) bid
              (fun b => { b with parentId := some prev })) bid
              (fun b => { b with updatedAt := t1 })
          rootIds := removeFirst s.rootIds bid } := by
      simp only [indentBlock, hg, hp, hidx, hgd, hgprev, hciprev]
    rw [hE]
    have hb1 : getB (updateB (updateB (updateB (updateB s.blocks prev
          (fun b => { b with childIds := prevB.childIds ++ [bid] })) prev
          (fun b => { b with collapsed := false })) bid
          (fun b => { b with parentId := some prev })) bid
          (fun b => { b with updatedAt := t1 })) bid =
        some { block with parentId := some prev, updatedAt := t1 } := by
      rw [getB_updateB, if_pos rfl, getB_updateB, if_pos rfl,
        getB_updateB, if_neg hbidprev, getB_updateB, if_neg hbidprev, hg]
      rfl
    have hb2 : getB (updateB (updateB (updateB (updateB s.blocks prev
          (fun b => { b with childIds := prevB.childIds ++ [bid] })) prev
          (fun b => { b with collapsed := false })) bid
          (fun b => { b with parentId := some prev })) bid
          (fun b => { b with updatedAt := t1 })) prev =
        some { prevB with
          childIds := prevB.childIds ++ [bid]
          collapsed := false } := by
      rw [getB_updateB, if_neg hprevbid, getB_updateB, if_neg hprevbid,
        getB_updateB, if_pos rfl, getB_updateB, if_pos rfl, hgprev]
      rfl
    have hF : outdentBlock
        { blocks := updateB (updateB (updateB (updateB s.blocks prev
              (fun b => { b with childIds := prevB.childIds ++ [bid] })) prev
              (fun b => { b with collapsed := false })) bid
              (fun b => { b with parentId := some prev })) bid
              (fun b => { b with updatedAt := t1 })
          rootIds := removeFirst s.rootIds bid } bid t2 =
        { blocks := updateB (updateB (updateB (updateB (updateB (updateB
              (updateB s.blocks prev
                (fun b => { b with childIds := prevB.childIds ++ [bid] })) prev
                (fun b => { b with collapsed := false })) bid
                (fun b => { b with parentId := some prev })) bid
                (fun b => { b with updatedAt := t1 })) prev
                (fun b => { b with childIds := removeAll b.childIds bid })) bid
                (fun b => { b with parentId := none })) bid
                (fun b => { b with updatedAt := t2 })
          rootIds := insertAfterFirst (removeFirst s.rootIds bid) prev bid } := by
      simp only [outdentBlock, hb1, hb2, hprevroot]
    rw [hF]
    refine ⟨{ block with parentId := none, updatedAt := t2 }, ?_, by simp [hp], ?_⟩
    · rw [getB_updateB, if_pos rfl, getB_updateB, if_pos rfl,
        getB_updateB, if_neg hbidprev, hb1]
      rfl
    · show insertAfterFirst (removeFirst s.rootIds bid) prev bid = s.rootIds
      have hrf : removeFirst s.rootIds bid = l₁' ++ prev :: l₂ := by
        rw [hcc,
          show l₁' ++ prev :: bid :: l₂ = (l₁' ++ [prev]) ++ bid :: l₂ by simp,
          removeFirst_append_cons (by rw [← hl1]; exact hbnl1)]
        simp
      have hndr := hinv.rootsNodup
      rw [hcc] at hndr
      have hprevl1 : prev ∉ l₁' := by
        intro hmem
        rcases List.nodup_append.mp hndr with ⟨-, -, hdisj⟩
        exact hdisj hmem (by simp)
      rw [hrf, insertAfterFirst_append_cons hprevl1, hcc]
  · -- the block sits in its parent's childIds
    simp only [containerOf, hp] at hidx ⊢
    have hpidbid : pid ≠ bid := by
      intro h
      exact hself (by rw [hp, h])
    have hbidpid : bid ≠ pid := fun h => hpidbid h.symm
    obtain ⟨pidB, hgpid, hmempid⟩ := hinv.parentLink hg hp
    have hcipid : childIdsOf s.blocks pid = pidB.childIds := by
      simp [childIdsOf, hgpid]
    rw [hcipid] at hidx
    obtain ⟨l₁, l₂, hc, hlen, hbnl1⟩ := indexOfD_spec hidx
    obtain ⟨l₁', prev, hl1, hlen'⟩ := exists_concat_of_length_eq_succ hlen
    have hcc : pidB.childIds = l₁' ++ prev :: bid :: l₂ := by
      rw [hc, hl1]; simp
    have hprevbid : prev ≠ bid := by
      intro h
      apply hbnl1
      rw [hl1, h]
      simp
    have hbidprev : bid ≠ prev := fun h => hprevbid h.symm
    have hgd : pidB.childIds.getD i "" = prev := by
      rw [hcc, ← hlen']
      exact getD_length_append l₁' (bid :: l₂) prev ""
    have hprevmem : prev ∈ pidB.childIds := by rw [hcc]; simp
    obtain ⟨prevB, hgprev⟩ :=
      Option.isSome_iff_exists.mp (hinv.childLive hgpid hprevmem)
    have hprevpar : prevB.parentId = some pid :=
      hinv.childConsist hgprev hgpid hprevmem
    have hnd := hinv.childNodup hgpid
    rw [hcc] at hnd
    have hbidl2 : bid ∉ l₂ := by
      rcases List.nodup_append.mp hnd with ⟨-, hnd2, -⟩
      exact (List.nodup_cons.mp (List.nodup_cons.mp hnd2).2).1
    have hprevl1 : prev ∉ l₁' := by
      rcases List.nodup_append.mp hnd with ⟨-, -, hdisj⟩
      intro hmem
      exact hdisj hmem (by simp)
    have hra : removeAll pidB.childIds bid = l₁' ++ prev :: l₂ := by
      rw [hcc,
        show l₁' ++ prev :: bid :: l₂ = (l₁' ++ [prev]) ++ bid :: l₂ by simp,
        removeAll_append_cons (by rw [← hl1]; exact hbnl1) hbidl2]
      simp
    have hrestore : insertAfterFirst (removeAll pidB.childIds bid) prev bid =
        pidB.childIds := by
      rw [hra, insertAfterFirst_append_cons hprevl1, hcc]
    by_cases hpp : prev = pid
    · -- the preceding sibling is the parent itself (cyclic state)
      subst hpp
      have hpB : prevB = pidB := by
        rw [hgprev] at hgpid
        exact Option.some.inj hgpid
      subst hpB
      have hci2 : childIdsOf (updateB s.blocks prev
          (fun b => { b with childIds := removeAll b.childIds bid })) prev =
          removeAll prevB.childIds bid := by
        simp [childIdsOf, getB_updateB, hgprev]
      have hE : indentBlock s bid t1 =
          { blocks := updateB (updateB (updateB (updateB (updateB s.blocks prev
                (fun b => { b with childIds := removeAll b.childIds bid })) prev
                (fun b => { b with childIds := removeAll prevB.childIds bid ++ [bid] })) prev
                (fun b => { b with collapsed := false })) bid
                (fun b => { b with parentId := some prev })) bid
                (fun b => { b with updatedAt := t1 })
            rootIds := s.rootIds } := by
        simp only [indentBlock, hg, hp, hcipid, hidx, hgd, hgprev, hci2]
      rw [hE]
      have hb1 : getB (updateB (updateB (updateB (updateB (updateB s.blocks prev
            (fun b => { b with childIds := removeAll b.childIds bid })) prev
            (fun b => { b with childIds := removeAll prevB.childIds bid ++ [bid] })) prev
            (fun b => { b with collapsed := false })) bid
            (fun b => { b with parentId := some prev })) bid
            (fun b => { b with updatedAt := t1 })) bid =
          some { block with parentId := some prev, updatedAt := t1 } := by
        rw [getB_updateB, if_pos rfl, getB_updateB, if_pos rfl,
          getB_updateB, if_neg hbidprev, getB_updateB, if_neg hbidprev,
          getB_updateB, if_neg hbidprev, hg]
        rfl
      have hb2 : getB (updateB (updateB (updateB (updateB (updateB s.blocks prev
            (fun b => { b with childIds := removeAll b.childIds bid })) prev
            (fun b => { b with childIds := removeAll prevB.childIds bid ++ [bid] })) prev
            (fun b => { b with collapsed := false })) bid
            (fun b => { b with parentId := some prev })) bid
            (fun b => { b with updatedAt := t1 })) prev =
          some { prevB with
            childIds := removeAll prevB.childIds bid ++ [bid]
            collapsed := false } := by
        rw [getB_updateB, if_neg hprevbid, getB_updateB, if_neg hprevbid,
          getB_updateB, if_pos rfl, getB_updateB, if_pos rfl,
          getB_updateB, if_pos rfl, hgprev]
        rfl
      have hidem : removeAll (removeAll prevB.childIds bid ++ [bid]) bid =
          removeAll prevB.childIds bid := by
        rw [removeAll_append,
          removeAll_of_not_mem (fun hm => ((mem_removeAll.mp hm).2 rfl))]
        rw [show removeAll [bid] bid = [] from by simp [removeAll]]
        simp
      have hb3 : getB (updateB (updateB (updateB (updateB (updateB (updateB s.blocks prev
            (fun b => { b with childIds := removeAll b.childIds bid })) prev
            (fun b => { b with childIds := removeAll prevB.childIds bid ++ [bid] })) prev
            (fun b => { b with collapsed := false })) bid
            (fun b => { b with parentId := some prev })) bid
            (fun b => { b with updatedAt := t1 })) prev
            (fun b => { b with childIds := removeAll b.childIds bid })) prev =
          some { prevB with
            childIds := removeAll prevB.childIds bid
            collapsed := false } := by
        rw [getB_updateB, if_pos rfl, hb2]
        simp [hidem]
      have hF : outdentBlock
          { blocks := updateB (updateB (updateB (updateB (updateB s.blocks prev
                (fun b => { b with childIds := removeAll b.childIds bid })) prev
                (fun b => { b with childIds := removeAll prevB.childIds bid ++ [bid] })) prev
                (fun b => { b with collapsed := false })) bid
                (fun b => { b with parentId := some prev })) bid
                (fun b => { b with updatedAt := t1 })
            rootIds := s.rootIds } bid t2 =
          { blocks := updateB (updateB (updateB (updateB (updateB (updateB (updateB (updateB
                (updateB s.blocks prev
                  (fun b => { b with childIds := removeAll b.childIds bid })) prev
                  (fun b => { b with childIds := removeAll prevB.childIds bid ++ [bid] })) prev
                  (fun b => { b with collapsed := false })) bid
                  (fun b => { b with parentId := some prev })) bid
                  (fun b => { b with updatedAt := t1 })) prev
                  (fun b => { b with childIds := removeAll b.childIds bid })) prev
                  (fun b => { b with childIds := insertAfterFirst (removeAll prevB.childIds bid) prev bid })) bid
                  (fun b => { b with parentId := some prev })) bid
                  (fun b => { b with updatedAt := t2 })
            rootIds := s.rootIds } := by
        simp only [outdentBlock, hb1, hb2, hprevpar, hb3]
      rw [hF]
      refine ⟨{ block with parentId := some prev, updatedAt := t2 }, ?_,
        by simp [hp], ?_⟩
      · rw [getB_updateB, if_pos rfl, getB_updateB, if_pos rfl,
          getB_updateB, if_neg hbidprev, getB_updateB, if_neg hbidprev, hb1]
        rfl
      · simp only [childIdsOf]
        rw [getB_updateB, if_neg hpidbid, getB_updateB, if_neg hpidbid,
          getB_updateB, if_pos rfl, hb3, hgpid]
        simp [hrestore]
    · -- the preceding sibling is an ordinary distinct block
      have hpidprev : pid ≠ prev := fun h => hpp h.symm
      have hci1 : childIdsOf (updateB s.blocks pid
          (fun b => { b with childIds := removeAll b.childIds bid })) prev =
          prevB.childIds := by
        simp [childIdsOf, getB_updateB, hpp, hgprev]
      have hE : indentBlock s bid t1 =
          { blocks := updateB (updateB (updateB (updateB (updateB s.blocks pid
                (fun b => { b with childIds := removeAll b.childIds bid })) prev
                (fun b => { b with childIds := prevB.childIds ++ [bid] })) prev
                (fun b => { b with collapsed := false })) bid
                (fun b => { b with parentId := some prev })) bid
                (fun b => { b with updatedAt := t1 })
            rootIds := s.rootIds } := by
        simp only [indentBlock, hg, hp, hcipid, hidx, hgd, hgprev, hci1]
      rw [hE]
      have hb1 : getB (updateB (updateB (updateB (updateB (updateB s.blocks pid
            (fun b => { b with childIds := removeAll b.childIds bid })) prev
            (fun b => { b with childIds := prevB.childIds ++ [bid] })) prev
            (fun b => { b with collapsed := false })) bid
            (fun b => { b with parentId := some prev })) bid
            (fun b => { b with updatedAt := t1 })) bid =
          some { block with parentId := some prev, updatedAt := t1 } := by
        rw [getB_updateB, if_pos rfl, getB_updateB, if_pos rfl,
          getB_updateB, if_neg hbidprev, getB_updateB, if_neg hbidprev,
          getB_updateB, if_neg hbidpid, hg]
        rfl
      have hb2 : getB (updateB (updateB (updateB (updateB (updateB s.blocks pid
            (fun b => { b with childIds := removeAll b.childIds bid })) prev
            (fun b => { b with childIds := prevB.childIds ++ [bid] })) prev
            (fun b => { b with collapsed := false })) bid
            (fun b => { b with parentId := some prev })) bid
            (fun b => { b with updatedAt := t1 })) prev =
          some { prevB with
            childIds := prevB.childIds ++ [bid]
            collapsed := false } := by
        rw [getB_updateB, if_neg hprevbid, getB_updateB, if_neg hprevbid,
          getB_updateB, if_pos rfl, getB_updateB, if_pos rfl,
          getB_updateB, if_neg hpp, hgprev]
        rfl
      have hb3 : getB (updateB (updateB (updateB (updateB (updateB (updateB s.blocks pid
            (fun b => { b with childIds := removeAll b.childIds bid })) prev
            (fun b => { b with childIds := prevB.childIds ++ [bid] })) prev
            (fun b => { b with collapsed := false })) bid
            (fun b => { b with parentId := some prev })) bid
            (fun b => { b with updatedAt := t1 })) prev
            (fun b => { b with childIds := removeAll b.childIds bid })) pid =
          some { pidB with childIds := removeAll pidB.childIds bid } := by
        rw [getB_updateB, if_neg hpidprev, getB_updateB, if_neg hpidbid,
          getB_updateB, if_neg hpidbid, getB_updateB, if_neg hpidprev,
          getB_updateB, if_neg hpidprev, getB_updateB, if_pos rfl, hgpid]
        rfl
      have hF : outdentBlock
          { blocks := updateB (updateB (updateB (updateB (updateB s.blocks pid
                (fun b => { b with childIds := removeAll b.childIds bid })) prev
                (fun b => { b with childIds := prevB.childIds ++ [bid] })) prev
                (fun b => { b with collapsed := false })) bid
                (fun b => { b with parentId := some prev })) bid
                (fun b => { b with updatedAt := t1 })
            rootIds := s.rootIds } bid t2 =
          { blocks := updateB (updateB (updateB (updateB (updateB (updateB (updateB (updateB
                (updateB s.blocks pid
                  (fun b => { b with childIds := removeAll b.childIds bid })) prev
                  (fun b => { b with childIds := prevB.childIds ++ [bid] })) prev
                  (fun b => { b with collapsed := false })) bid
                  (fun b => { b with parentId := some prev })) bid
                  (fun b => { b with updatedAt := t1 })) prev
                  (fun b => { b with childIds := removeAll b.childIds bid })) pid
                  (fun b => { b with childIds := insertAfterFirst (removeAll pidB.childIds bid) prev bid })) bid
                  (fun b => { b with parentId := some pid })) bid
                  (fun b => { b with updatedAt := t2 })
            rootIds := s.rootIds } := by
        simp only [outdentBlock, hb1, hb2, hprevpar, hb3]
      rw [hF]
      refine ⟨{ block with parentId := some pid, updatedAt := t2 }, ?_,
        by simp [hp], ?_⟩
      · rw [getB_updateB, if_pos rfl, getB_updateB, if_pos rfl,
          getB_updateB, if_neg hbidpid, getB_updateB, if_neg hbidprev, hb1]
        rfl
      · simp only [childIdsOf]
        rw [getB_updateB, if_neg hpidbid, getB_updateB, if_neg hpidbid,
          getB_updateB, if_pos rfl, hb3, hgpid]
        simp [hrestore]

theorem C5_indent_then_outdent_restores_witness :
    ∃ b', getB (outdentBlock (indentBlock c5doc "B" 7) "B" 8).blocks "B" = some b' ∧
      b'.parentId = (createBlock "" none 0).parentId ∧
      containerOf (outdentBlock (indentBlock c5doc "B" 7) "B" 8)
        (createBlock "" none 0) = containerOf c5doc (createBlock "" none 0) :=
  @C5_indent_then_outdent_restores c5doc (by decide) "B" (createBlock "" none 0)
    (by decide) 0 (by decide) (by decide) 7 8

/-! ### `deleteBlock`: the zero-children guard (claim C6) -/

/-- C6: `deleteBlock` is permitted only on blocks with zero children.
With a non-empty `childIds` the whole document is returned unchanged
(byte for byte); with an empty `childIds` the id disappears from the
block map, is filtered out of the parent's childIds, and for a root the
root order loses its first occurrence of the id while the record is
dropped. -/

theorem C6_deleteBlock_guard {s : Doc} {bid : String} {block : Block}
    (hg : getB s.blocks bid = some block) :
    (block.childIds ≠ [] → deleteBlock s bid = s) ∧
    (block.childIds = [] →
      getB (deleteBlock s bid).blocks bid = none ∧
      (∀ pid, block.parentId = some pid → pid ≠ bid →
        ∀ pb, getB s.blocks pid = some pb →
          ∃ pb', getB (deleteBlock s bid).blocks pid = some pb' ∧
            pb'.childIds = removeAll pb.childIds bid ∧
            pb'.parentId = pb.parentId ∧
            (deleteBlock s bid).rootIds = s.rootIds) ∧
      (block.parentId = none →
        (deleteBlock s bid).rootIds = removeFirst s.rootIds bid ∧
        (deleteBlock s bid).blocks = removeB s.blocks bid)) := by
  constructor
  · intro h
    simp only [deleteBlock, hg]
    rw [if_pos (List.length_pos.mpr h)]
  · intro h
    have hlen : ¬0 < block.childIds.length := by simp [h]
    rcases hbp : block.parentId with _ | pid
    · refine ⟨?_, ?_, ?_⟩
      · simp only [deleteBlock, hg, hbp]
        rw [if_neg hlen, getB_removeB, if_pos rfl]
      · intro pid hpid
        exact absurd hpid (by simp)
      · intro _
        constructor
        · simp only [deleteBlock, hg, hbp]
          rw [if_neg hlen]
        · simp only [deleteBlock, hg, hbp]
          rw [if_neg hlen]
    · refine ⟨?_, ?_, ?_⟩
      · simp only [deleteBlock, hg, hbp]
        rw [if_neg hlen, getB_removeB, if_pos rfl]
      · intro pid' hpid' hne pb hpb
        injection hpid' with hpid'
        subst hpid'
        refine ⟨{ pb with childIds := removeAll pb.childIds bid }, ?_, rfl, rfl, ?_⟩
        · simp only [deleteBlock, hg, hbp]
          rw [if_neg hlen, getB_removeB, if_neg hne, getB_updateB, if_pos rfl, hpb]
          rfl
        · simp only [deleteBlock, hg, hbp]
          rw [if_neg hlen]
      · intro hnone
        exact absurd hnone (by simp)

theorem C6_deleteBlock_guard_witness :
    getB (deleteBlock c6doc "B").blocks "B" = none :=
  ((@C6_deleteBlock_guard c6doc "B"
    { parentId := some "A", childIds := [], content := "", btype := .text,
      collapsed := false, createdAt := 0, updatedAt := 0 }
    (by decide)).2 (by decide)).1

/-- C8: with root order `[A]` and A's children `[B, C]`,
`moveBlockDown B` turns A's childIds into `[C, B]`; then
`outdentBlock C` (whose parent A is a root) turns the root order into
`[A, C]`, A's childIds into `[B]`, and clears C's parentId. -/

theorem C8_move_down_then_outdent_scenario :
    childIdsOf (moveBlockDown c8doc "B" 1).blocks "A" = ["C", "B"] ∧
    (outdentBlock (moveBlockDown c8doc "B" 1) "C" 2).rootIds = ["A", "C"] ∧
    childIdsOf (outdentBlock (moveBlockDown c8doc "B" 1) "C" 2).blocks "A" = ["B"] ∧
    ((getB (outdentBlock (moveBlockDown c8doc "B" 1) "C" 2).blocks "C").map
      (fun c => c.parentId)) = some none := by decide

/-! ### Shell command normalization (claim C9) -/

/-- C9: `extractShellCommand` on the content `"sh:: ls –la"` (en dash)
strips the `sh::` marker and normalizes the dash, yielding `"ls -la"`,
and `parseBlockType` derives the shell type for that content. -/

theorem C9_shell_normalization :
    extractShellCommand "sh:: ls –la" = some "ls -la" ∧
    parseBlockType "sh:: ls –la" = BlockType.sh := by decide

/-- C2 counterexample: the execution result that `executeShellBlock`
merges back into the local document is not tagged as remote-origin, is
applied without the applying-remote flag, and therefore schedules a
debounced push to the backend. -/

theorem C2_counterexample_executeShellBlock :
    executeShellBlockEvent.origin ≠ some "remote" ∧
    executeShellBlockEvent.applyingRemoteFlag = false ∧
    updateHandlerSchedules executeShellBlockEvent = true := by decide

/-- C2 (amended): the handler schedules a push exactly for updates that
are neither remote-origin nor applied while the applying-remote flag is
set.  The initial load and the workspace reload are suppressed via the
flag, but `executeShellBlock` applies its result untagged with the flag
clear, so that update does schedule a push — the claim's "never
schedules" fails for the execution path. -/

theorem C2_backend_update_scheduling :
    updateHandlerSchedules loadInitialStateEvent = false ∧
    updateHandlerSchedules reloadFromStateEvent = false ∧
    (∀ e : ApplyEvent, updateHandlerSchedules e = false ↔
      (e.origin = some "remote" ∨ e.applyingRemoteFlag = true)) ∧
    updateHandlerSchedules executeShellBlockEvent = true := by
  refine ⟨rfl, rfl, ?_, rfl⟩
  intro e
  rcases e with ⟨o, f⟩
  by_cases ho : o = some "remote" <;> simp [updateHandlerSchedules, ho]

theorem applyOp_invariant {s : Doc} (hinv : Invariant s) {op : Op}
    (hfresh : Fresh s op) : Invariant (applyOp s op) := by
  cases op with
  | createAfter a n t => exact createBlockAfter_invariant hinv a n t hfresh
  | createInside p n t => exact createBlockInside_invariant hinv p n t hfresh
  | delete i => exact deleteBlock_invariant hinv i
  | indent i t => exact indentBlock_invariant hinv i t
  | outdent i t => exact outdentBlock_invariant hinv i t
  | moveUp i t => exact moveBlockUp_invariant hinv i t
  | moveDown i t => exact moveBlockDown_invariant hinv i t

/-- C1: for every starting state satisfying the §3 tree invariants and
every sequence of the block mutations `createBlockAfter`,
`createBlockInside`, `deleteBlock`, `indentBlock`, `outdentBlock`,
`moveBlockUp`, `moveBlockDown` (with each created uuid fresh when it is
generated), the invariants hold after every step of the sequence:
every prefix of the sequence leaves the document invariant. -/

theorem C1_block_ops_preserve_invariants {s : Doc} (hinv : Invariant s)
    (ops : List Op) (hfresh : FreshAlong s ops) :
    ∀ pre suf, ops = pre ++ suf → Invariant (applyOps s pre) := by
  induction ops generalizing s with
  | nil =>
    intro pre suf h
    rcases pre with _ | ⟨p, ps⟩
    · exact hinv
    · exact absurd h (by simp)
  | cons op rest ih =>
    intro pre suf h
    rcases pre with _ | ⟨p, ps⟩
    · exact hinv
    · rw [List.cons_append] at h
      injection h with h1 h2
      rw [← h1]
      show Invariant (applyOps (applyOp s op) ps)
      exact ih (applyOp_invariant hinv hfresh.1) hfresh.2 ps suf h2

theorem C1_block_ops_preserve_invariants_witness :
    Invariant (applyOps c1doc (List.take 3 c1ops)) :=
  C1_block_ops_preserve_invariants (by decide) c1ops (by decide)
    (List.take 3 c1ops) (List.drop 3 c1ops) (by decide)

theorem Subtree.mem_nodeIds {m n : PaneNode} (h : Subtree m n) :
    m.nodeId ∈ nodeIds n := by
  induction h with
  | refl =>
    cases m with
    | leaf i rb fo => simp [nodeIds, PaneNode.nodeId]
    | split i d r f s => simp [nodeIds, PaneNode.nodeId]
  | left h ih => simp [nodeIds, ih]
  | right h ih => simp [nodeIds, ih]

theorem Subtree.trans {a b c : PaneNode} (h1 : Subtree a b)
    (h2 : Subtree b c) : Subtree a c := by
  induction h2 with
  | refl => exact h1
  | left h ih => exact .left ih
  | right h ih => exact .right ih

theorem findNode_eq_none {n : PaneNode} {x : String}
    (h : x ∉ nodeIds n) : findNode n x = none := by
  induction n with
  | leaf i rb fo =>
    have : i ≠ x := by
      intro he; exact h (by simp [nodeIds, he])
    simp [findNode, this]
  | split i d r f s ihf ihs =>
    have hi : i ≠ x := by
      intro he; exact h (by simp [nodeIds, he])
    have hf : x ∉ nodeIds f := fun hm => h (by simp [nodeIds, hm])
    have hs : x ∉ nodeIds s := fun hm => h (by simp [nodeIds, hm])
    simp [findNode, hi, ihf hf, ihs hs, Option.orElse]

theorem findNode_isSome {n : PaneNode} {x : String} (h : x ∈ nodeIds n) :
    (findNode n x).isSome = true := by
  induction n with
  | leaf i rb fo =>
    have hix : x = i := by simpa [nodeIds] using h
    subst hix
    simp [findNode]
  | split i d r f s ihf ihs =>
    by_cases hi : i = x
    · simp [findNode, hi]
    · have hx : x ∈ nodeIds f ∨ x ∈ nodeIds s := by
        simp only [nodeIds, List.mem_cons, List.mem_append] at h
        rcases h with h | h | h
        · exact absurd h.symm hi
        · exact Or.inl h
        · exact Or.inr h
      rcases hx with hxf | hxs
      · cases hm : findNode f x with
        | some m => simp [findNode, hi, hm, Option.orElse]
        | none =>
          exfalso
          have h2 := ihf hxf
          rw [hm] at h2
          simp at h2
      · cases hm : findNode f x with
        | some m => simp [findNode, hi, hm, Option.orElse]
        | none => simp [findNode, hi, hm, Option.orElse, ihs hxs]

theorem findNode_some {n : PaneNode} {x : String} {m : PaneNode}
    (h : findNode n x = some m) : m.nodeId = x ∧ Subtree m n := by
  induction n with
  | leaf i rb fo =>
    by_cases hi : i = x
    · rw [findNode, if_pos hi] at h
      injection h with h
      subst h
      exact ⟨hi, .refl _⟩
    · rw [findNode, if_neg hi] at h
      exact Option.noConfusion h
  | split i d r f s ihf ihs =>
    by_cases hi : i = x
    · rw [findNode, if_pos hi] at h
      injection h with h
      subst h
      exact ⟨hi, .refl _⟩
    · rw [findNode, if_neg hi] at h
      cases hm : findNode f x with
      | some mf =>
        rw [hm] at h
        simp [Option.orElse] at h
        subst h
        obtain ⟨h1, h2⟩ := ihf hm
        exact ⟨h1, .left h2⟩
      | none =>
        rw [hm] at h
        simp [Option.orElse] at h
        obtain ⟨h1, h2⟩ := ihs h
        exact ⟨h1, .right h2⟩

theorem replaceNode_of_not_mem {n : PaneNode} {t : String}
    {nn : PaneNode} (h : t ∉ nodeIds n) : replaceNode n t nn = n := by
  induction n with
  | leaf i rb fo =>
    have : i ≠ t := by intro he; exact h (by simp [nodeIds, he])
    simp [replaceNode, this]
  | split i d r f s ihf ihs =>
    have hi : i ≠ t := by intro he; exact h (by simp [nodeIds, he])
    have hf : t ∉ nodeIds f := fun hm => h (by simp [nodeIds, hm])
    have hs : t ∉ nodeIds s := fun hm => h (by simp [nodeIds, hm])
    simp [replaceNode, hi, ihf hf, ihs hs]

theorem leafIds_sub_nodeIds {n : PaneNode} {x : String}
    (h : x ∈ leafIds n) : x ∈ nodeIds n := by
  induction n with
  | leaf i rb fo => simpa [leafIds, collectLeaves, nodeIds] using h
  | split i d r f s ihf ihs =>
    simp only [leafIds, collectLeaves, List.map_append, List.mem_append] at h
    rcases h with h | h
    · simp [nodeIds, ihf h]
    · simp [nodeIds, ihs h]

theorem collectLeaves_ne_nil (n : PaneNode) : collectLeaves n ≠ [] := by
  induction n with
  | leaf i rb fo => simp [collectLeaves]
  | split i d r f s ihf ihs => simp [collectLeaves, ihf]

theorem leafIds_leaf (i rb : String) (fo : Option String) :
    leafIds (.leaf i rb fo) = [i] := rfl

theorem leafIds_split (i : String) (d : SplitDirection) (r : ℚ)
    (f s : PaneNode) :
    leafIds (.split i d r f s) = leafIds f ++ leafIds s := by
  simp [leafIds, collectLeaves]

theorem leafIds_ne_nil (n : PaneNode) : leafIds n ≠ [] := by
  intro h
  exact collectLeaves_ne_nil n (by simpa [leafIds] using h)

theorem findNode_replaceNode_fresh {nn : PaneNode} {t x : String}
    {n : PaneNode} (hx : x ∉ nodeIds n) (ht : t ∈ nodeIds n) :
    findNode (replaceNode n t nn) x = findNode nn x := by
  induction n with
  | leaf i rb fo =>
    have hit : t = i := by simpa [nodeIds] using ht
    rw [replaceNode, if_pos hit.symm]
  | split i d r f s ihf ihs =>
    by_cases hit : i = t
    · rw [replaceNode, if_pos hit]
    · have hix : i ≠ x := by
        intro he; exact hx (by simp [nodeIds, he])
      have hxf : x ∉ nodeIds f := fun hm => hx (by simp [nodeIds, hm])
      have hxs : x ∉ nodeIds s := fun hm => hx (by simp [nodeIds, hm])
      have ht' : t ∈ nodeIds f ∨ t ∈ nodeIds s := by
        simp only [nodeIds, List.mem_cons, List.mem_append] at ht
        rcases ht with h | h | h
        · exact absurd h.symm hit
        · exact Or.inl h
        · exact Or.inr h
      rw [replaceNode, if_neg hit, findNode, if_neg hix]
      by_cases htf : t ∈ nodeIds f
      · by_cases hts : t ∈ nodeIds s
        · rw [ihf hxf htf, ihs hxs hts]
          cases findNode nn x <;> simp [Option.orElse]
        · rw [ihf hxf htf, replaceNode_of_not_mem hts, findNode_eq_none hxs]
          cases findNode nn x <;> simp [Option.orElse]
      · have hts : t ∈ nodeIds s := ht'.resolve_left htf
        rw [replaceNode_of_not_mem htf, findNode_eq_none hxf, ihs hxs hts]
        simp [Option.orElse]

theorem resolvesLeaf_iff_mem {n : PaneNode}
    (hnd : (nodeIds n).Nodup) {x : String} :
    resolvesLeaf n x = true ↔ x ∈ leafIds n := by
  induction n with
  | leaf i rb fo =>
    by_cases hi : i = x
    · simp [resolvesLeaf, findNode, hi, leafIds_leaf, PaneNode.isLeafB]
    · rw [show resolvesLeaf (PaneNode.leaf i rb fo) x = false from by
        simp [resolvesLeaf, findNode, hi]]
      simp [leafIds_leaf]
      exact fun h => hi h.symm
  | split i d r f s ihf ihs =>
    simp only [nodeIds, List.nodup_cons, List.nodup_append] at hnd
    obtain ⟨hif, hndf, hnds, hdisj⟩ := hnd
    have hif1 : i ∉ nodeIds f := fun hm => hif (by simp [hm])
    have hif2 : i ∉ nodeIds s := fun hm => hif (by simp [hm])
    by_cases hi : i = x
    · have hxf : x ∉ leafIds f := fun hm =>
        hif1 (hi ▸ leafIds_sub_nodeIds hm)
      have hxs : x ∉ leafIds s := fun hm =>
        hif2 (hi ▸ leafIds_sub_nodeIds hm)
      rw [show resolvesLeaf (PaneNode.split i d r f s) x = false from by
        simp [resolvesLeaf, findNode, hi, PaneNode.isLeafB]]
      simp [leafIds_split, hxf, hxs]
    · cases hm : findNode f x with
      | some m =>
        have hrf : resolvesLeaf f x = m.isLeafB := by
          simp [resolvesLeaf, hm]
        have hxf : x ∈ nodeIds f := by
          obtain ⟨h1, h2⟩ := findNode_some hm
          exact h1 ▸ h2.mem_nodeIds
        have hxs : x ∉ leafIds s := fun hm2 =>
          hdisj hxf (leafIds_sub_nodeIds hm2)
        rw [show resolvesLeaf (PaneNode.split i d r f s) x = m.isLeafB from by
          simp [resolvesLeaf, findNode, hi, hm, Option.orElse]]
        rw [← hrf, ihf hndf, leafIds_split]
        simp [hxs]
      | none =>
        have hxf : x ∉ leafIds f := by
          intro hm2
          have h2 := findNode_isSome (leafIds_sub_nodeIds hm2)
          rw [hm] at h2
          simp at h2
        rw [show resolvesLeaf (PaneNode.split i d r f s) x = resolvesLeaf s x from by
          simp [resolvesLeaf, findNode, hi, hm, Option.orElse]]
        rw [ihs hnds, leafIds_split]
        simp [hxf]

theorem subtree_unique {n : PaneNode} (hnd : (nodeIds n).Nodup)
    {c : PaneNode} (hc : Subtree c n) {x : String} {m : PaneNode}
    (hm : findNode n x = some m) (hcx : c.nodeId = x) : c = m := by
  induction n with
  | leaf i rb fo =>
    cases hc with
    | refl =>
      rw [findNode] at hm
      by_cases hi : i = x
      · rw [if_pos hi] at hm
        exact Option.some.inj hm
      · rw [if_neg hi] at hm
        exact Option.noConfusion hm
  | split i d r f s ihf ihs =>
    simp only [nodeIds, List.nodup_cons, List.nodup_append] at hnd
    obtain ⟨hif, hndf, hnds, hdisj⟩ := hnd
    have hif1 : i ∉ nodeIds f := fun hmem => hif (by simp [hmem])
    have hif2 : i ∉ nodeIds s := fun hmem => hif (by simp [hmem])
    rw [findNode] at hm
    by_cases hi : i = x
    · rw [if_pos hi] at hm
      have hmeq := Option.some.inj hm
      cases hc with
      | refl => exact hmeq
      | left h =>
        exact absurd (hcx ▸ h.mem_nodeIds) (hi ▸ hif1)
      | right h =>
        exact absurd (hcx ▸ h.mem_nodeIds) (hi ▸ hif2)
    · rw [if_neg hi] at hm
      cases hmf : findNode f x with
      | some mf =>
        rw [hmf] at hm
        simp only [Option.orElse] at hm
        have hmeq := Option.some.inj hm
        subst hmeq
        have hxf : x ∈ nodeIds f := by
          obtain ⟨h1, h2⟩ := findNode_some hmf
          exact h1 ▸ h2.mem_nodeIds
        cases hc with
        | refl => exact absurd hcx hi
        | left h => exact ihf hndf h hmf
        | right h => exact absurd (hcx ▸ h.mem_nodeIds) (fun hmem => hdisj hxf hmem)
      | none =>
        rw [hmf] at hm
        simp only [Option.orElse] at hm
        have hxs : x ∈ nodeIds s := by
          obtain ⟨h1, h2⟩ := findNode_some hm
          exact h1 ▸ h2.mem_nodeIds
        have hxf : x ∉ nodeIds f := by
          intro hmem
          have h2 := findNode_isSome hmem
          rw [hmf] at h2
          simp at h2
        cases hc with
        | refl => exact absurd hcx hi
        | left h => exact absurd (hcx ▸ h.mem_nodeIds) hxf
        | right h => exact ihs hnds h hm

theorem findParent_some {n : PaneNode} {t : String} {p : PaneNode}
    (h : findParent n t = some p) :
    Subtree p n ∧ ∃ i d r f s, p = PaneNode.split i d r f s ∧
      (f.nodeId = t ∨ s.nodeId = t) := by
  induction n with
  | leaf i rb fo => exact Option.noConfusion h
  | split i d r f s ihf ihs =>
    rw [findParent] at h
    by_cases hc : f.nodeId = t ∨ s.nodeId = t
    · rw [if_pos hc] at h
      have hpe := Option.some.inj h
      exact ⟨hpe ▸ Subtree.refl _, i, d, r, f, s, hpe.symm, hc⟩
    · rw [if_neg hc] at h
      cases hmf : findParent f t with
      | some pf =>
        rw [hmf] at h
        simp only [Option.orElse] at h
        have hpe := Option.some.inj h
        subst hpe
        obtain ⟨h1, h2⟩ := ihf hmf
        exact ⟨.left h1, h2⟩
      | none =>
        rw [hmf] at h
        simp only [Option.orElse] at h
        obtain ⟨h1, h2⟩ := ihs h
        exact ⟨.right h1, h2⟩

theorem replace_found_parent {t : String} {pi : String}
    {d : SplitDirection} {r : ℚ} {f s : PaneNode} (nn : PaneNode)
    {n : PaneNode} (hnd : (nodeIds n).Nodup)
    (hfp : findParent n t = some (PaneNode.split pi d r f s)) :
    ∃ A B A2 B2,
      nodeIds n = A ++ (pi :: (nodeIds f ++ nodeIds s)) ++ B ∧
      nodeIds (replaceNode n pi nn) = A ++ nodeIds nn ++ B ∧
      leafIds n = A2 ++ (leafIds f ++ leafIds s) ++ B2 ∧
      leafIds (replaceNode n pi nn) = A2 ++ leafIds nn ++ B2 := by
  induction n with
  | leaf i rb fo => exact Option.noConfusion hfp
  | split i d0 r0 f0 s0 ihf ihs =>
    simp only [nodeIds, List.nodup_cons, List.nodup_append] at hnd
    obtain ⟨hif, hndf, hnds, hdisj⟩ := hnd
    rw [findParent] at hfp
    by_cases hc : f0.nodeId = t ∨ s0.nodeId = t
    · rw [if_pos hc] at hfp
      have hpe := Option.some.inj hfp
      injection hpe with h1 h2 h3 h4 h5
      subst h1; subst h4; subst h5
      refine ⟨[], [], [], [], by simp [nodeIds], ?_, by simp [leafIds_split], ?_⟩
      · rw [replaceNode, if_pos rfl]
        simp
      · rw [replaceNode, if_pos rfl]
        simp
    · rw [if_neg hc] at hfp
      cases hmf : findParent f0 t with
      | some pf =>
        rw [hmf] at hfp
        simp only [Option.orElse] at hfp
        have hpe := Option.some.inj hfp
        subst hpe
        obtain ⟨A, B, A2, B2, h1, h2, h3, h4⟩ := ihf hndf hmf
        have hpif : pi ∈ nodeIds f0 := by rw [h1]; simp
        have hpii : i ≠ pi := by
          intro he
          exact hif (by simp [he ▸ hpif])
        have hpis : pi ∉ nodeIds s0 := fun hm2 => hdisj hpif hm2
        refine ⟨i :: A, B ++ nodeIds s0, A2, B2 ++ leafIds s0, ?_, ?_, ?_, ?_⟩
        · simp only [nodeIds]
          rw [h1]
          simp
        · rw [replaceNode, if_neg hpii, replaceNode_of_not_mem hpis]
          simp only [nodeIds]
          rw [h2]
          simp
        · rw [leafIds_split, h3]
          simp
        · rw [replaceNode, if_neg hpii, replaceNode_of_not_mem hpis,
            leafIds_split, h4]
          simp
      | none =>
        rw [hmf] at hfp
        simp only [Option.orElse] at hfp
        obtain ⟨A, B, A2, B2, h1, h2, h3, h4⟩ := ihs hnds hfp
        have hpis : pi ∈ nodeIds s0 := by rw [h1]; simp
        have hpii : i ≠ pi := by
          intro he
          exact hif (by simp [he ▸ hpis])
        have hpif : pi ∉ nodeIds f0 := fun hm2 => hdisj hm2 hpis
        refine ⟨i :: nodeIds f0 ++ A, B, leafIds f0 ++ A2, B2, ?_, ?_, ?_, ?_⟩
        · simp only [nodeIds]
          rw [h1]
          simp
        · rw [replaceNode, if_neg hpii, replaceNode_of_not_mem hpif]
          simp only [nodeIds]
          rw [h2]
          simp
        · rw [leafIds_split, h3]
          simp
        · rw [replaceNode, if_neg hpii, replaceNode_of_not_mem hpif,
            leafIds_split, h4]
          simp

theorem findNode_updateRatio (sid : String) (ρ : ℚ) (n : PaneNode)
    (x : String) :
    (findNode (updateRatio sid ρ n) x).map PaneNode.isLeafB =
      (findNode n x).map PaneNode.isLeafB := by
  induction n with
  | leaf i rb fo => rfl
  | split i d r f s ihf ihs =>
    by_cases hi : i = sid
    · simp only [updateRatio]
      rw [if_pos hi]
      by_cases hix : i = x
      · rw [findNode, if_pos hix, findNode, if_pos hix]
        rfl
      · rw [findNode, if_neg hix, findNode, if_neg hix]
    · simp only [updateRatio]
      rw [if_neg hi]
      by_cases hix : i = x
      · rw [findNode, if_pos hix, findNode, if_pos hix]
        rfl
      · simp only [findNode, if_neg hix]
        cases hmf : findNode f x with
        | some m =>
          have h2 := ihf
          rw [hmf] at h2
          cases hmf' : findNode (updateRatio sid ρ f) x with
          | none =>
            rw [hmf'] at h2
            simp at h2
          | some m' =>
            rw [hmf'] at h2
            simp only [Option.map_some'] at h2
            simp only [Option.orElse, Option.map_some']
            rw [Option.some.inj h2]
        | none =>
          have h2 := ihf
          rw [hmf] at h2
          have hmf' : findNode (updateRatio sid ρ f) x = none := by
            cases hq : findNode (updateRatio sid ρ f) x with
            | none => rfl
            | some m' =>
              rw [hq] at h2
              simp at h2
          simp only [Option.orElse, hmf', hmf]
          exact ihs

theorem findNode_updatePaneRoot (paneId rb2 : String) (n : PaneNode)
    (x : String) :
    (findNode (updatePaneRoot paneId rb2 n) x).map PaneNode.isLeafB =
      (findNode n x).map PaneNode.isLeafB := by
  induction n with
  | leaf i rb fo =>
    simp only [updatePaneRoot]
    by_cases hl : i = paneId
    · rw [if_pos hl]
      by_cases hix : i = x
      · rw [findNode, if_pos hix, findNode, if_pos hix]
        rfl
      · rw [findNode, if_neg hix, findNode, if_neg hix]
    · rw [if_neg hl]
  | split i d r f s ihf ihs =>
    simp only [updatePaneRoot]
    by_cases hix : i = x
    · rw [findNode, if_pos hix, findNode, if_pos hix]
      rfl
    · simp only [findNode, if_neg hix]
      cases hmf : findNode f x with
      | some m =>
        have h2 := ihf
        rw [hmf] at h2
        cases hmf' : findNode (updatePaneRoot paneId rb2 f) x with
        | none =>
          rw [hmf'] at h2
          simp at h2
        | some m' =>
          rw [hmf'] at h2
          simp only [Option.map_some'] at h2
          simp only [Option.orElse, Option.map_some']
          rw [Option.some.inj h2]
      | none =>
        have h2 := ihf
        rw [hmf] at h2
        have hmf' : findNode (updatePaneRoot paneId rb2 f) x = none := by
          cases hq : findNode (updatePaneRoot paneId rb2 f) x with
          | none => rfl
          | some m' =>
            rw [hq] at h2
            simp at h2
        simp only [Option.orElse, hmf', hmf]
        exact ihs

theorem resolvesLeaf_eq_map (n : PaneNode) (x : String) :
    resolvesLeaf n x = ((findNode n x).map PaneNode.isLeafB).getD false := by
  rw [resolvesLeaf]
  cases findNode n x <;> rfl

theorem mapGet_mapSet (m : List (String × List String)) (k : String)
    (v : List String) (k2 : String) :
    mapGet (mapSet m k v) k2 = if k = k2 then some v else mapGet m k2 := by
  induction m with
  | nil =>
    by_cases h : k = k2 <;> simp [mapSet, mapGet, h]
  | cons p rest ih =>
    obtain ⟨k0, v0⟩ := p
    by_cases h0 : k0 = k
    · subst h0
      by_cases h : k0 = k2 <;> simp [mapSet, mapGet, h]
    · by_cases h : k0 = k2
      · subst h
        have : ¬k = k0 := fun he => h0 he.symm
        simp [mapSet, mapGet, h0, this]
      · simp [mapSet, mapGet, h0, h, ih]

theorem leafIds_length (n : PaneNode) :
    (collectLeaves n).length = (leafIds n).length :=
  (List.length_map _ _).symm

/-- The successful branch of `closePane`: the target resolves to a Leaf
under a parent split.  The parent split collapses to the sibling, the
leaf order loses exactly the closed leaf, node ids shrink, and the
active pane follows the source's fallback expression. -/

theorem closePane_success {st : PaneStore}
    (hnd : (nodeIds st.layout.root).Nodup) {paneId rb : String}
    {fo : Option String}
    (hlen : 1 < (collectLeaves st.layout.root).length)
    (hfind : findNode st.layout.root paneId =
      some (PaneNode.leaf paneId rb fo))
    (hps : (findParent st.layout.root paneId).isSome = true) :
    ∃ A2 B2 newRoot,
      (closePane st paneId).layout.root = newRoot ∧
      leafIds st.layout.root = A2 ++ [paneId] ++ B2 ∧
      leafIds newRoot = A2 ++ B2 ∧
      (nodeIds newRoot).Nodup ∧
      (∀ x, x ∈ nodeIds newRoot → x ∈ nodeIds st.layout.root) ∧
      (closePane st paneId).layout.activePaneId =
        (if st.layout.activePaneId = paneId then
          (match collectLeaves newRoot with
           | [] => initialPaneId
           | l :: _ => if l.nodeId = "" then initialPaneId else l.nodeId)
         else st.layout.activePaneId) ∧
      (closePane st paneId).collapsedBlocks = st.collapsedBlocks := by
  have hnot1 : ¬(collectLeaves st.layout.root).length ≤ 1 := by omega
  rcases hp : findParent st.layout.root paneId with _ | P
  · rw [hp] at hps
    exact absurd hps (by simp)
  obtain ⟨hsubP, pi, d, r, f, s, hPe, hcase⟩ := findParent_some hp
  subst hPe
  by_cases hf : f.nodeId = paneId
  · have hsubf : Subtree f st.layout.root :=
      Subtree.trans (.left (.refl f)) hsubP
    have hfeq : f = PaneNode.leaf paneId rb fo :=
      subtree_unique hnd hsubf hfind hf
    have hclose : closePane st paneId =
        { st with layout :=
            { root := replaceNode st.layout.root pi s
              activePaneId :=
                if st.layout.activePaneId = paneId then
                  (match collectLeaves (replaceNode st.layout.root pi s) with
                   | [] => initialPaneId
                   | l :: _ => if l.nodeId = "" then initialPaneId else l.nodeId)
                else st.layout.activePaneId } } := by
      simp only [closePane, hp, if_neg hnot1, if_pos hf]
    obtain ⟨A, B, A2, B2, hn1, hn2, hl1, hl2⟩ := replace_found_parent s hnd hp
    have hndr : (nodeIds (replaceNode st.layout.root pi s)).Nodup := by
      have hmid : List.Sublist (nodeIds s) (pi :: (nodeIds f ++ nodeIds s)) :=
        (List.sublist_append_right (nodeIds f) (nodeIds s)).cons pi
      have hsub2 : List.Sublist (A ++ nodeIds s ++ B)
          (A ++ (pi :: (nodeIds f ++ nodeIds s)) ++ B) :=
        ((List.Sublist.refl A).append hmid).append (List.Sublist.refl B)
      rw [hn2]
      rw [hn1] at hnd
      exact hnd.sublist hsub2
    refine ⟨A2, leafIds s ++ B2, replaceNode st.layout.root pi s,
      by rw [hclose], ?_, ?_, hndr, ?_, by rw [hclose], by rw [hclose]⟩
    · rw [hl1, hfeq, leafIds_leaf]
      simp
    · rw [hl2]
      simp
    · intro x hx
      rw [hn2] at hx
      rw [hn1]
      simp only [List.mem_append, List.mem_cons] at hx ⊢
      tauto
  · have hs : s.nodeId = paneId := hcase.resolve_left hf
    have hsubs : Subtree s st.layout.root :=
      Subtree.trans (.right (.refl s)) hsubP
    have hseq : s = PaneNode.leaf paneId rb fo :=
      subtree_unique hnd hsubs hfind hs
    have hclose : closePane st paneId =
        { st with layout :=
            { root := replaceNode st.layout.root pi f
              activePaneId :=
                if st.layout.activePaneId = paneId then
                  (match collectLeaves (replaceNode st.layout.root pi f) with
                   | [] => initialPaneId
                   | l :: _ => if l.nodeId = "" then initialPaneId else l.nodeId)
                else st.layout.activePaneId } } := by
      simp only [closePane, hp, if_neg hnot1, if_neg hf]
    obtain ⟨A, B, A2, B2, hn1, hn2, hl1, hl2⟩ := replace_found_parent f hnd hp
    have hndr : (nodeIds (replaceNode st.layout.root pi f)).Nodup := by
      have hmid : List.Sublist (nodeIds f) (pi :: (nodeIds f ++ nodeIds s)) :=
        (List.sublist_append_left (nodeIds f) (nodeIds s)).cons pi
      have hsub2 : List.Sublist (A ++ nodeIds f ++ B)
          (A ++ (pi :: (nodeIds f ++ nodeIds s)) ++ B) :=
        ((List.Sublist.refl A).append hmid).append (List.Sublist.refl B)
      rw [hn2]
      rw [hn1] at hnd
      exact hnd.sublist hsub2
    refine ⟨A2 ++ leafIds f, B2, replaceNode st.layout.root pi f,
      by rw [hclose], ?_, ?_, hndr, ?_, by rw [hclose], by rw [hclose]⟩
    · rw [hl1, hseq, leafIds_leaf]
      simp
    · rw [hl2]
    · intro x hx
      rw [hn2] at hx
      rw [hn1]
      simp only [List.mem_append, List.mem_cons] at hx ⊢
      tauto

/-- C3 (amended: the claim's "resolves to a node" must read "resolves
to a Leaf"; closing a pane id that names an inner Split removes that
whole subtree and can drop several leaves at once): `closePane` is a
no-op with a single leaf or without a parent; when the target id
resolves to a Leaf under a parent split it removes exactly that leaf
(leaf count drops by exactly one), the active pane becomes the first
leaf of the resulting tree when the closed pane was active, and stays
put otherwise. -/

theorem C3_closePane_corrected (st : PaneStore)
    (hnd : (nodeIds st.layout.root).Nodup)
    (hne : "" ∉ nodeIds st.layout.root) (paneId : String) :
    ((collectLeaves st.layout.root).length ≤ 1 → closePane st paneId = st) ∧
    (findParent st.layout.root paneId = none → closePane st paneId = st) ∧
    (∀ rb fo, 1 < (collectLeaves st.layout.root).length →
      findNode st.layout.root paneId = some (PaneNode.leaf paneId rb fo) →
      (findParent st.layout.root paneId).isSome = true →
      (collectLeaves (closePane st paneId).layout.root).length + 1 =
        (collectLeaves st.layout.root).length ∧
      (st.layout.activePaneId = paneId →
        ∃ l rest, collectLeaves (closePane st paneId).layout.root = l :: rest ∧
          (closePane st paneId).layout.activePaneId = l.nodeId) ∧
      (st.layout.activePaneId ≠ paneId →
        (closePane st paneId).layout.activePaneId = st.layout.activePaneId)) := by
  refine ⟨?_, ?_, ?_⟩
  · intro h
    rw [closePane, if_pos h]
  · intro h
    by_cases hg : (collectLeaves st.layout.root).length ≤ 1
    · rw [closePane, if_pos hg]
    · rw [closePane, if_neg hg, h]
  · intro rb fo hlen hfind hps
    obtain ⟨A2, B2, newRoot, hroot, hsplit, hnew, hndr, hsub, hact, -⟩ :=
      closePane_success hnd hlen hfind hps
    refine ⟨?_, ?_, ?_⟩
    · rw [hroot, leafIds_length, leafIds_length, hsplit, hnew]
      simp only [List.length_append, List.length_singleton]
      omega
    · intro ha
      rcases hlv : collectLeaves newRoot with _ | ⟨l, rest⟩
      · exact absurd hlv (collectLeaves_ne_nil newRoot)
      · have hlmem : l.nodeId ∈ leafIds newRoot := by
          rw [leafIds, hlv]
          exact List.mem_map_of_mem _ (by simp)
        have hlne : l.nodeId ≠ "" := by
          intro he
          exact hne (he ▸ hsub _ (leafIds_sub_nodeIds hlmem))
        refine ⟨l, rest, by rw [hroot]; exact hlv, ?_⟩
        rw [hact, if_pos ha, hlv]
        simp [hlne]
    · intro ha
      rw [hact, if_neg ha]

/-- C3 counterexample: `"s2"` resolves to a node (an inner Split) whose
parent is a Split, the tree has three leaves, yet `closePane "s2"`
leaves only one — the count drops by two, not one. -/

theorem C3_counterexample_close_inner_split :
    (collectLeaves c3store.layout.root).length = 3 ∧
    (findNode c3store.layout.root "s2").isSome = true ∧
    (findParent c3store.layout.root "s2").isSome = true ∧
    (collectLeaves (closePane c3store "s2").layout.root).length = 1 := by
  decide

theorem C3_closePane_corrected_witness :
    (collectLeaves (closePane c3wstore "b").layout.root).length + 1 =
      (collectLeaves c3wstore.layout.root).length :=
  (((C3_closePane_corrected c3wstore (by decide) (by decide) "b").2.2)
    "r" none (by decide) (by decide) (by decide)).1

/-- C4 (amended: `setActivePane` performs no validation, so the claim
fails as stated — see the counterexample; the invariant is preserved
when `setActivePane` is restricted to ids resolving to live leaves,
`splitPane` receives fresh ids, and `closePane` targets resolve to
leaves in a duplicate-free, no-empty-id tree): every pane tree holds at
least one Leaf, and each operation keeps `activePaneId` resolving to a
live Leaf under those side conditions. -/

theorem C4_pane_invariant_preservation (st : PaneStore)
    (hwf : activeResolves st.layout = true) :
    0 < (collectLeaves st.layout.root).length ∧
    (∀ p, resolvesLeaf st.layout.root p = true →
      activeResolves (setActivePane st p).layout = true) ∧
    (∀ p dct np sp, np ∉ nodeIds st.layout.root → np ≠ sp →
      activeResolves (splitPane st p dct np sp).layout = true) ∧
    (∀ p, (nodeIds st.layout.root).Nodup → "" ∉ nodeIds st.layout.root →
      (findNode st.layout.root p).map PaneNode.isLeafB ≠ some false →
      activeResolves (closePane st p).layout = true) ∧
    (∀ sid ρ, activeResolves (setRatio st sid ρ).layout = true) ∧
    (∀ p rb, activeResolves (setPaneRoot st p rb).layout = true) := by
  refine ⟨?_, ?_, ?_, ?_, ?_, ?_⟩
  · exact List.length_pos.mpr (collectLeaves_ne_nil _)
  · intro p h
    exact h
  · intro p dct np sp hfresh hnssp
    rcases hfind : findNode st.layout.root p with _ | m
    · simp only [splitPane, hfind]
      exact hwf
    · rcases m with ⟨lid, rb, fo⟩ | ⟨mid, md, mr, mf, ms⟩
      · have hlid : lid = p := (findNode_some hfind).1
        have hpmem : p ∈ nodeIds st.layout.root := by
          have h2 := (findNode_some hfind).2.mem_nodeIds
          rwa [hlid] at h2
        have hnp : np ≠ p := fun he => hfresh (he ▸ hpmem)
        have hlidnp : lid ≠ np := fun he => hnp ((hlid ▸ he).symm)
        have hspnp : sp ≠ np := fun he => hnssp he.symm
        simp only [splitPane, hfind, activeResolves]
        have hfr : findNode
            (replaceNode st.layout.root p
              (createPaneSplit sp dct (PaneNode.leaf lid rb fo)
                (createPaneLeaf np rb))) np =
            some (PaneNode.leaf np rb none) := by
          rw [findNode_replaceNode_fresh hfresh hpmem]
          rw [createPaneSplit, createPaneLeaf, findNode, if_neg hspnp]
          rw [findNode, if_neg hlidnp, findNode, if_pos rfl]
          rfl
        simp [resolvesLeaf, hfr, PaneNode.isLeafB]
      · simp only [splitPane, hfind]
        exact hwf
  · intro p hnd hne hleafres
    by_cases hg : (collectLeaves st.layout.root).length ≤ 1
    · rw [show closePane st p = st from by rw [closePane, if_pos hg]]
      exact hwf
    · rcases hp : findParent st.layout.root p with _ | P
      · rw [show closePane st p = st from by rw [closePane, if_neg hg, hp]]
        exact hwf
      · obtain ⟨hsubP, pi, d, r, f, s, hPe, hcase⟩ := findParent_some hp
        have hpmem : p ∈ nodeIds st.layout.root := by
          rcases hcase with hc | hc
          · have h2 := (Subtree.trans (.left (.refl f)) (hPe ▸ hsubP)).mem_nodeIds
            rwa [hc] at h2
          · have h2 := (Subtree.trans (.right (.refl s)) (hPe ▸ hsubP)).mem_nodeIds
            rwa [hc] at h2
        obtain ⟨m, hm⟩ := Option.isSome_iff_exists.mp (findNode_isSome hpmem)
        have hmleaf : m.isLeafB = true := by
          cases hb : m.isLeafB with
          | false => exact absurd (by rw [hm]; simp [hb]) hleafres
          | true => rfl
        rcases m with ⟨lid, rb, fo⟩ | _
        · have hlid : lid = p := (findNode_some hm).1
          subst hlid
          have hlen : 1 < (collectLeaves st.layout.root).length := by omega
          obtain ⟨A2, B2, newRoot, hroot, hsplit, hnew, hndr, hsub, hact, -⟩ :=
            closePane_success hnd hlen hm (by rw [hp]; rfl)
          rw [activeResolves, hroot, hact]
          by_cases ha : st.layout.activePaneId = lid
          · rw [if_pos ha]
            rcases hlv : collectLeaves newRoot with _ | ⟨l, rest⟩
            · exact absurd hlv (collectLeaves_ne_nil newRoot)
            · have hlmem : l.nodeId ∈ leafIds newRoot := by
                rw [leafIds, hlv]
                exact List.mem_map_of_mem _ (by simp)
              have hlne : l.nodeId ≠ "" := by
                intro he
                exact hne (he ▸ hsub _ (leafIds_sub_nodeIds hlmem))
              simp only [hlv]
              rw [if_neg hlne]
              exact (resolvesLeaf_iff_mem hndr).mpr hlmem
          · rw [if_neg ha]
            have hamem : st.layout.activePaneId ∈ leafIds st.layout.root :=
              (resolvesLeaf_iff_mem hnd).mp hwf
            rw [hsplit] at hamem
            have hamem2 : st.layout.activePaneId ∈ A2 ++ B2 := by
              simp only [List.mem_append, List.mem_singleton] at hamem ⊢
              rcases hamem with (h | h) | h
              · exact Or.inl h
              · exact absurd h ha
              · exact Or.inr h
            rw [← hnew] at hamem2
            exact (resolvesLeaf_iff_mem hndr).mpr hamem2
        · exact absurd hmleaf (by simp [PaneNode.isLeafB])
  · intro sid ρ
    have h2 : (setRatio st sid ρ).layout.root =
        updateRatio sid ρ st.layout.root := rfl
    have h3 : (setRatio st sid ρ).layout.activePaneId =
        st.layout.activePaneId := rfl
    rw [activeResolves, h2, h3, resolvesLeaf_eq_map, findNode_updateRatio]
    rw [activeResolves, resolvesLeaf_eq_map] at hwf
    exact hwf
  · intro p rb
    have h2 : (setPaneRoot st p rb).layout.root =
        updatePaneRoot p rb st.layout.root := rfl
    have h3 : (setPaneRoot st p rb).layout.activePaneId =
        st.layout.activePaneId := rfl
    rw [activeResolves, h2, h3, resolvesLeaf_eq_map, findNode_updatePaneRoot]
    rw [activeResolves, resolvesLeaf_eq_map] at hwf
    exact hwf

/-- C4 counterexample: `setActivePane` validates nothing, so pointing
it at an id that is not in the tree breaks the PaneLayout invariant. -/

theorem C4_counterexample_setActivePane_ghost :
    activeResolves c4store.layout = true ∧
    activeResolves (setActivePane c4store "ghost").layout = false := by
  decide

theorem C4_pane_invariant_preservation_witness :
    activeResolves (closePane c4wstore "p1").layout = true :=
  (C4_pane_invariant_preservation c4wstore (by decide)).2.2.2.1 "p1"
    (by decide) (by decide) (by decide)

/-- C7 (amended: the source `closePane` never touches
`collapsedBlocks`, so a pane's overlay entry is *not* cleared when the
pane closes — see the counterexample; what does hold is the frame
property): no pane-store operation removes a pane's overlay entry —
`closePane`, `setActivePane`, `splitPane`, `setRatio` and `setPaneRoot`
leave `collapsedBlocks` unchanged, and `toggleCollapsed` only rewrites
the toggled pane's entry, never deleting one. -/

theorem C7_overlay_never_cleared (st : PaneStore) :
    (∀ p, (closePane st p).collapsedBlocks = st.collapsedBlocks) ∧
    (∀ p, (setActivePane st p).collapsedBlocks = st.collapsedBlocks) ∧
    (∀ p dct np sp, (splitPane st p dct np sp).collapsedBlocks =
      st.collapsedBlocks) ∧
    (∀ sid ρ, (setRatio st sid ρ).collapsedBlocks = st.collapsedBlocks) ∧
    (∀ p rb, (setPaneRoot st p rb).collapsedBlocks = st.collapsedBlocks) ∧
    (∀ p b k, (mapGet st.collapsedBlocks k).isSome = true →
      (mapGet (toggleCollapsed st p b).collapsedBlocks k).isSome = true) := by
  refine ⟨?_, fun p => rfl, ?_, fun sid ρ => rfl, fun p rb => rfl, ?_⟩
  · intro p
    unfold closePane
    split
    · rfl
    · split <;> rfl
  · intro p dct np sp
    unfold splitPane
    split <;> rfl
  · intro p b k h
    simp only [toggleCollapsed]
    rw [mapGet_mapSet]
    by_cases hk : p = k
    · rw [if_pos hk]
      simp
    · rw [if_neg hk]
      exact h

/-- C7 counterexample: closing `pane-a` removes it from the tree, but
its overlay entry survives untouched — `closePane` never clears it. -/

theorem C7_counterexample_closePane_keeps_overlay :
    findNode (closePane c7store "pane-a").layout.root "pane-a" = none ∧
    mapGet (closePane c7store "pane-a").collapsedBlocks "pane-a" =
      some ["b1"] := by decide

theorem C7_overlay_never_cleared_witness :
    (mapGet (toggleCollapsed c7wstore "pane-2" "x").collapsedBlocks
      "pane-1").isSome = true :=
  (C7_overlay_never_cleared c7wstore).2.2.2.2.2 "pane-2" "x" "pane-1"
    (by decide)

/-- C10: `isCollapsed` returns the block default when the pane has no
override set or the block id is absent from it, and the negation of the
default otherwise; consequently toggling the pane's override for a
block twice returns `isCollapsed` to its value before either toggle.
The hypothesis records that the stored override list stands for a JS
`Set` (no duplicate entries). -/

theorem C10_isCollapsed_and_double_toggle (st : PaneStore)
    (paneId blockId : String) (blockDefault : Bool)
    (hnd : ((mapGet st.collapsedBlocks paneId).getD []).Nodup) :
    (mapGet st.collapsedBlocks paneId = none →
      isCollapsed st paneId blockId blockDefault = blockDefault) ∧
    (∀ ov, mapGet st.collapsedBlocks paneId = some ov →
      (blockId ∉ ov →
        isCollapsed st paneId blockId blockDefault = blockDefault) ∧
      (blockId ∈ ov →
        isCollapsed st paneId blockId blockDefault = !blockDefault)) ∧
    isCollapsed (toggleCollapsed (toggleCollapsed st paneId blockId)
        paneId blockId) paneId blockId blockDefault =
      isCollapsed st paneId blockId blockDefault := by
  refine ⟨?_, ?_, ?_⟩
  · intro h
    simp [isCollapsed, h]
  · intro ov hov
    constructor
    · intro hm
      simp [isCollapsed, hov, hm]
    · intro hm
      simp [isCollapsed, hov, hm]
  · cases hov : mapGet st.collapsedBlocks paneId with
    | none =>
      have hA : mapGet (toggleCollapsed st paneId blockId).collapsedBlocks
          paneId = some [blockId] := by
        simp only [toggleCollapsed]
        rw [mapGet_mapSet, if_pos rfl]
        simp [hov]
      generalize hs1 : toggleCollapsed st paneId blockId = s1 at hA ⊢
      have hB : mapGet (toggleCollapsed s1 paneId blockId).collapsedBlocks
          paneId = some [] := by
        simp only [toggleCollapsed]
        rw [mapGet_mapSet, if_pos rfl]
        simp [hA, List.erase_cons_head]
      simp [isCollapsed, hB, hov]
    | some ov =>
      rw [hov] at hnd
      simp only [Option.getD_some] at hnd
      by_cases hm : blockId ∈ ov
      · have hA : mapGet (toggleCollapsed st paneId blockId).collapsedBlocks
            paneId = some (ov.erase blockId) := by
          simp only [toggleCollapsed]
          rw [mapGet_mapSet, if_pos rfl]
          simp [hov, hm]
        have hmem2 : blockId ∉ ov.erase blockId := by
          intro h2
          exact ((List.Nodup.mem_erase_iff hnd).mp h2).1 rfl
        generalize hs1 : toggleCollapsed st paneId blockId = s1 at hA ⊢
        have hB : mapGet (toggleCollapsed s1 paneId blockId).collapsedBlocks
            paneId = some (ov.erase blockId ++ [blockId]) := by
          simp only [toggleCollapsed]
          rw [mapGet_mapSet, if_pos rfl]
          simp [hA, hmem2]
        simp [isCollapsed, hB, hov, hm]
      · have hA : mapGet (toggleCollapsed st paneId blockId).collapsedBlocks
            paneId = some (ov ++ [blockId]) := by
          simp only [toggleCollapsed]
          rw [mapGet_mapSet, if_pos rfl]
          simp [hov, hm]
        have herase : (ov ++ [blockId]).erase blockId = ov := by
          rw [List.erase_append_right _ hm]
          simp [List.erase_cons_head]
        generalize hs1 : toggleCollapsed st paneId blockId = s1 at hA ⊢
        have hB : mapGet (toggleCollapsed s1 paneId blockId).collapsedBlocks
            paneId = some ov := by
          simp only [toggleCollapsed]
          rw [mapGet_mapSet, if_pos rfl]
          simp [hA, herase]
        simp [isCollapsed, hB, hov]

theorem C10_isCollapsed_and_double_toggle_witness :
    isCollapsed (toggleCollapsed (toggleCollapsed c10store "pane-1" "b1")
        "pane-1" "b1") "pane-1" "b1" true =
      isCollapsed c10store "pane-1" "b1" true :=
  (C10_isCollapsed_and_double_toggle c10store "pane-1" "b1" true
    (by decide)).2.2

end FloatLiner
